import Mathlib

/-!
# Verification of the `dancinglinks` exact-cover solver

A shallow embedding of `src/dancinglinks.go` (package `dancinglinks`).

The Go code is an arena of doubly-linked nodes: item nodes forming a cyclic
ring anchored at a blank `itemHead` sentinel, and entry nodes forming one
cyclic column ring per item, anchored at a blank head entry per item.

We embed the heap with integer node ids, following the design of the source:

* item-ring nodes: ids `0 .. I-1` are the items (in construction order),
  id `I` is the `itemHead` sentinel.  `left`/`right` are arrays of length
  `I + 1` mapping each node id to the id of its neighbour.
* column nodes: ids `0 .. I-1` are the per-item blank head entries (the head
  of item `i` has id `i`), and ids `I, I+1, ...` are the real entry nodes,
  numbered in creation order (option by option, and inside an option in the
  order of its item list — exactly the order of the two nested loops in
  `New`).  `up`/`down` are arrays of length `I + #entries`.
* `choices` is the per-item counter array (length `I`).  It is a Go `int`,
  so we use `Int`.
* The head entry of item `i` stores option `-1` in Go and its `item` field is
  nil; neither field is ever read on the states the program reaches.  We give
  the head of item `i` the item `i` and the out-of-range option index
  `options.length` (lookups with it yield the empty list, exactly as no code
  path ever dereferences Go's `-1`).
-/

namespace DancingLinks

/-- A decision record.  In the Go source (`dancinglinks.go` lines 5-8):
`type Step struct { option int; choices []int }` — note that it has exactly
two fields, the chosen option index and the snapshot of candidate options. -/
structure Step where
  option : Nat
  choices : List Nat
  deriving Repr, DecidableEq

/-- The successor of `x` in the list `l` read cyclically (used to state the
link structure that `New`'s append loops produce). -/
def nextInRing (l : List Nat) (x : Nat) : Nat :=
  match l.dropWhile (fun y => y ≠ x) with
  | _ :: y :: _ => y
  | _ => l.headD x

/-- The predecessor of `x` in the list `l` read cyclically. -/
def prevInRing (l : List Nat) (x : Nat) : Nat :=
  nextInRing l.reverse x

/-- The flattened entry list of the input: one `(optionIndex, itemIndex)`
pair per entry node, in creation order (the order of the two nested loops of
`New`, `dancinglinks.go` lines 88-105). -/
def flatPairs (options : List (List Nat)) : List (Nat × Nat) :=
  (options.enum.map (fun p => p.2.map (fun it => (p.1, it)))).flatten

/-- Node count of the entry arena: `I` head entries plus one node per
incidence. -/
def numNodes (I : Nat) (options : List (List Nat)) : Nat :=
  I + (flatPairs options).length

/-- The item of entry node `n` (heads included: the head of item `i` is node
`i`). -/
def entryItemOf (I : Nat) (options : List (List Nat)) (n : Nat) : Nat :=
  if n < I then n else ((flatPairs options).map (·.2)).getD (n - I) 0

/-- The option of entry node `n`; heads get the out-of-range index
`options.length` (Go stores `-1`, which is likewise never a valid index). -/
def entryOptOf (I : Nat) (options : List (List Nat)) (n : Nat) : Nat :=
  if n < I then options.length
  else ((flatPairs options).map (·.1)).getD (n - I) options.length

/-- The entry-node ids of option `k`, in the order of `k`'s item list: the
consecutive block of creation-order ids (Go's `dl.options[k]`,
built by the append on line 99). -/
def optionEntriesOf (I : Nat) (options : List (List Nat)) (k : Nat) : List Nat :=
  ((flatPairs options).enum.filterMap
    (fun p => if p.2.1 = k then some (I + p.1) else none))

/-- The entry-node ids of the column of item `i`, top to bottom (Go's loop
appends entries to `lastEntries[itemIndex]`, so the column order is creation
order restricted to the column). -/
def colEntriesOf (I : Nat) (options : List (List Nat)) (i : Nat) : List Nat :=
  ((flatPairs options).enum.filterMap
    (fun p => if p.2.2 = i then some (I + p.1) else none))

/-- The solver state: the mutable link arrays and counters, together with the
construction input (Go's `DancingLinks` record; the `options` field of entry
pointers is recovered by `optionEntriesOf`). -/
structure DL where
  itemCount : Nat
  optionItems : List (List Nat)
  left : List Nat
  right : List Nat
  up : List Nat
  down : List Nat
  choices : List Int
  selected : List Nat
  deleted : List Nat
  deriving Repr, DecidableEq

namespace DL

/-- Id of the `itemHead` sentinel. -/
def ihead (st : DL) : Nat := st.itemCount

def getLeft (st : DL) (n : Nat) : Nat := st.left.getD n 0
def getRight (st : DL) (n : Nat) : Nat := st.right.getD n 0
def getUp (st : DL) (n : Nat) : Nat := st.up.getD n 0
def getDown (st : DL) (n : Nat) : Nat := st.down.getD n 0
def getChoices (st : DL) (i : Nat) : Int := st.choices.getD i 0

def setLeft (st : DL) (n v : Nat) : DL := { st with left := st.left.set n v }
def setRight (st : DL) (n v : Nat) : DL := { st with right := st.right.set n v }
def setUp (st : DL) (n v : Nat) : DL := { st with up := st.up.set n v }
def setDown (st : DL) (n v : Nat) : DL := { st with down := st.down.set n v }
def decChoices (st : DL) (i : Nat) : DL :=
  { st with choices := st.choices.set i (st.choices.getD i 0 - 1) }
def incChoices (st : DL) (i : Nat) : DL :=
  { st with choices := st.choices.set i (st.choices.getD i 0 + 1) }

def entryItem (st : DL) (n : Nat) : Nat := entryItemOf st.itemCount st.optionItems n
def entryOpt (st : DL) (n : Nat) : Nat := entryOptOf st.itemCount st.optionItems n
def optionEntries (st : DL) (k : Nat) : List Nat := optionEntriesOf st.itemCount st.optionItems k
def colEntries (st : DL) (i : Nat) : List Nat := colEntriesOf st.itemCount st.optionItems i

end DL

/-- The item-ring traversal order produced by `New`: the sentinel, then the
items in index order (`lastItem.right = newItem` appends, then the list is
closed into a cycle, `dancinglinks.go` lines 60-79). -/
def itemRing (I : Nat) : List Nat := I :: List.range I

/-- The column ring of item `i` as built by `New`: the blank head, then the
column's entries in creation order (lines 81-111). -/
def colRing (I : Nat) (options : List (List Nat)) (i : Nat) : List Nat :=
  i :: colEntriesOf I options i

/-- `New` (`dancinglinks.go` lines 52-114): build the cyclic item ring, the
cyclic column rings, and the initial `choices` counters (each entry increments
its item's counter, line 96). -/
def New (itemCount : Nat) (options : List (List Nat)) : DL :=
  let E := numNodes itemCount options
  { itemCount := itemCount
    optionItems := options
    left := (List.range (itemCount + 1)).map (fun n => prevInRing (itemRing itemCount) n)
    right := (List.range (itemCount + 1)).map (fun n => nextInRing (itemRing itemCount) n)
    up := (List.range E).map (fun n =>
      prevInRing (colRing itemCount options (entryItemOf itemCount options n)) n)
    down := (List.range E).map (fun n =>
      nextInRing (colRing itemCount options (entryItemOf itemCount options n)) n)
    choices := (List.range itemCount).map
      (fun i => (((flatPairs options).map (·.2)).count i : Int))
    selected := []
    deleted := [] }

namespace DL

/-- Unlink item node `e` from the item ring (`item.left.right = item.right;
item.right.left = item.left`, `dancinglinks.go` lines 204-205).  The two Go
statements execute in order, each reading the current heap. -/
def unlinkItem (st : DL) (e : Nat) : DL :=
  let st1 := st.setRight (st.getLeft e) (st.getRight e)
  st1.setLeft (st1.getRight e) (st1.getLeft e)

/-- Relink item node `e` (`item.left.right = item; item.right.left = item`,
lines 273-274). -/
def relinkItem (st : DL) (e : Nat) : DL :=
  let st1 := st.setRight (st.getLeft e) e
  st1.setLeft (st1.getRight e) e

/-- Unlink entry node `g` from its column and decrement its item's counter
(`entry.up.down = entry.down; entry.down.up = entry.up; entry.item.choices--`,
lines 223-228). -/
def unlinkEntry (st : DL) (g : Nat) : DL :=
  let st1 := st.setDown (st.getUp g) (st.getDown g)
  let st2 := st1.setUp (st1.getDown g) (st1.getUp g)
  st2.decChoices (st2.entryItem g)

/-- Relink entry node `g` into its column and increment its item's counter
(`entry.up.down = entry; entry.down.up = entry; entry.item.choices++`,
lines 284-288). -/
def relinkEntry (st : DL) (g : Nat) : DL :=
  let st1 := st.setDown (st.getUp g) g
  let st2 := st1.setUp (st1.getDown g) g
  st2.incChoices (st2.entryItem g)

/-- Delete every entry of option `j` (the inner loop of `chooseOption`,
lines 222-229). -/
def deleteOption (st : DL) (j : Nat) : DL :=
  (st.optionEntries j).foldl unlinkEntry st

/-- Restore every entry of option `j`, in forward entry order (the inner loop
of the cleanup stage, lines 283-289). -/
def restoreOption (st : DL) (j : Nat) : DL :=
  (st.optionEntries j).foldl relinkEntry st

/-- The conflict walk of `chooseOption` over one covered item's column
(lines 209-230): follow `down` links from the blank head, and delete each
encountered option unless it is already in the deleted log.  The next node is
read from the heap after the deletion, exactly as
`conflict = conflict.down` re-reads the (stale, never-cleared) field.  The Go
loop has no counter; we supply fuel, in every reachable state the walk stops
at the head long before `numNodes + 1` steps. -/
def walkDel (st : DL) (head : Nat) (del : List Nat) (cur : Nat) :
    Nat → DL × List Nat
  | 0 => (st, del)
  | fuel + 1 =>
    if cur = head then (st, del)
    else
      let o := st.entryOpt cur
      if o ∈ del then walkDel st head del (st.getDown cur) fuel
      else
        let del' := del ++ [o]
        let st' := st.deleteOption o
        walkDel st' head del' (st'.getDown cur) fuel

/-- `chooseOption` (`dancinglinks.go` lines 193-232): for each entry of the
chosen option, unlink the covered item from the item ring and run the
conflict walk over its column, threading the deleted log. -/
def chooseOption (st : DL) (index : Nat) (del : List Nat) : DL × List Nat :=
  (st.optionEntries index).foldl
    (fun p g =>
      let e := p.1.entryItem g
      let st1 := p.1.unlinkItem e
      walkDel st1 e p.2 (st1.getDown e) (numNodes st1.itemCount st1.optionItems + 1))
    (st, del)

/-- `ForceOptions` (lines 186-191): record each index in `selected`, and
cover it against the persistent `deleted` log. -/
def ForceOptions (st : DL) (indices : List Nat) : DL :=
  indices.foldl
    (fun st index =>
      let st' := { st with selected := st.selected ++ [index] }
      let p := st'.chooseOption index st'.deleted
      { p.1 with deleted := p.2 })
    st

/-- The uncover of one cleanup stage (lines 261-290): relink the chosen
option's items in reverse entry order, then restore the options of the
stage's deleted log in reverse append order. -/
def cleanupOp (st : DL) (choice : Nat) (del : List Nat) : DL :=
  let st1 := (st.optionEntries choice).reverse.foldl
    (fun st g => st.relinkItem (st.entryItem g)) st
  del.reverse.foldl restoreOption st1

/-- The item-ring traversal of `nextChoices` (lines 326-331), fueled like the
column walks: the ids of the active items, in ring order from the sentinel. -/
def ringItems (st : DL) : List Nat :=
  go (st.getRight st.ihead) (st.itemCount + 1)
where
  go (cur : Nat) : Nat → List Nat
    | 0 => []
    | fuel + 1 =>
      if cur = st.ihead then [] else cur :: go (st.getRight cur) fuel

/-- The downward column walk of `nextChoices` (lines 338-343): the option of
each entry linked in item `i`'s column, top to bottom. -/
def colOptions (st : DL) (i : Nat) : List Nat :=
  go (st.getDown i) (numNodes st.itemCount st.optionItems + 1)
where
  go (cur : Nat) : Nat → List Nat
    | 0 => []
    | fuel + 1 =>
      if cur = i then [] else st.entryOpt cur :: go (st.getDown cur) fuel

/-- `nextChoices` (lines 323-344): find the active item with the fewest
choices — the strict `<` keeps the first, i.e. leftmost, minimum — and return
its column's options; `none` (Go `nil`) when the ring is empty. -/
def nextChoices (st : DL) : Option (List Nat) :=
  match st.ringItems with
  | [] => none
  | f :: rest =>
    let first := (f :: rest).foldl
      (fun a b => if st.getChoices b < st.getChoices a then b else a) f
    some (st.colOptions first)

end DL

/-- The two stage kinds of the explicit-stack search (`searchStage` and
`cleanupStage`, lines 235-242).  Go's initial `searchStage{-1, nil}` choice
sentinel is modelled by `none`. -/
inductive StageT where
  | search (choice : Option Nat) (choices : List Nat)
  | cleanup (choice : Nat) (deleted : List Nat)
  deriving Repr, DecidableEq

namespace DL

/-- One aspect of `GenerateSolutions` has no Go counterpart: the callback may
close over arbitrary state.  Every callback the claims quantify over is
determined by how many times it has been invoked, so `yield` here receives
the 0-based invocation count alongside the path.  The returned triple is the
final state, the number of `yield` invocations, and the invoked paths in
order; `none` only on fuel exhaustion (the Go loop has no fuel). -/
def engineLoop (yield : Nat → List Step → Bool) :
    Nat → DL → List StageT → List Step → Nat → List (List Step) →
    Option (DL × Nat × List (List Step))
  | 0, _, _, _, _, _ => none
  | _ + 1, st, [], _, ycount, ylog => some (st, ycount, ylog)
  | fuel + 1, st, .cleanup choice del :: rest, path, ycount, ylog =>
    -- lines 261-290: pop the path entry and uncover.
    engineLoop yield fuel (st.cleanupOp choice del) rest path.dropLast ycount ylog
  | fuel + 1, st, .search choice choices :: rest, path, ycount, ylog =>
    -- lines 292-318.
    let covered : DL × List StageT × List Step :=
      match choice with
      | some c =>
        let p := st.chooseOption c []
        (p.1, .cleanup c p.2 :: rest, path ++ [⟨c, choices⟩])
      | none => (st, rest, path)
    let st2 := covered.1
    let stages2 := covered.2.1
    let path2 := covered.2.2
    match st2.nextChoices with
    | none =>
      if yield ycount path2 then
        engineLoop yield fuel st2 stages2 path2 (ycount + 1) (ylog ++ [path2])
      else
        -- line 308: `return` — the pending cleanup stages are abandoned.
        some (st2, ycount + 1, ylog ++ [path2])
    | some choices2 =>
      -- Candidates are pushed in reverse so the first is popped first.
      engineLoop yield fuel st2
        (choices2.map (fun c => StageT.search (some c) choices2) ++ stages2)
        path2 ycount ylog

/-- `GenerateSolutions` (lines 248-321), starting from the single
`searchStage{-1, nil}`. -/
def GenerateSolutions (st : DL) (yield : Nat → List Step → Bool) (fuel : Nat) :
    Option (DL × Nat × List (List Step)) :=
  engineLoop yield fuel st [.search none []] [] 0 []

/-- `AllSolutions` (lines 168-175): run with an always-true callback and
collect the yielded covers. -/
def AllSolutions (st : DL) (fuel : Nat) : Option (List (List Step)) :=
  (st.GenerateSolutions (fun _ _ => true) fuel).map (fun r => r.2.2)

/-- `AnySolution` (lines 177-184): run with an always-false callback; the
last (sole) yielded path, or `[]` if none was yielded. -/
def AnySolution (st : DL) (fuel : Nat) : Option (List Step) :=
  (st.GenerateSolutions (fun _ _ => false) fuel).map
    (fun r => r.2.2.getLastD [])

/-- `ToMatrix` (lines 138-157): index the active items in ring order, then
mark, for every original option, the column of each of its entries' items.
Go reads the index with a map access that yields `0` for an item that is no
longer in the ring — we model the map as an association list with default
`0`. -/
def ToMatrix (st : DL) : List (List Bool) :=
  let ring := st.ringItems
  let idx : Nat → Nat := fun i => ((ring.enum.map (fun p => (p.2, p.1))).lookup i).getD 0
  (List.range st.optionItems.length).map (fun o =>
    (st.optionEntries o).foldl
      (fun row g => row.set (idx (st.entryItem g)) true)
      (List.replicate ring.length false))

end DL

/-! ## Concrete scenarios (the literal examples of the spec and the test file) -/

/-- S1 — Knuth classic (`classic` in the test file). -/
def classicOptions : List (List Nat) := [[2,4],[0,3,6],[1,2,5],[0,3,5],[1,6],[3,4,6]]

/-- S2 — Duplicates (`classicDuplicates` in the test file). -/
def duplicatesOptions : List (List Nat) :=
  [[2,4],[2,4],[0,3,6],[1,2,5],[0,3,5],[0,3,5],[1,6],[3,4,6]]

/-- S3 — Infeasible (`impossible` in the test file). -/
def impossibleOptions : List (List Nat) := [[0,1],[1,2]]

/-- The multiset union of the item sets of the given options (as in §8.2 of
the spec). -/
def itemsUnion (st : DL) (os : List Nat) : Multiset Nat :=
  ((os.map (fun o => st.optionItems.getD o [])).flatten : Multiset Nat)

/-- The dense matrix exactly as §4.2 of the spec describes it: one row per
original option in index order, one column per currently-active item in ring
order, and a cell is true iff the option lists that item.  (This definition
follows the spec's words; it is the comparison point for `ToMatrix`.) -/
def specMatrix (st : DL) : List (List Bool) :=
  (List.range st.optionItems.length).map (fun o =>
    st.ringItems.map (fun i => decide (i ∈ st.optionItems.getD o [])))


/-! ## Canonical states

A reachable solver state is determined, on its *linked* part, by the input,
the set `C` of currently covered items and the set `R` of currently deleted
options: the item ring holds the uncovered items in index order, each column
ring holds the column's surviving entries in creation order, and each
`choices` counter equals the number of surviving entries in its column.
(Unlinked nodes keep stale neighbour fields, which `Canonical` deliberately
does not constrain.) -/

/-- Well-formed construction input: every option's item list is in range and
duplicate-free (an option is a *subset* of items). -/
def WfInput (I : Nat) (opts : List (List Nat)) : Prop :=
  ∀ l ∈ opts, (∀ it ∈ l, it < I) ∧ l.Nodup

/-- The active (uncovered) items, in ring order. -/
def activeList (I : Nat) (C : Finset Nat) : List Nat :=
  (List.range I).filter (fun i => i ∉ C)

/-- The item ring with covered set `C`: the sentinel, then the active items. -/
def ringOf (I : Nat) (C : Finset Nat) : List Nat := I :: activeList I C

/-- The surviving entries of item `i`'s column when the options in `R` are
deleted. -/
def colSurv (I : Nat) (opts : List (List Nat)) (R : Finset Nat) (i : Nat) : List Nat :=
  (colEntriesOf I opts i).filter (fun g => entryOptOf I opts g ∉ R)

/-- The column ring of item `i` when the options in `R` are deleted. -/
def colChain (I : Nat) (opts : List (List Nat)) (R : Finset Nat) (i : Nat) : List Nat :=
  i :: colSurv I opts R i


/-- The ring clause of `Canonical`, over an explicit ring list. -/
def RingCanon (st : DL) (ρ : List Nat) : Prop :=
  ∀ n ∈ ρ, st.getRight n = nextInRing ρ n ∧ st.getLeft n = prevInRing ρ n

/-- The column clause of `Canonical`, with a per-item deleted set `Rf`
(used while a deletion is in progress, when some columns have already lost
the option being deleted and others have not). -/
def ColsCanon (I : Nat) (opts : List (List Nat)) (Rf : Nat → Finset Nat) (st : DL) : Prop :=
  (∀ i < I, ∀ n ∈ colChain I opts (Rf i) i,
    st.getDown n = nextInRing (colChain I opts (Rf i) i) n ∧
    st.getUp n = prevInRing (colChain I opts (Rf i) i) n) ∧
  (∀ i < I, st.getChoices i = ((colSurv I opts (Rf i) i).length : Int))

/-- The canonical description of a reachable state: statics, array lengths,
ring links, column links, counters, and the coherence of `C` with `R` (every
option of a covered item is deleted; every deleted option has a covered
item). -/
def Canonical (I : Nat) (opts : List (List Nat)) (C R : Finset Nat) (st : DL) : Prop :=
  st.itemCount = I ∧ st.optionItems = opts ∧
  st.left.length = I + 1 ∧ st.right.length = I + 1 ∧
  st.up.length = numNodes I opts ∧ st.down.length = numNodes I opts ∧
  st.choices.length = I ∧
  (∀ n ∈ ringOf I C, st.getRight n = nextInRing (ringOf I C) n ∧
    st.getLeft n = prevInRing (ringOf I C) n) ∧
  (∀ i < I, ∀ n ∈ colChain I opts R i,
    st.getDown n = nextInRing (colChain I opts R i) n ∧
    st.getUp n = prevInRing (colChain I opts R i) n) ∧
  (∀ i < I, st.getChoices i = ((colSurv I opts R i).length : Int)) ∧
  (∀ i ∈ C, i < I) ∧ (∀ o ∈ R, o < opts.length) ∧
  (∀ i ∈ C, ∀ o < opts.length, i ∈ opts.getD o [] → o ∈ R) ∧
  (∀ o ∈ R, ∃ i ∈ opts.getD o [], i ∈ C)

/-! ## Column locality, deletion schedules and the reference enumeration

Definitions used by the restoration and enumeration proofs: the node set of a
column, locality of the vertical links, the schedule of options deleted by a
cover, the branching item and candidate list of a `(C, R)`-described state, a
recursive reference enumeration of the search tree, and descriptions of
engine outputs. -/

/-- Node `n` belongs to item `i`'s column: its head, or one of its entries. -/
def inCol (I : Nat) (opts : List (List Nat)) (i n : Nat) : Prop :=
  n = i ∨ n ∈ colEntriesOf I opts i

/-- Column locality of the vertical links: the `up`/`down` field of a
column's node always points inside the same column.  This holds of every
reachable state — stale fields included — because the vertical splices only
ever copy a column-local field, and the ring ops never touch `up`/`down`. -/
def ColWithin (I : Nat) (opts : List (List Nat)) (st : DL) : Prop :=
  ∀ i < I, ∀ n < numNodes I opts, inCol I opts i n →
    inCol I opts i (st.getUp n) ∧ inCol I opts i (st.getDown n)

/-- The options deleted by the conflict walks of a cover, column after
column: walking item `e`'s column deletes its surviving options top to
bottom, and the later columns see those already gone. -/
def coverDelsGo (I : Nat) (opts : List (List Nat)) :
    Finset Nat → List Nat → List Nat
  | _, [] => []
  | S, e :: rest =>
    let ds := (colSurv I opts S e).map (entryOptOf I opts)
    ds ++ coverDelsGo I opts (S ∪ ds.toFinset) rest

/-- The deletion schedule of `chooseOption k` run from a state with deleted
set `R`: the walks over `k`'s item columns, threaded left to right. -/
def coverDels (I : Nat) (opts : List (List Nat)) (R : Finset Nat) (k : Nat) : List Nat :=
  coverDelsGo I opts R (opts.getD k [])

/-- A deletion schedule is fresh for the deleted set `S` when each of its
options is new at its turn (every schedule a cover produces is fresh for the
set the cover started from). -/
def FreshSeq (S : Finset Nat) : List Nat → Prop
  | [] => True
  | o :: rest => o ∉ S ∧ FreshSeq (insert o S) rest

/-- The branching item `nextChoices` selects in a canonical state with
covered set `C` and deleted set `R`: the source's fold, evaluated on the
canonical ring and counters (`I` when the ring is empty). -/
def minItemOf (I : Nat) (opts : List (List Nat)) (C R : Finset Nat) : Nat :=
  match activeList I C with
  | [] => I
  | a :: r => (a :: r).foldl
      (fun x y =>
        if ((colSurv I opts R y).length : Int) < ((colSurv I opts R x).length : Int)
        then y else x) a

/-- The candidate options at a canonical `(C, R)` state: the surviving
options of the branching item's column, top to bottom. -/
def candsOf (I : Nat) (opts : List (List Nat)) (C R : Finset Nat) : List Nat :=
  (colSurv I opts R (minItemOf I opts C R)).map (entryOptOf I opts)

/-- Pure coherence of a covered set and a deleted set, as maintained by the
solver: covered items are in range, deleted options are in range, every
option of a covered item is deleted, and every deleted option has a covered
item. -/
def CRcoherent (I : Nat) (opts : List (List Nat)) (C R : Finset Nat) : Prop :=
  (∀ i ∈ C, i < I) ∧ (∀ o ∈ R, o < opts.length) ∧
  (∀ i ∈ C, ∀ o < opts.length, i ∈ opts.getD o [] → o ∈ R) ∧
  (∀ o ∈ R, ∃ i ∈ opts.getD o [], i ∈ C)

/-- The spec's words for the branching choice (§4.5): the leftmost element of
`l` whose counter value under `f` attains the minimum over `l`.  Comparison
point for the fold `nextChoices` actually runs. -/
def specMinItem (f : Nat → Int) (l : List Nat) : Option Nat :=
  l.find? (fun i => decide (∀ j ∈ l, f i ≤ f j))

/-- The reference enumeration: the decision subtree of the search, described
purely by `(C, R)`.  Fuel bounds the depth; any fuel exceeding
`(activeList I C).length` is enough, because every branch covers at least its
branching item. -/
def subSols (I : Nat) (opts : List (List Nat)) :
    Nat → Finset Nat → Finset Nat → List (List Step)
  | 0, _, _ => []
  | fuel + 1, C, R =>
    if activeList I C = [] then [[]]
    else
      ((candsOf I opts C R).map (fun c =>
        (subSols I opts fuel (C ∪ (opts.getD c []).toFinset)
            (R ∪ (coverDels I opts R c).toFinset)).map
          (fun q => (⟨c, candsOf I opts C R⟩ : Step) :: q))).flatten

/-- The snapshot property of a delivered path (C7): each step's `choices` is
the candidate list at its moment, its option is one of them, and the path
ends exactly when no item is left. -/
def StepsOK (I : Nat) (opts : List (List Nat)) :
    Finset Nat → Finset Nat → List Step → Prop
  | C, _, [] => activeList I C = []
  | C, R, s :: p =>
    activeList I C ≠ [] ∧ s.choices = candsOf I opts C R ∧ s.option ∈ s.choices ∧
    StepsOK I opts (C ∪ (opts.getD s.option []).toFinset)
      (R ∪ (coverDels I opts R s.option).toFinset) p

/-- An exact cover of the residual problem with covered set `C`: a set of
options with nonempty, pairwise disjoint item lists whose union is exactly
the active item set.  (The parts of a partition are nonempty, so an option
with an empty item list belongs to no exact cover.) -/
def IsExactCover (I : Nat) (opts : List (List Nat)) (C F : Finset Nat) : Prop :=
  (∀ o ∈ F, opts.getD o [] ≠ [] ∧ ∀ i ∈ opts.getD o [], i < I ∧ i ∉ C) ∧
  (∀ o ∈ F, ∀ o' ∈ F, o ≠ o' → (opts.getD o []).Disjoint (opts.getD o' [])) ∧
  (∀ i < I, i ∉ C → ∃ o ∈ F, i ∈ opts.getD o [])

/-- The option set of a delivered path. -/
def pathOptions (p : List Step) : Finset Nat := (p.map Step.option).toFinset

/-- The first invocation (0-based, counting from `n0`) at which `yield`
answers false over the solution list `sols`; `none` when it always answers
true. -/
def abortIndex (yield : Nat → List Step → Bool) : Nat → List (List Step) → Option Nat
  | _, [] => none
  | n0, p :: ps => if yield n0 p then (abortIndex yield (n0 + 1) ps).map (· + 1) else some 0

/-- Big-step evaluation of the engine: run with enough fuel, it produces `r`
(the Go loop needs no fuel; fuel only makes the embedding total). -/
def EngineEval (yield : Nat → List Step → Bool) (st : DL) (stages : List StageT)
    (path : List Step) (ycount : Nat) (ylog : List (List Step))
    (r : DL × Nat × List (List Step)) : Prop :=
  ∃ fuel, DL.engineLoop yield fuel st stages path ycount ylog = some r

/-- Apply a list of (position, value) writes to an array, left to right. -/
def applyWrites (l : List Nat) (ws : List (Nat × Nat)) : List Nat :=
  ws.foldl (fun l w => l.set w.1 w.2) l

/-- The horizontal write schedule of unlinking the given items, in order,
from the ring `ρ`: per step, the (position, value) pairs written in the
`right` array and in the `left` array. -/
def ringUnlinkWrites : List Nat → List Nat → List ((Nat × Nat) × (Nat × Nat))
  | _, [] => []
  | ρ, e :: rest =>
    ((prevInRing ρ e, nextInRing ρ e), (nextInRing ρ e, prevInRing ρ e)) ::
      ringUnlinkWrites (ρ.erase e) rest

/-- One candidate's slice of the reference enumeration: the subtrees of the
children of taking option `c`, each prefixed with the Step recording `c` and
the snapshot `CS`. -/
def childSols (I : Nat) (opts : List (List Nat)) (fl : Nat) (CS : List Nat)
    (C R : Finset Nat) (c : Nat) : List (List Step) :=
  (subSols I opts fl (C ∪ (opts.getD c []).toFinset)
      (R ∪ (coverDels I opts R c).toFinset)).map
    (fun q => (⟨c, CS⟩ : Step) :: q)

/-- The solutions contributed by the candidate list `cs` of one branching
block, concatenated in candidate order. -/
def blockSols (I : Nat) (opts : List (List Nat)) (fl : Nat) (CS : List Nat)
    (C R : Finset Nat) (cs : List Nat) : List (List Step) :=
  (cs.map (childSols I opts fl CS C R)).flatten

/-- A forcing sequence is valid when each forced index is, at its turn, an
existing and not-yet-deleted option. -/
def ValidForce (I : Nat) (opts : List (List Nat)) : Finset Nat → List Nat → Prop
  | _, [] => True
  | R, k :: ks => k < opts.length ∧ k ∉ R ∧
      ValidForce I opts (R ∪ (coverDels I opts R k).toFinset) ks

/-! ## Cyclic-ring lemmas

Facts about `nextInRing`/`prevInRing` on duplicate-free lists: membership,
mutual inversion, and how the cyclic successor changes when one element is
spliced out.  These drive all reasoning about the doubly-linked rings. -/

theorem dropWhile_append_all {p : Nat → Bool} {l₁ l₂ : List Nat}
    (h : ∀ a ∈ l₁, p a = true) : (l₁ ++ l₂).dropWhile p = l₂.dropWhile p := by
  induction l₁ with
  | nil => rfl
  | cons a t ih =>
    rw [List.cons_append, List.dropWhile_cons, if_pos (h a (by simp))]
    exact ih (fun a ha => h a (by simp [ha]))

theorem dropWhile_ne_self {l₂ : List Nat} {x : Nat} :
    (x :: l₂).dropWhile (fun y => y ≠ x) = x :: l₂ := by
  rw [List.dropWhile_cons, if_neg (by simp)]

theorem nextInRing_split {l₁ l₂ : List Nat} {x : Nat} (h : x ∉ l₁) :
    nextInRing (l₁ ++ x :: l₂) x =
      match l₂ with
      | y :: _ => y
      | [] => (l₁ ++ x :: l₂).headD x := by
  unfold nextInRing
  rw [dropWhile_append_all (by intro a ha; simp; rintro rfl; exact h ha),
    dropWhile_ne_self]
  cases l₂ <;> rfl

theorem nextInRing_middle {l₁ l₂ : List Nat} {x y : Nat} (h : x ∉ l₁) :
    nextInRing (l₁ ++ x :: y :: l₂) x = y := by
  rw [nextInRing_split h]

theorem nextInRing_last {l₁ : List Nat} {x : Nat} (h : x ∉ l₁) :
    nextInRing (l₁ ++ [x]) x = l₁.headD x := by
  rw [nextInRing_split h]
  cases l₁ <;> rfl

theorem headD_congr {l : List Nat} (h : l ≠ []) (d₁ d₂ : Nat) : l.headD d₁ = l.headD d₂ := by
  cases l with
  | nil => exact absurd rfl h
  | cons a t => rfl

theorem headD_reverse (l : List Nat) (d : Nat) : l.reverse.headD d = l.getLastD d := by
  rw [List.headD_eq_head?_getD, List.head?_reverse, List.getLastD_eq_getLast?]

theorem prevInRing_middle {l₁ l₂ : List Nat} {x y : Nat} (h : x ∉ l₂) :
    prevInRing (l₁ ++ y :: x :: l₂) x = y := by
  unfold prevInRing
  have h2 : (l₁ ++ y :: x :: l₂).reverse = l₂.reverse ++ x :: y :: l₁.reverse := by
    simp
  rw [h2, nextInRing_middle (by simpa using h)]

theorem prevInRing_first {l₂ : List Nat} {x : Nat} (h : x ∉ l₂) :
    prevInRing (x :: l₂) x = l₂.getLastD x := by
  unfold prevInRing
  have h2 : (x :: l₂).reverse = l₂.reverse ++ [x] := by simp
  rw [h2, nextInRing_last (by simpa using h), headD_reverse]

theorem nextInRing_mem {l : List Nat} (x : Nat) (hl : l ≠ []) : nextInRing l x ∈ l := by
  unfold nextInRing
  cases hdw : l.dropWhile (fun y => y ≠ x) with
  | nil =>
    cases l with
    | nil => exact absurd rfl hl
    | cons a t => simp [List.headD]
  | cons a t =>
    cases t with
    | nil =>
      cases l with
      | nil => exact absurd rfl hl
      | cons b u => simp [List.headD]
    | cons y u =>
      exact List.dropWhile_subset _ (by rw [hdw]; simp)

theorem prevInRing_mem {l : List Nat} (x : Nat) (hl : l ≠ []) : prevInRing l x ∈ l := by
  have := nextInRing_mem (l := l.reverse) x (by simpa using hl)
  simpa [prevInRing] using this

theorem nodup_split {x : Nat} {l : List Nat} (hx : x ∈ l) (hn : l.Nodup) :
    ∃ l₁ l₂, l = l₁ ++ x :: l₂ ∧ x ∉ l₁ ∧ x ∉ l₂ := by
  obtain ⟨l₁, l₂, rfl⟩ := List.append_of_mem hx
  rw [List.nodup_append] at hn
  refine ⟨l₁, l₂, rfl, fun h => hn.2.2 h (by simp), by
    have := hn.2.1
    rw [List.nodup_cons] at this
    exact this.1⟩

theorem nextInRing_prevInRing {l : List Nat} {x : Nat} (hn : l.Nodup) (hx : x ∈ l) :
    nextInRing l (prevInRing l x) = x := by
  obtain ⟨l₁, l₂, rfl, hx1, hx2⟩ := nodup_split hx hn
  rcases List.eq_nil_or_concat l₁ with h1 | ⟨a, z, rfl⟩
  · subst h1
    rcases List.eq_nil_or_concat l₂ with h2 | ⟨b, w, rfl⟩
    · subst h2
      rw [List.nil_append, prevInRing_first (by simp)]
      simp only [List.getLastD]
      rw [show ([x] : List Nat) = [] ++ [x] from rfl, nextInRing_last (by simp)]
      rfl
    · simp only [List.concat_eq_append] at hn hx hx2 ⊢
      rw [List.nil_append, prevInRing_first hx2, List.getLastD_concat]
      have hw : w ∉ x :: b := by
        intro h
        rcases List.mem_cons.mp h with h | h
        · exact hx2 (h ▸ by simp)
        · have h2 : (b ++ [w]).Nodup := (List.nodup_cons.mp (by simpa using hn)).2
          rw [List.nodup_append] at h2
          exact h2.2.2 h (by simp)
      rw [show x :: (b ++ [w]) = (x :: b) ++ [w] by simp, nextInRing_last hw]
      rfl
  · simp only [List.concat_eq_append] at hn hx hx1 ⊢
    have hz : z ∉ a := by
      have h2 : (a ++ [z]).Nodup := hn.of_append_left
      rw [List.nodup_append] at h2
      intro h; exact h2.2.2 h (by simp)
    rw [show (a ++ [z]) ++ x :: l₂ = a ++ z :: x :: l₂ by simp, prevInRing_middle hx2,
      nextInRing_middle hz]

theorem prevInRing_nextInRing {l : List Nat} {x : Nat} (hn : l.Nodup) (hx : x ∈ l) :
    prevInRing l (nextInRing l x) = x := by
  have h1 : nextInRing l x = prevInRing l.reverse x := by
    simp [prevInRing]
  have h2 : prevInRing l (nextInRing l x) = nextInRing l.reverse (nextInRing l x) := rfl
  rw [h2, h1, nextInRing_prevInRing (by simpa using hn) (by simpa using hx)]

theorem nextInRing_ne {l : List Nat} {x : Nat} (hn : l.Nodup) (hx : x ∈ l)
    (hlen : 2 ≤ l.length) : nextInRing l x ≠ x := by
  obtain ⟨l₁, l₂, rfl, hx1, hx2⟩ := nodup_split hx hn
  cases l₂ with
  | cons y t =>
    rw [nextInRing_middle hx1]
    intro h; subst h; exact hx2 (by simp)
  | nil =>
    rw [nextInRing_last hx1]
    cases l₁ with
    | nil => simp at hlen
    | cons a t =>
      simp only [List.headD]
      intro h; subst h; exact hx1 (by simp)

theorem prevInRing_ne {l : List Nat} {x : Nat} (hn : l.Nodup) (hx : x ∈ l)
    (hlen : 2 ≤ l.length) : prevInRing l x ≠ x := by
  have := nextInRing_ne (l := l.reverse) (by simpa using hn) (by simpa using hx)
    (by simpa using hlen)
  simpa [prevInRing] using this


theorem erase_append_of_not_mem {l₁ l₂ : List Nat} {e : Nat} (h : e ∉ l₁) :
    (l₁ ++ e :: l₂).erase e = l₁ ++ l₂ := by
  rw [List.erase_append_right _ h, List.erase_cons_head]

theorem reverse_erase {l : List Nat} (hn : l.Nodup) (e : Nat) :
    (l.erase e).reverse = l.reverse.erase e := by
  rw [hn.erase_eq_filter, (by simpa using hn : l.reverse.Nodup).erase_eq_filter,
    ← List.filter_reverse]

theorem nextInRing_erase {l : List Nat} {e n : Nat} (hn : l.Nodup) (he : e ∈ l)
    (hne : n ∈ l.erase e) :
    nextInRing (l.erase e) n =
      if nextInRing l n = e then nextInRing l e else nextInRing l n := by
  obtain ⟨L, Rr, rfl, he1, he2⟩ := nodup_split he hn
  rw [erase_append_of_not_mem he1] at hne ⊢
  have hLnodup : L.Nodup := (List.nodup_append.mp hn).1
  have hRnodup : Rr.Nodup := (List.nodup_cons.mp (List.nodup_append.mp hn).2.1).2
  have hdisj : L.Disjoint (e :: Rr) := (List.nodup_append.mp hn).2.2
  rcases List.mem_append.mp hne with hnL | hnR
  · obtain ⟨a, b, hL, hna, hnb⟩ := nodup_split hnL hLnodup
    subst hL
    have heA : e ∉ a := fun h => he1 (by simp [h])
    cases b with
    | cons y b' =>
      have hy_ne : y ≠ e := fun h => he1 (by simp [h])
      rw [show (a ++ n :: y :: b') ++ e :: Rr = a ++ n :: y :: (b' ++ e :: Rr) by simp,
        nextInRing_middle hna,
        show (a ++ n :: y :: b') ++ Rr = a ++ n :: y :: (b' ++ Rr) by simp,
        nextInRing_middle hna, if_neg hy_ne]
    | nil =>
      rw [show (a ++ n :: []) ++ e :: Rr = a ++ n :: e :: Rr by simp]
      rw [nextInRing_middle hna, if_pos rfl]
      cases Rr with
      | cons y Rr' =>
        rw [show a ++ n :: e :: y :: Rr' = (a ++ [n]) ++ e :: y :: Rr' by simp,
          nextInRing_middle (by simpa using he1),
          show (a ++ n :: []) ++ y :: Rr' = a ++ n :: y :: Rr' by simp,
          nextInRing_middle hna]
      | nil =>
        rw [show a ++ n :: e :: ([] : List Nat) = (a ++ [n]) ++ [e] by simp,
          nextInRing_last (by simpa using he1),
          show (a ++ n :: []) ++ ([] : List Nat) = a ++ [n] by simp,
          nextInRing_last hna]
        cases a <;> rfl
  · obtain ⟨a, b, hR, hna, hnb⟩ := nodup_split hnR hRnodup
    subst hR
    have hnL2 : n ∉ L := fun h => hdisj h (by simp)
    have hne' : n ≠ e := fun h => he2 (by simp [h])
    have hnotin : n ∉ L ++ e :: a := by
      intro h
      rcases List.mem_append.mp h with h | h
      · exact hnL2 h
      · rcases List.mem_cons.mp h with h | h
        · exact hne' h
        · exact hna h
    cases b with
    | cons y b' =>
      have hy_ne : y ≠ e := fun h => he2 (by simp [h])
      rw [show L ++ e :: (a ++ n :: y :: b') = (L ++ e :: a) ++ n :: y :: b' by simp,
        nextInRing_middle hnotin,
        show L ++ (a ++ n :: y :: b') = (L ++ a) ++ n :: y :: b' by simp,
        nextInRing_middle (by
          intro h
          rcases List.mem_append.mp h with h | h
          · exact hnL2 h
          · exact hna h), if_neg hy_ne]
    | nil =>
      rw [show L ++ e :: (a ++ n :: []) = (L ++ e :: a) ++ [n] by simp,
        nextInRing_last hnotin]
      cases L with
      | nil =>
        rw [if_pos (show (([] : List Nat) ++ e :: a).headD n = e from rfl)]
        simp only [List.nil_append]
        cases a with
        | nil =>
          rw [show (e :: ([] : List Nat)) ++ [n] = [] ++ e :: n :: [] by simp,
            nextInRing_middle (by simp),
            show ([] : List Nat) ++ n :: [] = [] ++ [n] by simp,
            nextInRing_last (by simp)]
          rfl
        | cons c a' =>
          rw [show (e :: c :: a') ++ [n] = [] ++ e :: c :: (a' ++ [n]) by simp,
            nextInRing_middle (by simp),
            show c :: a' ++ n :: [] = (c :: a') ++ [n] by simp,
            nextInRing_last hna]
          rfl
      | cons c L' =>
        have hc_ne : c ≠ e := fun h => he1 (by rw [h]; exact List.mem_cons_self e L')
        rw [show ((c :: L') ++ e :: a).headD n = c from rfl, if_neg hc_ne]
        rw [show (c :: L') ++ (a ++ n :: []) = (c :: L' ++ a) ++ [n] by simp,
          nextInRing_last (by
            intro h
            rcases List.mem_append.mp h with h | h
            · exact hnL2 h
            · exact hna h)]
        rfl

theorem prevInRing_erase {l : List Nat} {e n : Nat} (hn : l.Nodup) (he : e ∈ l)
    (hne : n ∈ l.erase e) :
    prevInRing (l.erase e) n =
      if prevInRing l n = e then prevInRing l e else prevInRing l n := by
  unfold prevInRing
  rw [reverse_erase hn]
  exact nextInRing_erase (by simpa using hn) (by simpa using he)
    (by rw [← reverse_erase hn]; simpa using hne)



/-! ## Static structure lemmas -/

theorem getD_of_getElem? {α : Type} {l : List α} {j : Nat} {x : α} (h : l[j]? = some x)
    (d : α) : l.getD j d = x := by
  rw [List.getD_eq_getElem?_getD, h]
  rfl

theorem enum_nodup {α : Type} (l : List α) : l.enum.Nodup :=
  (List.nodup_enum_map_fst l).of_map _

theorem colEntriesOf_eq (I : Nat) (opts : List (List Nat)) (i : Nat) :
    colEntriesOf I opts i =
      ((flatPairs opts).enum.filter (fun p => p.2.2 = i)).map (fun p => I + p.1) := by
  unfold colEntriesOf
  generalize (flatPairs opts).enum = l
  induction l with
  | nil => rfl
  | cons a t ih =>
    rw [List.filterMap_cons, List.filter_cons]
    by_cases h : a.2.2 = i <;> simp [h, ih]

theorem optionEntriesOf_eq (I : Nat) (opts : List (List Nat)) (k : Nat) :
    optionEntriesOf I opts k =
      ((flatPairs opts).enum.filter (fun p => p.2.1 = k)).map (fun p => I + p.1) := by
  unfold optionEntriesOf
  generalize (flatPairs opts).enum = l
  induction l with
  | nil => rfl
  | cons a t ih =>
    rw [List.filterMap_cons, List.filter_cons]
    by_cases h : a.2.1 = k <;> simp [h, ih]

theorem mem_colEntriesOf {I : Nat} {opts : List (List Nat)} {i g : Nat} :
    g ∈ colEntriesOf I opts i ↔
      ∃ p, (flatPairs opts)[g - I]? = some p ∧ p.2 = i ∧ I ≤ g := by
  rw [colEntriesOf_eq]
  constructor
  · intro h
    rcases List.mem_map.mp h with ⟨p, hp, rfl⟩
    rcases List.mem_filter.mp hp with ⟨hp1, hp2⟩
    refine ⟨p.2, ?_, by simpa using hp2, by omega⟩
    have := List.mem_enum_iff_getElem?.mp hp1
    simpa [Nat.add_sub_cancel_left] using this
  · rintro ⟨p, hp, hpi, hIg⟩
    refine List.mem_map.mpr ⟨(g - I, p), List.mem_filter.mpr ⟨?_, by simpa using hpi⟩, by omega⟩
    exact List.mem_enum_iff_getElem?.mpr hp

theorem mem_optionEntriesOf {I : Nat} {opts : List (List Nat)} {k g : Nat} :
    g ∈ optionEntriesOf I opts k ↔
      ∃ p, (flatPairs opts)[g - I]? = some p ∧ p.1 = k ∧ I ≤ g := by
  rw [optionEntriesOf_eq]
  constructor
  · intro h
    rcases List.mem_map.mp h with ⟨p, hp, rfl⟩
    rcases List.mem_filter.mp hp with ⟨hp1, hp2⟩
    refine ⟨p.2, ?_, by simpa using hp2, by omega⟩
    have := List.mem_enum_iff_getElem?.mp hp1
    simpa [Nat.add_sub_cancel_left] using this
  · rintro ⟨p, hp, hpk, hIg⟩
    refine List.mem_map.mpr ⟨(g - I, p), List.mem_filter.mpr ⟨?_, by simpa using hpk⟩, by omega⟩
    exact List.mem_enum_iff_getElem?.mpr hp

theorem entryItemOf_of_flat {I : Nat} {opts : List (List Nat)} {g : Nat} {p : Nat × Nat}
    (hp : (flatPairs opts)[g - I]? = some p) (hIg : I ≤ g) :
    entryItemOf I opts g = p.2 := by
  unfold entryItemOf
  rw [if_neg (by omega)]
  exact getD_of_getElem? (by rw [List.getElem?_map, hp]; rfl) 0

theorem entryOptOf_of_flat {I : Nat} {opts : List (List Nat)} {g : Nat} {p : Nat × Nat}
    (hp : (flatPairs opts)[g - I]? = some p) (hIg : I ≤ g) :
    entryOptOf I opts g = p.1 := by
  unfold entryOptOf
  rw [if_neg (by omega)]
  exact getD_of_getElem? (by rw [List.getElem?_map, hp]; rfl) opts.length

theorem entryItemOf_of_mem_col {I : Nat} {opts : List (List Nat)} {i g : Nat}
    (h : g ∈ colEntriesOf I opts i) : entryItemOf I opts g = i := by
  rcases mem_colEntriesOf.mp h with ⟨p, hp, hpi, hIg⟩
  rw [entryItemOf_of_flat hp hIg, hpi]

theorem entryOptOf_of_mem_option {I : Nat} {opts : List (List Nat)} {k g : Nat}
    (h : g ∈ optionEntriesOf I opts k) : entryOptOf I opts g = k := by
  rcases mem_optionEntriesOf.mp h with ⟨p, hp, hpk, hIg⟩
  rw [entryOptOf_of_flat hp hIg, hpk]

theorem mem_col_of_mem_option {I : Nat} {opts : List (List Nat)} {k g : Nat}
    (h : g ∈ optionEntriesOf I opts k) :
    g ∈ colEntriesOf I opts (entryItemOf I opts g) := by
  rcases mem_optionEntriesOf.mp h with ⟨p, hp, hpk, hIg⟩
  exact mem_colEntriesOf.mpr ⟨p, hp, (entryItemOf_of_flat hp hIg).symm, hIg⟩

theorem mem_option_of_mem_col {I : Nat} {opts : List (List Nat)} {i g : Nat}
    (h : g ∈ colEntriesOf I opts i) :
    g ∈ optionEntriesOf I opts (entryOptOf I opts g) := by
  rcases mem_colEntriesOf.mp h with ⟨p, hp, hpi, hIg⟩
  exact mem_optionEntriesOf.mpr ⟨p, hp, (entryOptOf_of_flat hp hIg).symm, hIg⟩

theorem colEntriesOf_lt {I : Nat} {opts : List (List Nat)} {i g : Nat}
    (h : g ∈ colEntriesOf I opts i) : g < numNodes I opts := by
  rcases mem_colEntriesOf.mp h with ⟨p, hp, _, hIg⟩
  obtain ⟨hlt, -⟩ := List.getElem?_eq_some_iff.mp hp
  unfold numNodes
  omega

theorem optionEntriesOf_lt {I : Nat} {opts : List (List Nat)} {k g : Nat}
    (h : g ∈ optionEntriesOf I opts k) : g < numNodes I opts := by
  rcases mem_optionEntriesOf.mp h with ⟨p, hp, _, hIg⟩
  obtain ⟨hlt, -⟩ := List.getElem?_eq_some_iff.mp hp
  unfold numNodes
  omega

theorem colEntriesOf_ge {I : Nat} {opts : List (List Nat)} {i g : Nat}
    (h : g ∈ colEntriesOf I opts i) : I ≤ g := by
  rcases mem_colEntriesOf.mp h with ⟨p, hp, _, hIg⟩
  exact hIg

theorem optionEntriesOf_ge {I : Nat} {opts : List (List Nat)} {k g : Nat}
    (h : g ∈ optionEntriesOf I opts k) : I ≤ g := by
  rcases mem_optionEntriesOf.mp h with ⟨p, hp, _, hIg⟩
  exact hIg



theorem colEntriesOf_nodup (I : Nat) (opts : List (List Nat)) (i : Nat) :
    (colEntriesOf I opts i).Nodup := by
  rw [colEntriesOf_eq,
    show (fun p : Nat × (Nat × Nat) => I + p.1) = ((I + ·) ∘ Prod.fst) from rfl,
    ← List.map_map]
  exact ((List.nodup_enum_map_fst _).sublist
    ((List.filter_sublist _).map Prod.fst)).map (fun a b h => by omega)

theorem optionEntriesOf_nodup (I : Nat) (opts : List (List Nat)) (k : Nat) :
    (optionEntriesOf I opts k).Nodup := by
  rw [optionEntriesOf_eq,
    show (fun p : Nat × (Nat × Nat) => I + p.1) = ((I + ·) ∘ Prod.fst) from rfl,
    ← List.map_map]
  exact ((List.nodup_enum_map_fst _).sublist
    ((List.filter_sublist _).map Prod.fst)).map (fun a b h => by omega)

theorem enum_map_snd {α : Type} (l : List α) : l.enum.map Prod.snd = l :=
  List.enumFrom_map_snd 0 l

theorem flatPairs_cons (l : List Nat) (ls : List (List Nat)) :
    flatPairs (l :: ls) = l.map (fun it => (0, it)) ++
      (flatPairs ls).map (fun p => (p.1 + 1, p.2)) := by
  unfold flatPairs
  rw [List.enum_cons']
  rw [List.map_cons, List.flatten_cons, List.map_map]
  congr 1
  rw [List.map_flatten, List.map_map]
  congr 1
  refine List.map_congr_left ?_
  intro p _
  simp [List.map_map, Function.comp, Prod.map]

theorem flatPairs_filter_fst (opts : List (List Nat)) (k : Nat) :
    (flatPairs opts).filter (fun p => p.1 = k) =
      (opts.getD k []).map (fun it => (k, it)) := by
  induction opts generalizing k with
  | nil => rfl
  | cons l ls ih =>
    rw [flatPairs_cons, List.filter_append, List.filter_map, List.filter_map]
    cases k with
    | zero =>
      have h1 : (List.filter ((fun p => decide (p.1 = 0)) ∘ fun it => ((0 : Nat), it)) l) = l := by
        apply List.filter_eq_self.mpr
        intro a _
        simp
      have h2 : (List.filter ((fun p => decide (p.1 = 0)) ∘ fun p => (p.1 + 1, p.2))
          (flatPairs ls)) = [] := by
        apply List.filter_eq_nil_iff.mpr
        intro a _
        simp
      rw [h1, h2]
      simp
    | succ k' =>
      have h1 : (List.filter ((fun p => decide (p.1 = k' + 1)) ∘ fun it => ((0 : Nat), it)) l) = [] := by
        apply List.filter_eq_nil_iff.mpr
        intro a _
        simp
      have h2 : (List.filter ((fun p => decide (p.1 = k' + 1)) ∘ fun p => (p.1 + 1, p.2))
          (flatPairs ls)) = (flatPairs ls).filter (fun p => p.1 = k') := by
        apply List.filter_congr
        intro a _
        simp
      rw [h1, h2, ih]
      simp [List.map_map]

theorem optionEntries_items (I : Nat) (opts : List (List Nat)) (k : Nat) :
    (optionEntriesOf I opts k).map (entryItemOf I opts) = opts.getD k [] := by
  rw [optionEntriesOf_eq, List.map_map]
  have hcong : List.map (entryItemOf I opts ∘ fun p => I + p.1)
      ((flatPairs opts).enum.filter (fun p => p.2.1 = k)) =
      List.map (fun p => p.2.2)
        ((flatPairs opts).enum.filter (fun p => p.2.1 = k)) := by
    apply List.map_congr_left
    intro p hp
    have hp1 := List.mem_enum_iff_getElem?.mp (List.mem_filter.mp hp).1
    have hp2 : (flatPairs opts)[(I + p.1) - I]? = some p.2 := by
      simpa [Nat.add_sub_cancel_left] using hp1
    simpa using entryItemOf_of_flat hp2 (by omega)
  rw [hcong]
  have h2 : ((flatPairs opts).enum.filter (fun p => p.2.1 = k)).map (fun p => p.2.2) =
      (((flatPairs opts).enum.map Prod.snd).filter (fun q => q.1 = k)).map
        (fun q => q.2) := by
    rw [List.filter_map, List.map_map]
    rfl
  rw [h2, enum_map_snd, flatPairs_filter_fst, List.map_map]
  simp

theorem choices_count_eq (I : Nat) (opts : List (List Nat)) (i : Nat) :
    ((flatPairs opts).map (·.2)).count i = (colEntriesOf I opts i).length := by
  rw [colEntriesOf_eq, List.length_map, List.count_eq_countP,
    List.countP_eq_length_filter, List.filter_map, List.length_map]
  have h2 : ((flatPairs opts).enum.filter (fun p => p.2.2 = i)).length =
      ((flatPairs opts).filter (fun q => decide (q.2 = i))).length := by
    conv_rhs => rw [← enum_map_snd (flatPairs opts)]
    rw [List.filter_map, List.length_map]
    rfl
  rw [h2]
  apply congrArg
  apply List.filter_congr
  intro a _
  show (a.2 == i) = decide (a.2 = i)
  rw [Bool.eq_iff_iff]
  simp



/-! ## Chains: duplicate-freeness and bounds -/

theorem mem_activeList {I : Nat} {C : Finset Nat} {i : Nat} :
    i ∈ activeList I C ↔ i < I ∧ i ∉ C := by
  simp [activeList]

theorem activeList_nodup (I : Nat) (C : Finset Nat) : (activeList I C).Nodup :=
  (List.nodup_range I).filter _

theorem ringOf_nodup (I : Nat) (C : Finset Nat) : (ringOf I C).Nodup := by
  rw [ringOf, List.nodup_cons]
  exact ⟨fun h => by have := (mem_activeList.mp h).1; omega, activeList_nodup I C⟩

theorem mem_ringOf_lt {I : Nat} {C : Finset Nat} {n : Nat} (h : n ∈ ringOf I C) :
    n < I + 1 := by
  rcases List.mem_cons.mp h with h | h
  · omega
  · have := (mem_activeList.mp h).1; omega

theorem mem_colSurv {I : Nat} {opts : List (List Nat)} {R : Finset Nat} {i g : Nat} :
    g ∈ colSurv I opts R i ↔ g ∈ colEntriesOf I opts i ∧ entryOptOf I opts g ∉ R := by
  simp [colSurv]

theorem colSurv_nodup (I : Nat) (opts : List (List Nat)) (R : Finset Nat) (i : Nat) :
    (colSurv I opts R i).Nodup :=
  (colEntriesOf_nodup I opts i).filter _

theorem colChain_nodup {I : Nat} {opts : List (List Nat)} {R : Finset Nat} {i : Nat}
    (hi : i < I) : (colChain I opts R i).Nodup := by
  rw [colChain, List.nodup_cons]
  refine ⟨fun h => ?_, colSurv_nodup I opts R i⟩
  have := colEntriesOf_ge (mem_colSurv.mp h).1
  omega

theorem mem_colChain_lt {I : Nat} {opts : List (List Nat)} {R : Finset Nat} {i n : Nat}
    (hi : i < I) (h : n ∈ colChain I opts R i) : n < numNodes I opts := by
  rcases List.mem_cons.mp h with h | h
  · subst h; unfold numNodes; omega
  · exact colEntriesOf_lt (mem_colSurv.mp h).1

theorem colChain_item {I : Nat} {opts : List (List Nat)} {R : Finset Nat} {i n : Nat}
    (hi : i < I) (h : n ∈ colChain I opts R i) : entryItemOf I opts n = i := by
  rcases List.mem_cons.mp h with h | h
  · subst h; unfold entryItemOf; rw [if_pos hi]
  · exact entryItemOf_of_mem_col (mem_colSurv.mp h).1

theorem colChain_disjoint {I : Nat} {opts : List (List Nat)} {R R' : Finset Nat}
    {i i' n : Nat} (hi : i < I) (hi' : i' < I) (hne : i ≠ i')
    (h : n ∈ colChain I opts R i) (h' : n ∈ colChain I opts R' i') : False := by
  have := colChain_item hi h
  have := colChain_item hi' h'
  omega

/-! ## The freshly built matrix is canonical -/

theorem getD_map_range {f : Nat → Nat} {m n d : Nat} :
    ((List.range m).map f).getD n d = if n < m then f n else d := by
  by_cases h : n < m
  · rw [if_pos h]
    refine getD_of_getElem? ?_ d
    rw [List.getElem?_map, List.getElem?_range h]
    rfl
  · rw [if_neg h, List.getD_eq_getElem?_getD, List.getElem?_eq_none]
    · rfl
    · simpa using h

theorem getD_map_range_int {f : Nat → Int} {m n : Nat} {d : Int} :
    ((List.range m).map f).getD n d = if n < m then f n else d := by
  by_cases h : n < m
  · rw [if_pos h]
    rw [List.getD_eq_getElem?_getD, List.getElem?_map, List.getElem?_range h]
    rfl
  · rw [if_neg h, List.getD_eq_getElem?_getD, List.getElem?_eq_none]
    · rfl
    · simpa using h

theorem ringOf_empty (I : Nat) : ringOf I (∅ : Finset Nat) = itemRing I := by
  rw [ringOf, itemRing, activeList]
  congr 1
  apply List.filter_eq_self.mpr
  intro a _
  simp

theorem colSurv_empty (I : Nat) (opts : List (List Nat)) (i : Nat) :
    colSurv I opts (∅ : Finset Nat) i = colEntriesOf I opts i := by
  apply List.filter_eq_self.mpr
  intro a _
  simp

theorem colChain_empty (I : Nat) (opts : List (List Nat)) (i : Nat) :
    colChain I opts (∅ : Finset Nat) i = colRing I opts i := by
  rw [colChain, colSurv_empty, colRing]

theorem New_canonical (I : Nat) (opts : List (List Nat)) :
    Canonical I opts ∅ ∅ (New I opts) := by
  refine ⟨rfl, rfl, by simp [New], by simp [New], by simp [New, numNodes],
    by simp [New, numNodes], by simp [New], ?_, ?_, ?_, by simp, by simp, by simp, by simp⟩
  · intro n hn
    rw [ringOf_empty] at hn ⊢
    have hb : n < I + 1 := by
      rcases List.mem_cons.mp hn with h | h
      · omega
      · have := List.mem_range.mp h; omega
    constructor
    · show ((List.range (I + 1)).map (fun n => nextInRing (itemRing I) n)).getD n 0 = _
      rw [getD_map_range, if_pos hb]
    · show ((List.range (I + 1)).map (fun n => prevInRing (itemRing I) n)).getD n 0 = _
      rw [getD_map_range, if_pos hb]
  · intro i hi n hn
    rw [colChain_empty] at hn ⊢
    have hitem : entryItemOf I opts n = i := by
      rcases List.mem_cons.mp hn with h | h
      · subst h; unfold entryItemOf; rw [if_pos hi]
      · exact entryItemOf_of_mem_col h
    have hb : n < numNodes I opts := by
      rcases List.mem_cons.mp hn with h | h
      · subst h; unfold numNodes; omega
      · exact colEntriesOf_lt h
    constructor
    · show ((List.range (numNodes I opts)).map (fun n =>
        nextInRing (colRing I opts (entryItemOf I opts n)) n)).getD n 0 = _
      rw [getD_map_range, if_pos hb, hitem]
    · show ((List.range (numNodes I opts)).map (fun n =>
        prevInRing (colRing I opts (entryItemOf I opts n)) n)).getD n 0 = _
      rw [getD_map_range, if_pos hb, hitem]
  · intro i hi
    show ((List.range I).map (fun i => (((flatPairs opts).map (·.2)).count i : Int))).getD i 0 = _
    rw [getD_map_range_int, if_pos hi, colSurv_empty, choices_count_eq I opts i]



/-! ## Array update lemmas -/

theorem getD_set {α : Type} (l : List α) (i j : Nat) (v d : α) :
    (l.set i v).getD j d = if i = j ∧ i < l.length then v else l.getD j d := by
  rw [List.getD_eq_getElem?_getD, List.getD_eq_getElem?_getD, List.getElem?_set]
  by_cases h1 : i = j
  · subst h1
    by_cases h2 : i < l.length
    · rw [if_pos rfl, if_pos h2, if_pos ⟨rfl, h2⟩]
      rfl
    · rw [if_pos rfl, if_neg h2, if_neg (by tauto), List.getElem?_eq_none (by omega)]
  · rw [if_neg h1, if_neg (by tauto)]

theorem set_getD_self {α : Type} (l : List α) (i : Nat) (d : α) :
    l.set i (l.getD i d) = l := by
  by_cases h : i < l.length
  · apply List.ext_getElem?
    intro j
    rw [List.getElem?_set]
    by_cases h1 : i = j
    · subst h1
      rw [if_pos rfl, if_pos h, List.getD_eq_getElem?_getD, List.getElem?_eq_getElem h]
      rfl
    · rw [if_neg h1]
  · exact List.set_eq_of_length_le (by omega)



/-! ## Primitive operations: normal forms, frames, cancellation -/

theorem DL.ext' {s t : DL} (h1 : s.itemCount = t.itemCount)
    (h2 : s.optionItems = t.optionItems) (h3 : s.left = t.left)
    (h4 : s.right = t.right) (h5 : s.up = t.up) (h6 : s.down = t.down)
    (h7 : s.choices = t.choices) (h8 : s.selected = t.selected)
    (h9 : s.deleted = t.deleted) : s = t := by
  cases s; cases t
  simp only [DL.mk.injEq]
  exact ⟨h1, h2, h3, h4, h5, h6, h7, h8, h9⟩

theorem unlinkItem_eq {st : DL} {e : Nat} (h : st.getLeft e ≠ e) :
    st.unlinkItem e =
      { st with right := st.right.set (st.getLeft e) (st.getRight e),
                left := st.left.set (st.getRight e) (st.getLeft e) } := by
  apply DL.ext' <;>
    simp only [DL.unlinkItem, DL.setRight, DL.setLeft, DL.getRight, DL.getLeft]
  rw [getD_set]
  rw [if_neg (fun hh => h hh.1)]

theorem relinkItem_eq {st : DL} {e : Nat} (h : st.getLeft e ≠ e) :
    st.relinkItem e =
      { st with right := st.right.set (st.getLeft e) e,
                left := st.left.set (st.getRight e) e } := by
  apply DL.ext' <;>
    simp only [DL.relinkItem, DL.setRight, DL.setLeft, DL.getRight, DL.getLeft]
  rw [getD_set]
  rw [if_neg (fun hh => h hh.1)]

theorem unlinkEntry_eq {st : DL} {g : Nat} (h : st.getUp g ≠ g) :
    st.unlinkEntry g =
      { st with down := st.down.set (st.getUp g) (st.getDown g),
                up := st.up.set (st.getDown g) (st.getUp g),
                choices := st.choices.set (st.entryItem g)
                  (st.getChoices (st.entryItem g) - 1) } := by
  apply DL.ext' <;>
    simp only [DL.unlinkEntry, DL.setDown, DL.setUp, DL.decChoices, DL.getDown, DL.getUp,
      DL.getChoices, DL.entryItem]
  rw [getD_set]
  rw [if_neg (fun hh => h hh.1)]

theorem relinkEntry_eq {st : DL} {g : Nat} (h : st.getUp g ≠ g) :
    st.relinkEntry g =
      { st with down := st.down.set (st.getUp g) g,
                up := st.up.set (st.getDown g) g,
                choices := st.choices.set (st.entryItem g)
                  (st.getChoices (st.entryItem g) + 1) } := by
  apply DL.ext' <;>
    simp only [DL.relinkEntry, DL.setDown, DL.setUp, DL.incChoices, DL.getDown, DL.getUp,
      DL.getChoices, DL.entryItem]
  rw [getD_set]
  rw [if_neg (fun hh => h hh.1)]

theorem relinkItem_unlinkItem {st : DL} {e : Nat}
    (hp : st.getLeft e ≠ e) (hn : st.getRight e ≠ e)
    (hre : st.getRight (st.getLeft e) = e) (hle : st.getLeft (st.getRight e) = e) :
    (st.unlinkItem e).relinkItem e = st := by
  rw [unlinkItem_eq hp]
  set p := st.getLeft e with hpdef
  set n := st.getRight e with hndef
  set U : DL := { st with right := st.right.set p n, left := st.left.set n p } with hU
  have hUl : U.getLeft e = p := by
    show (st.left.set n p).getD e 0 = p
    rw [getD_set, if_neg (fun hh => hn hh.1)]
    rfl
  have hUr : U.getRight e = n := by
    show (st.right.set p n).getD e 0 = n
    rw [getD_set, if_neg (fun hh => hp hh.1)]
    rfl
  rw [relinkItem_eq (by rw [hUl]; exact hp)]
  apply DL.ext' <;> simp only [hU, hUl, hUr]
  · rw [List.set_set, show e = st.left.getD n 0 from hle.symm, set_getD_self]
  · rw [List.set_set, show e = st.right.getD p 0 from hre.symm, set_getD_self]

theorem relinkEntry_unlinkEntry {st : DL} {g : Nat}
    (hu : st.getUp g ≠ g) (hd : st.getDown g ≠ g)
    (hdu : st.getDown (st.getUp g) = g) (hud : st.getUp (st.getDown g) = g) :
    (st.unlinkEntry g).relinkEntry g = st := by
  rw [unlinkEntry_eq hu]
  set u := st.getUp g with hudef
  set d := st.getDown g with hddef
  set i := st.entryItem g with hidef
  set c := st.getChoices i with hcdef
  set U : DL := { st with down := st.down.set u d, up := st.up.set d u, choices := st.choices.set i (c - 1) } with hU
  have hUu : U.getUp g = u := by
    show (st.up.set d u).getD g 0 = u
    rw [getD_set, if_neg (fun hh => hd hh.1)]
    rfl
  have hUd : U.getDown g = d := by
    show (st.down.set u d).getD g 0 = d
    rw [getD_set, if_neg (fun hh => hu hh.1)]
    rfl
  rw [relinkEntry_eq (by rw [hUu]; exact hu)]
  apply DL.ext' <;> simp only [hU, hUu, hUd]
  · rw [List.set_set, show g = st.up.getD d 0 from hud.symm, set_getD_self]
  · rw [List.set_set, show g = st.down.getD u 0 from hdu.symm, set_getD_self]
  · show (st.choices.set i (c - 1)).set (U.entryItem g)
      (U.getChoices (U.entryItem g) + 1) = st.choices
    have hUi : U.entryItem g = i := rfl
    rw [hUi, List.set_set]
    by_cases hb : i < st.choices.length
    · have hv : U.getChoices i = c - 1 := by
        show (st.choices.set i (c - 1)).getD i 0 = c - 1
        rw [getD_set, if_pos ⟨rfl, hb⟩]
      rw [hv, sub_add_cancel, show c = st.choices.getD i 0 from rfl, set_getD_self]
    · exact List.set_eq_of_length_le (by omega)



/-! ## Frame lemmas -/

theorem foldl_preserve {α β : Type} {f : DL → α → DL} {g : DL → β}
    (h : ∀ s a, g (f s a) = g s) (l : List α) (s : DL) : g (l.foldl f s) = g s := by
  induction l generalizing s with
  | nil => rfl
  | cons a t ih => rw [List.foldl_cons, ih, h]

@[simp] theorem unlinkItem_up (st : DL) (e : Nat) : (st.unlinkItem e).up = st.up := rfl
@[simp] theorem unlinkItem_down (st : DL) (e : Nat) : (st.unlinkItem e).down = st.down := rfl
@[simp] theorem unlinkItem_choices (st : DL) (e : Nat) : (st.unlinkItem e).choices = st.choices := rfl
@[simp] theorem unlinkItem_itemCount (st : DL) (e : Nat) : (st.unlinkItem e).itemCount = st.itemCount := rfl
@[simp] theorem unlinkItem_optionItems (st : DL) (e : Nat) : (st.unlinkItem e).optionItems = st.optionItems := rfl
@[simp] theorem unlinkItem_selected (st : DL) (e : Nat) : (st.unlinkItem e).selected = st.selected := rfl
@[simp] theorem unlinkItem_deleted (st : DL) (e : Nat) : (st.unlinkItem e).deleted = st.deleted := rfl
@[simp] theorem unlinkItem_left_length (st : DL) (e : Nat) :
    (st.unlinkItem e).left.length = st.left.length := by
  simp [DL.unlinkItem, DL.setLeft, DL.setRight]
@[simp] theorem unlinkItem_right_length (st : DL) (e : Nat) :
    (st.unlinkItem e).right.length = st.right.length := by
  simp [DL.unlinkItem, DL.setLeft, DL.setRight]

@[simp] theorem relinkItem_up (st : DL) (e : Nat) : (st.relinkItem e).up = st.up := rfl
@[simp] theorem relinkItem_down (st : DL) (e : Nat) : (st.relinkItem e).down = st.down := rfl
@[simp] theorem relinkItem_choices (st : DL) (e : Nat) : (st.relinkItem e).choices = st.choices := rfl
@[simp] theorem relinkItem_itemCount (st : DL) (e : Nat) : (st.relinkItem e).itemCount = st.itemCount := rfl
@[simp] theorem relinkItem_optionItems (st : DL) (e : Nat) : (st.relinkItem e).optionItems = st.optionItems := rfl
@[simp] theorem relinkItem_selected (st : DL) (e : Nat) : (st.relinkItem e).selected = st.selected := rfl
@[simp] theorem relinkItem_deleted (st : DL) (e : Nat) : (st.relinkItem e).deleted = st.deleted := rfl

@[simp] theorem unlinkEntry_left (st : DL) (g : Nat) : (st.unlinkEntry g).left = st.left := rfl
@[simp] theorem unlinkEntry_right (st : DL) (g : Nat) : (st.unlinkEntry g).right = st.right := rfl
@[simp] theorem unlinkEntry_itemCount (st : DL) (g : Nat) : (st.unlinkEntry g).itemCount = st.itemCount := rfl
@[simp] theorem unlinkEntry_optionItems (st : DL) (g : Nat) : (st.unlinkEntry g).optionItems = st.optionItems := rfl
@[simp] theorem unlinkEntry_selected (st : DL) (g : Nat) : (st.unlinkEntry g).selected = st.selected := rfl
@[simp] theorem unlinkEntry_deleted (st : DL) (g : Nat) : (st.unlinkEntry g).deleted = st.deleted := rfl
@[simp] theorem unlinkEntry_up_length (st : DL) (g : Nat) :
    (st.unlinkEntry g).up.length = st.up.length := by
  simp [DL.unlinkEntry, DL.setUp, DL.setDown, DL.decChoices]
@[simp] theorem unlinkEntry_down_length (st : DL) (g : Nat) :
    (st.unlinkEntry g).down.length = st.down.length := by
  simp [DL.unlinkEntry, DL.setUp, DL.setDown, DL.decChoices]
@[simp] theorem unlinkEntry_choices_length (st : DL) (g : Nat) :
    (st.unlinkEntry g).choices.length = st.choices.length := by
  simp [DL.unlinkEntry, DL.setUp, DL.setDown, DL.decChoices]

@[simp] theorem relinkEntry_left (st : DL) (g : Nat) : (st.relinkEntry g).left = st.left := rfl
@[simp] theorem relinkEntry_right (st : DL) (g : Nat) : (st.relinkEntry g).right = st.right := rfl
@[simp] theorem relinkEntry_itemCount (st : DL) (g : Nat) : (st.relinkEntry g).itemCount = st.itemCount := rfl
@[simp] theorem relinkEntry_optionItems (st : DL) (g : Nat) : (st.relinkEntry g).optionItems = st.optionItems := rfl
@[simp] theorem relinkEntry_selected (st : DL) (g : Nat) : (st.relinkEntry g).selected = st.selected := rfl
@[simp] theorem relinkEntry_deleted (st : DL) (g : Nat) : (st.relinkEntry g).deleted = st.deleted := rfl

@[simp] theorem deleteOption_left (st : DL) (j : Nat) : (st.deleteOption j).left = st.left := by
  unfold DL.deleteOption
  exact foldl_preserve (f := DL.unlinkEntry) (g := fun s => s.left) (fun s a => rfl) _ st
@[simp] theorem deleteOption_right (st : DL) (j : Nat) : (st.deleteOption j).right = st.right := by
  unfold DL.deleteOption
  exact foldl_preserve (f := DL.unlinkEntry) (g := fun s => s.right) (fun s a => rfl) _ st
@[simp] theorem deleteOption_itemCount (st : DL) (j : Nat) : (st.deleteOption j).itemCount = st.itemCount := by
  unfold DL.deleteOption
  exact foldl_preserve (f := DL.unlinkEntry) (g := fun s => s.itemCount) (fun s a => rfl) _ st
@[simp] theorem deleteOption_optionItems (st : DL) (j : Nat) : (st.deleteOption j).optionItems = st.optionItems := by
  unfold DL.deleteOption
  exact foldl_preserve (f := DL.unlinkEntry) (g := fun s => s.optionItems) (fun s a => rfl) _ st
@[simp] theorem deleteOption_selected (st : DL) (j : Nat) : (st.deleteOption j).selected = st.selected := by
  unfold DL.deleteOption
  exact foldl_preserve (f := DL.unlinkEntry) (g := fun s => s.selected) (fun s a => rfl) _ st
@[simp] theorem deleteOption_deleted (st : DL) (j : Nat) : (st.deleteOption j).deleted = st.deleted := by
  unfold DL.deleteOption
  exact foldl_preserve (f := DL.unlinkEntry) (g := fun s => s.deleted) (fun s a => rfl) _ st
@[simp] theorem deleteOption_up_length (st : DL) (j : Nat) :
    (st.deleteOption j).up.length = st.up.length := by
  unfold DL.deleteOption
  exact foldl_preserve (f := DL.unlinkEntry) (g := fun s => s.up.length)
    (fun s a => unlinkEntry_up_length s a) _ st
@[simp] theorem deleteOption_down_length (st : DL) (j : Nat) :
    (st.deleteOption j).down.length = st.down.length := by
  unfold DL.deleteOption
  exact foldl_preserve (f := DL.unlinkEntry) (g := fun s => s.down.length)
    (fun s a => unlinkEntry_down_length s a) _ st
@[simp] theorem deleteOption_choices_length (st : DL) (j : Nat) :
    (st.deleteOption j).choices.length = st.choices.length := by
  unfold DL.deleteOption
  exact foldl_preserve (f := DL.unlinkEntry) (g := fun s => s.choices.length)
    (fun s a => unlinkEntry_choices_length s a) _ st

/-! ## Canonical preservation under unlinking -/

theorem unlinkItem_ringCanon {st : DL} {ρ : List Nat} {e : Nat}
    (hc : RingCanon st ρ) (hn : ρ.Nodup) (he : e ∈ ρ) (hlen : 2 ≤ ρ.length)
    (hbr : ∀ n ∈ ρ, n < st.right.length) (hbl : ∀ n ∈ ρ, n < st.left.length) :
    RingCanon (st.unlinkItem e) (ρ.erase e) := by
  have hp := (hc e he).2
  have hq := (hc e he).1
  have hρne : ρ ≠ [] := by intro h; subst h; exact absurd he (by simp)
  have hpne : st.getLeft e ≠ e := by rw [hp]; exact prevInRing_ne hn he hlen
  have hnne : st.getRight e ≠ e := by rw [hq]; exact nextInRing_ne hn he hlen
  rw [unlinkItem_eq hpne]
  intro m hm
  have hmρ : m ∈ ρ := List.mem_of_mem_erase hm
  have hme : m ≠ e := (hn.mem_erase_iff.mp hm).1
  have hnext_ne : st.getLeft e ≠ m → nextInRing ρ m ≠ e := by
    intro hcase heq
    apply hcase
    rw [hp, ← heq, prevInRing_nextInRing hn hmρ]
  have hprev_ne : st.getRight e ≠ m → prevInRing ρ m ≠ e := by
    intro hcase heq
    apply hcase
    rw [hq, ← heq, nextInRing_prevInRing hn hmρ]
  constructor
  · show (st.right.set (st.getLeft e) (st.getRight e)).getD m 0 = _
    rw [getD_set, nextInRing_erase hn he hm]
    by_cases hcase : st.getLeft e = m
    · rw [if_pos ⟨hcase, by rw [hcase]; exact hbr m hmρ⟩,
        if_pos (by rw [← hcase, hp]; exact nextInRing_prevInRing hn he)]
      exact hq
    · rw [if_neg (fun hh => hcase hh.1), if_neg (hnext_ne hcase)]
      exact (hc m hmρ).1
  · show (st.left.set (st.getRight e) (st.getLeft e)).getD m 0 = _
    rw [getD_set, prevInRing_erase hn he hm]
    by_cases hcase : st.getRight e = m
    · rw [if_pos ⟨hcase, by rw [hcase]; exact hbl m hmρ⟩,
        if_pos (by rw [← hcase, hq]; exact prevInRing_nextInRing hn he)]
      exact hp
    · rw [if_neg (fun hh => hcase hh.1), if_neg (hprev_ne hcase)]
      exact (hc m hmρ).2



theorem option_entry_unique {I : Nat} {opts : List (List Nat)} {j g g' : Nat}
    (hnd : (opts.getD j []).Nodup)
    (hg : g ∈ optionEntriesOf I opts j) (hg' : g' ∈ optionEntriesOf I opts j)
    (heq : entryItemOf I opts g = entryItemOf I opts g') : g = g' := by
  have hmapnd : ((optionEntriesOf I opts j).map (entryItemOf I opts)).Nodup := by
    rw [optionEntries_items]; exact hnd
  exact List.inj_on_of_nodup_map hmapnd hg hg' heq

theorem colSurv_insert_erase {I : Nat} {opts : List (List Nat)} {R : Finset Nat}
    {i₀ g j : Nat}
    (hg : g ∈ colSurv I opts R i₀) (hj : entryOptOf I opts g = j)
    (huniq : ∀ g' ∈ colEntriesOf I opts i₀, entryOptOf I opts g' = j → g' = g) :
    colSurv I opts (insert j R) i₀ = (colSurv I opts R i₀).erase g := by
  rw [(colSurv_nodup I opts R i₀).erase_eq_filter]
  unfold colSurv
  rw [List.filter_filter]
  apply List.filter_congr
  intro a ha
  by_cases haj : entryOptOf I opts a = j
  · have hag : a = g := huniq a ha haj
    subst hag
    simp [haj, hj]
  · have hag : a ≠ g := fun h => haj (h ▸ hj)
    simp [haj, hag, Finset.mem_insert]

theorem unlinkEntry_colsCanon {I : Nat} {opts : List (List Nat)} {Rf : Nat → Finset Nat}
    {st : DL} {g : Nat}
    (hcc : ColsCanon I opts Rf st)
    (hstI : st.itemCount = I) (hstO : st.optionItems = opts)
    (hi₀ : entryItemOf I opts g < I)
    (hg : g ∈ colSurv I opts (Rf (entryItemOf I opts g)) (entryItemOf I opts g))
    (huniq : ∀ g' ∈ colEntriesOf I opts (entryItemOf I opts g),
      entryOptOf I opts g' = entryOptOf I opts g → g' = g)
    (hdl : st.down.length = numNodes I opts) (hul : st.up.length = numNodes I opts)
    (hcl : st.choices.length = I) :
    ColsCanon I opts
      (fun i => if i = entryItemOf I opts g
        then insert (entryOptOf I opts g) (Rf (entryItemOf I opts g)) else Rf i)
      (st.unlinkEntry g) := by
  set i₀ := entryItemOf I opts g with hi₀def
  set j := entryOptOf I opts g with hjdef
  set ρ := colChain I opts (Rf i₀) i₀ with hρdef
  have hgρ : g ∈ ρ := List.mem_cons_of_mem i₀ hg
  have hnd : ρ.Nodup := colChain_nodup hi₀
  have hρne : ρ ≠ [] := by simp [hρdef, colChain]
  have hlen2 : 2 ≤ ρ.length := by
    rcases hsurv : colSurv I opts (Rf i₀) i₀ with - | ⟨a, t⟩
    · rw [hsurv] at hg; exact absurd hg (by simp)
    · show 2 ≤ (colChain I opts (Rf i₀) i₀).length
      rw [colChain, hsurv]
      simp
  have hu := (hcc.1 i₀ hi₀ g hgρ).2
  have hd := (hcc.1 i₀ hi₀ g hgρ).1
  have hune : st.getUp g ≠ g := by rw [hu]; exact prevInRing_ne hnd hgρ hlen2
  have hdne : st.getDown g ≠ g := by rw [hd]; exact nextInRing_ne hnd hgρ hlen2
  have hitem : st.entryItem g = i₀ := by
    show entryItemOf st.itemCount st.optionItems g = i₀
    rw [hstI, hstO]
  have hgI : I ≤ g := colEntriesOf_ge (mem_colSurv.mp hg).1
  have hchain' : colChain I opts (insert j (Rf i₀)) i₀ = ρ.erase g := by
    rw [hρdef, colChain, colChain, colSurv_insert_erase hg rfl huniq,
      List.erase_cons_tail (by simp only [beq_iff_eq]; omega)]
  have humem : st.getUp g ∈ ρ := by rw [hu]; exact prevInRing_mem g hρne
  have hdmem : st.getDown g ∈ ρ := by rw [hd]; exact nextInRing_mem g hρne
  have hnext_ne : ∀ m ∈ ρ, st.getUp g ≠ m → nextInRing ρ m ≠ g := by
    intro m hmρ hcase heq
    apply hcase
    rw [hu, ← heq, prevInRing_nextInRing hnd hmρ]
  have hprev_ne : ∀ m ∈ ρ, st.getDown g ≠ m → prevInRing ρ m ≠ g := by
    intro m hmρ hcase heq
    apply hcase
    rw [hd, ← heq, nextInRing_prevInRing hnd hmρ]
  rw [unlinkEntry_eq hune]
  constructor
  · intro i hi n hn
    by_cases hii : i = i₀
    · subst hii
      have hRf : (fun i => if i = i₀ then insert j (Rf i₀) else Rf i) i₀ =
          insert j (Rf i₀) := by simp
      rw [hRf] at hn ⊢
      rw [hchain'] at hn ⊢
      have hmρ : n ∈ ρ := List.mem_of_mem_erase hn
      have hme : n ≠ g := (hnd.mem_erase_iff.mp hn).1
      constructor
      · show (st.down.set (st.getUp g) (st.getDown g)).getD n 0 = _
        rw [getD_set, nextInRing_erase hnd hgρ hn]
        by_cases hcase : st.getUp g = n
        · rw [if_pos ⟨hcase, by rw [hcase, hdl]; exact mem_colChain_lt hi₀ (hcase ▸ humem)⟩,
            if_pos (by rw [← hcase, hu]; exact nextInRing_prevInRing hnd hgρ)]
          exact hd
        · rw [if_neg (fun hh => hcase hh.1), if_neg (hnext_ne n hmρ hcase)]
          exact (hcc.1 i₀ hi₀ n hmρ).1
      · show (st.up.set (st.getDown g) (st.getUp g)).getD n 0 = _
        rw [getD_set, prevInRing_erase hnd hgρ hn]
        by_cases hcase : st.getDown g = n
        · rw [if_pos ⟨hcase, by rw [hcase, hul]; exact mem_colChain_lt hi₀ (hcase ▸ hdmem)⟩,
            if_pos (by rw [← hcase, hd]; exact prevInRing_nextInRing hnd hgρ)]
          exact hu
        · rw [if_neg (fun hh => hcase hh.1), if_neg (hprev_ne n hmρ hcase)]
          exact (hcc.1 i₀ hi₀ n hmρ).2
    · have hRf : (fun i' => if i' = i₀ then insert j (Rf i₀) else Rf i') i = Rf i := by
        simp [hii]
      rw [hRf] at hn ⊢
      have hnu : st.getUp g ≠ n := by
        intro h
        exact colChain_disjoint hi₀ hi (fun hh => hii hh.symm) (h ▸ humem) hn
      have hnd' : st.getDown g ≠ n := by
        intro h
        exact colChain_disjoint hi₀ hi (fun hh => hii hh.symm) (h ▸ hdmem) hn
      constructor
      · show (st.down.set (st.getUp g) (st.getDown g)).getD n 0 = _
        rw [getD_set, if_neg (fun hh => hnu hh.1)]
        exact (hcc.1 i hi n hn).1
      · show (st.up.set (st.getDown g) (st.getUp g)).getD n 0 = _
        rw [getD_set, if_neg (fun hh => hnd' hh.1)]
        exact (hcc.1 i hi n hn).2
  · intro i hi
    show (st.choices.set (st.entryItem g) (st.getChoices (st.entryItem g) - 1)).getD i 0 = _
    rw [hitem, getD_set]
    by_cases hii : i = i₀
    · subst hii
      have hRf : (fun i' => if i' = i₀ then insert j (Rf i₀) else Rf i') i₀ =
          insert j (Rf i₀) := by simp
      rw [hRf, if_pos ⟨rfl, by omega⟩, colSurv_insert_erase hg rfl huniq,
        List.length_erase_of_mem hg, hcc.2 i₀ hi]
      have hpos : 0 < (colSurv I opts (Rf i₀) i₀).length := List.length_pos.mpr (by
        intro h; rw [h] at hg; exact absurd hg (by simp))
      omega
    · have hRf : (fun i' => if i' = i₀ then insert j (Rf i₀) else Rf i') i = Rf i := by
        simp [hii]
      rw [hRf, if_neg (fun hh => hii hh.1.symm)]
      exact hcc.2 i hi



theorem ColsCanon_congr {I : Nat} {opts : List (List Nat)} {Rf1 Rf2 : Nat → Finset Nat}
    {st : DL} (h : ∀ i < I, colSurv I opts (Rf1 i) i = colSurv I opts (Rf2 i) i)
    (hc : ColsCanon I opts Rf1 st) : ColsCanon I opts Rf2 st := by
  have hchain : ∀ i < I, colChain I opts (Rf1 i) i = colChain I opts (Rf2 i) i := by
    intro i hi
    rw [colChain, colChain, h i hi]
  exact ⟨fun i hi n hn => by rw [← hchain i hi] at hn ⊢; exact hc.1 i hi n hn,
    fun i hi => by rw [← h i hi]; exact hc.2 i hi⟩

theorem colSurv_insert_of_no_entry {I : Nat} {opts : List (List Nat)} {R : Finset Nat}
    {i j : Nat} (h : ∀ g ∈ colEntriesOf I opts i, entryOptOf I opts g ≠ j) :
    colSurv I opts (insert j R) i = colSurv I opts R i := by
  unfold colSurv
  apply List.filter_congr
  intro g hg
  simp only [Finset.mem_insert, decide_eq_decide]
  have := h g hg
  tauto

theorem no_entry_of_not_mem_option {I : Nat} {opts : List (List Nat)} {i j : Nat}
    (hnm : i ∉ opts.getD j []) :
    ∀ g ∈ colEntriesOf I opts i, entryOptOf I opts g ≠ j := by
  intro g hg heq
  apply hnm
  have hgo : g ∈ optionEntriesOf I opts j := by
    have := mem_option_of_mem_col hg
    rw [heq] at this
    exact this
  have := entryItemOf_of_mem_col hg
  rw [← optionEntries_items I opts j, ← this]
  exact List.mem_map_of_mem _ hgo

theorem deleteOption_spec {I : Nat} {opts : List (List Nat)} {R : Finset Nat}
    {st : DL} {j : Nat}
    (hcc : ColsCanon I opts (fun _ => R) st)
    (hstI : st.itemCount = I) (hstO : st.optionItems = opts)
    (hdl : st.down.length = numNodes I opts) (hul : st.up.length = numNodes I opts)
    (hcl : st.choices.length = I)
    (hjR : j ∉ R) (hnd : (opts.getD j []).Nodup)
    (hwb : ∀ it ∈ opts.getD j [], it < I) :
    ColsCanon I opts (fun _ => insert j R) (st.deleteOption j) ∧
    ∀ x ∈ optionEntriesOf I opts j,
      (st.deleteOption j).getDown x = st.getDown x ∧
      (st.deleteOption j).getUp x = st.getUp x := by
  have hoe : st.optionEntries j = optionEntriesOf I opts j := by
    unfold DL.optionEntries
    rw [hstI, hstO]
  unfold DL.deleteOption
  rw [hoe]
  suffices haux : ∀ todo done s, optionEntriesOf I opts j = done ++ todo →
      s.itemCount = I → s.optionItems = opts →
      s.down.length = numNodes I opts → s.up.length = numNodes I opts →
      s.choices.length = I →
      ColsCanon I opts
        (fun i => if i ∈ done.map (entryItemOf I opts) then insert j R else R) s →
      ColsCanon I opts
        (fun i => if i ∈ (done ++ todo).map (entryItemOf I opts) then insert j R else R)
        (todo.foldl DL.unlinkEntry s) ∧
      ∀ x ∈ optionEntriesOf I opts j,
        (todo.foldl DL.unlinkEntry s).getDown x = s.getDown x ∧
        (todo.foldl DL.unlinkEntry s).getUp x = s.getUp x by
    have h0 := haux (optionEntriesOf I opts j) [] st (by simp) hstI hstO hdl hul hcl
      (ColsCanon_congr (fun i hi => by simp) hcc)
    refine ⟨ColsCanon_congr (fun i hi => ?_) h0.1, h0.2⟩
    simp only [List.nil_append]
    by_cases hmem : i ∈ (optionEntriesOf I opts j).map (entryItemOf I opts)
    · rw [if_pos hmem]
    · rw [if_neg hmem, colSurv_insert_of_no_entry (no_entry_of_not_mem_option (by
        rw [← optionEntries_items I opts j]; exact hmem))]
  intro todo
  induction todo with
  | nil =>
    intro done s hsplit h1 h2 h3 h4 h5 hc
    exact ⟨by simpa using hc, fun x hx => ⟨rfl, rfl⟩⟩
  | cons g rest ih =>
    intro done s hsplit h1 h2 h3 h4 h5 hc
    rw [List.foldl_cons]
    have hg_opt : g ∈ optionEntriesOf I opts j := by rw [hsplit]; simp
    have hitemg_mem : entryItemOf I opts g ∈ opts.getD j [] := by
      rw [← optionEntries_items I opts j]
      exact List.mem_map_of_mem _ hg_opt
    have hi₀ : entryItemOf I opts g < I := hwb _ hitemg_mem
    have hoptg : entryOptOf I opts g = j := entryOptOf_of_mem_option hg_opt
    have hnd_items : ((optionEntriesOf I opts j).map (entryItemOf I opts)).Nodup := by
      rw [optionEntries_items]
      exact hnd
    have hnotdone : entryItemOf I opts g ∉ done.map (entryItemOf I opts) := by
      rw [hsplit, List.map_append, List.map_cons] at hnd_items
      intro hmem
      exact (List.disjoint_of_nodup_append hnd_items) hmem (by simp)
    have hRdone : ((fun i => if i ∈ done.map (entryItemOf I opts) then insert j R else R)
        (entryItemOf I opts g)) = R := by simp [hnotdone]
    have hgcol : g ∈ colSurv I opts R (entryItemOf I opts g) :=
      mem_colSurv.mpr ⟨mem_col_of_mem_option hg_opt, by rw [hoptg]; exact hjR⟩
    have hgcol' : g ∈ colSurv I opts
        ((fun i => if i ∈ done.map (entryItemOf I opts) then insert j R else R)
          (entryItemOf I opts g)) (entryItemOf I opts g) := by rw [hRdone]; exact hgcol
    have huniq : ∀ g' ∈ colEntriesOf I opts (entryItemOf I opts g),
        entryOptOf I opts g' = entryOptOf I opts g → g' = g := by
      intro g' hg' heq
      have hg'o : g' ∈ optionEntriesOf I opts j := by
        have hx := mem_option_of_mem_col hg'
        rw [heq, hoptg] at hx
        exact hx
      exact option_entry_unique hnd hg'o hg_opt (entryItemOf_of_mem_col hg')
    have hρcanon := hc.1 (entryItemOf I opts g) hi₀
    rw [hRdone] at hρcanon
    have hgρ : g ∈ colChain I opts R (entryItemOf I opts g) :=
      List.mem_cons_of_mem _ hgcol
    have hρnodup : (colChain I opts R (entryItemOf I opts g)).Nodup := colChain_nodup hi₀
    have hρne : colChain I opts R (entryItemOf I opts g) ≠ [] := by simp [colChain]
    have hlen2 : 2 ≤ (colChain I opts R (entryItemOf I opts g)).length := by
      rw [colChain]
      have hpos : 0 < (colSurv I opts R (entryItemOf I opts g)).length :=
        List.length_pos.mpr (fun hh => by rw [hh] at hgcol; simp at hgcol)
      simp only [List.length_cons]
      omega
    have hu := (hρcanon g hgρ).2
    have hd := (hρcanon g hgρ).1
    have hune : s.getUp g ≠ g := by rw [hu]; exact prevInRing_ne hρnodup hgρ hlen2
    have hdne : s.getDown g ≠ g := by rw [hd]; exact nextInRing_ne hρnodup hgρ hlen2
    have humem : s.getUp g ∈ colChain I opts R (entryItemOf I opts g) := by
      rw [hu]; exact prevInRing_mem g hρne
    have hdmem : s.getDown g ∈ colChain I opts R (entryItemOf I opts g) := by
      rw [hd]; exact nextInRing_mem g hρne
    -- no entry of option j is a neighbour of g
    have hneigh : ∀ x ∈ optionEntriesOf I opts j, x ≠ s.getUp g ∧ x ≠ s.getDown g := by
      intro x hx
      constructor <;> intro hxeq
      · rcases List.mem_cons.mp (hxeq ▸ humem) with hcase | hcase
        · have := optionEntriesOf_ge hx
          omega
        · have hxi : entryItemOf I opts x = entryItemOf I opts g :=
            entryItemOf_of_mem_col (mem_colSurv.mp hcase).1
          have : x = g := option_entry_unique hnd hx hg_opt hxi
          rw [← hxeq, this] at hune
          exact hune rfl
      · rcases List.mem_cons.mp (hxeq ▸ hdmem) with hcase | hcase
        · have := optionEntriesOf_ge hx
          omega
        · have hxi : entryItemOf I opts x = entryItemOf I opts g :=
            entryItemOf_of_mem_col (mem_colSurv.mp hcase).1
          have : x = g := option_entry_unique hnd hx hg_opt hxi
          rw [← hxeq, this] at hdne
          exact hdne rfl
    have step := unlinkEntry_colsCanon hc h1 h2 hi₀ hgcol' huniq h3 h4 h5
    have step' : ColsCanon I opts
        (fun i => if i ∈ (done ++ [g]).map (entryItemOf I opts) then insert j R else R)
        (s.unlinkEntry g) := by
      refine ColsCanon_congr (fun i hi => ?_) step
      apply congrArg (fun t => colSurv I opts t i)
      show (if i = entryItemOf I opts g
        then insert (entryOptOf I opts g)
          ((fun i => if i ∈ done.map (entryItemOf I opts) then insert j R else R)
            (entryItemOf I opts g))
        else (fun i => if i ∈ done.map (entryItemOf I opts) then insert j R else R) i) =
        (if i ∈ (done ++ [g]).map (entryItemOf I opts) then insert j R else R)
      by_cases hii : i = entryItemOf I opts g
      · subst hii
        rw [if_pos rfl, if_pos (by simp), hoptg, hRdone]
      · have hnm : (i ∈ (done ++ [g]).map (entryItemOf I opts)) ↔
            (i ∈ done.map (entryItemOf I opts)) := by
          simp only [List.map_append, List.map_cons, List.map_nil, List.mem_append,
            List.mem_singleton]
          constructor
          · rintro (h | h)
            · exact h
            · exact absurd h hii
          · exact fun h => Or.inl h
        rw [if_neg hii]
        show (if i ∈ done.map (entryItemOf I opts) then insert j R else R) = _
        by_cases hmem : i ∈ done.map (entryItemOf I opts)
        · rw [if_pos hmem, if_pos (hnm.mpr hmem)]
        · rw [if_neg hmem, if_neg (fun hh => hmem (hnm.mp hh))]
    obtain ⟨ihc, ihframe⟩ := ih (done ++ [g]) (s.unlinkEntry g) (by rw [hsplit]; simp)
      (by simp [h1]) (by simp [h2]) (by simp [h3]) (by simp [h4]) (by simp [h5]) step'
    constructor
    · refine ColsCanon_congr (fun i hi => ?_) ihc
      rw [show done ++ [g] ++ rest = done ++ g :: rest by simp]
    · intro x hx
      have hxu : x ≠ s.getUp g := (hneigh x hx).1
      have hxd : x ≠ s.getDown g := (hneigh x hx).2
      have hframe1 : (s.unlinkEntry g).getDown x = s.getDown x := by
        rw [unlinkEntry_eq hune]
        show (s.down.set (s.getUp g) (s.getDown g)).getD x 0 = s.getDown x
        rw [getD_set, if_neg (fun hh => hxu hh.1.symm)]
        rfl
      have hframe2 : (s.unlinkEntry g).getUp x = s.getUp x := by
        rw [unlinkEntry_eq hune]
        show (s.up.set (s.getDown g) (s.getUp g)).getD x 0 = s.getUp x
        rw [getD_set, if_neg (fun hh => hxd hh.1.symm)]
        rfl
      exact ⟨by rw [(ihframe x hx).1, hframe1], by rw [(ihframe x hx).2, hframe2]⟩



theorem wf_option_facts {I : Nat} {opts : List (List Nat)} (hwf : WfInput I opts)
    (o : Nat) : (opts.getD o []).Nodup ∧ ∀ it ∈ opts.getD o [], it < I := by
  by_cases h : o < opts.length
  · have hmem : opts.getD o [] ∈ opts := by
      rw [List.getD_eq_getElem?_getD, List.getElem?_eq_getElem h]
      exact List.getElem_mem _
    exact ⟨(hwf _ hmem).2, (hwf _ hmem).1⟩
  · rw [List.getD_eq_getElem?_getD, List.getElem?_eq_none (by omega)]
    exact ⟨List.nodup_nil, by simp⟩

theorem entryOpt_state {s : DL} {I : Nat} {opts : List (List Nat)}
    (h1 : s.itemCount = I) (h2 : s.optionItems = opts) (g : Nat) :
    s.entryOpt g = entryOptOf I opts g := by
  unfold DL.entryOpt
  rw [h1, h2]

theorem walkDel_succ (st : DL) (head : Nat) (del : List Nat) (cur f : Nat) :
    DL.walkDel st head del cur (f + 1) =
      if cur = head then (st, del)
      else if st.entryOpt cur ∈ del then DL.walkDel st head del (st.getDown cur) f
      else DL.walkDel (st.deleteOption (st.entryOpt cur)) head (del ++ [st.entryOpt cur])
        ((st.deleteOption (st.entryOpt cur)).getDown cur) f := rfl

theorem walkDel_spec {I : Nat} {opts : List (List Nat)} (hwf : WfInput I opts) {e : Nat}
    (he : e < I) :
    ∀ (rem : List Nat) (pre : List Nat) (s : DL) (del : List Nat) (S : Finset Nat)
      (fuel : Nat),
      s.itemCount = I → s.optionItems = opts →
      s.down.length = numNodes I opts → s.up.length = numNodes I opts →
      s.choices.length = I →
      ColsCanon I opts (fun _ => S) s →
      (∀ o ∈ del, o ∈ S) →
      colSurv I opts S e = pre ++ rem →
      rem.length + 1 ≤ fuel →
      DL.walkDel s e del (rem.headD e) fuel =
        ((rem.map (fun g => entryOptOf I opts g)).foldl (fun t o => t.deleteOption o) s,
          del ++ rem.map (fun g => entryOptOf I opts g)) ∧
      ColsCanon I opts
        (fun _ => S ∪ (rem.map (fun g => entryOptOf I opts g)).toFinset)
        ((rem.map (fun g => entryOptOf I opts g)).foldl (fun t o => t.deleteOption o) s) := by
  intro rem
  induction rem with
  | nil =>
    intro pre s del S fuel h1 h2 h3 h4 h5 hcc hdel hsplit hfuel
    match fuel, hfuel with
    | f + 1, _ =>
      constructor
      · show DL.walkDel s e del e (f + 1) = (s, del ++ [])
        rw [walkDel_succ, if_pos rfl, List.append_nil]
      · exact ColsCanon_congr (fun i hi => by simp) hcc
  | cons g rest ih =>
    intro pre s del S fuel h1 h2 h3 h4 h5 hcc hdel hsplit hfuel
    match fuel, hfuel with
    | f + 1, hfuel =>
    have hgsurv : g ∈ colSurv I opts S e := by rw [hsplit]; simp
    have hgcol : g ∈ colEntriesOf I opts e := (mem_colSurv.mp hgsurv).1
    have hgI : I ≤ g := colEntriesOf_ge hgcol
    have hge : g ≠ e := by omega
    set o := entryOptOf I opts g with hodef
    have hoS : o ∉ S := (mem_colSurv.mp hgsurv).2
    have hodel : o ∉ del := fun h => hoS (hdel o h)
    have hgopt : g ∈ optionEntriesOf I opts o := mem_option_of_mem_col hgcol
    have hsurvnd : (colSurv I opts S e).Nodup := colSurv_nodup I opts S e
    have hgpre : g ∉ pre := by
      rw [hsplit] at hsurvnd
      intro hmem
      exact (List.disjoint_of_nodup_append hsurvnd) hmem (by simp)
    have hchain : colChain I opts S e = (e :: pre) ++ g :: rest := by
      rw [colChain, hsplit]
      simp
    have hgnotin : g ∉ e :: pre := by
      intro h
      rcases List.mem_cons.mp h with h | h
      · exact hge h
      · exact hgpre h
    -- one unfolding of the walk
    have hstep : DL.walkDel s e del ((g :: rest).headD e) (f + 1) =
        DL.walkDel (s.deleteOption o) e (del ++ [o])
          ((s.deleteOption o).getDown g) f := by
      show DL.walkDel s e del g (f + 1) = _
      rw [walkDel_succ, if_neg hge, entryOpt_state h1 h2, ← hodef, if_neg hodel]
    -- facts about the deletion
    obtain ⟨hcc', hframe⟩ := deleteOption_spec hcc h1 h2 h3 h4 h5 hoS
      (wf_option_facts hwf o).1 (wf_option_facts hwf o).2
    -- the next cursor is the head of the rest
    have hnextg : (s.deleteOption o).getDown g = rest.headD e := by
      rw [(hframe g hgopt).1]
      have hcanon := hcc.1 e he g (by rw [hchain]; simp)
      rw [hcanon.1, hchain, nextInRing_split hgnotin]
      cases rest with
      | nil => rfl
      | cons r t => rfl
    -- unique entry of option o in column e
    have huniq : ∀ g' ∈ colEntriesOf I opts e, entryOptOf I opts g' = o → g' = g := by
      intro g' hg' heq
      exact option_entry_unique (wf_option_facts hwf o).1
        (by have hx := mem_option_of_mem_col hg'; rw [heq] at hx; exact hx) hgopt
        (by rw [entryItemOf_of_mem_col hg', entryItemOf_of_mem_col hgcol])
    have hsplit' : colSurv I opts (insert o S) e = pre ++ rest := by
      rw [colSurv_insert_erase hgsurv rfl huniq, hsplit, List.erase_append_right _ hgpre,
        List.erase_cons_head]
    have hdel' : ∀ o' ∈ del ++ [o], o' ∈ insert o S := by
      intro o' ho'
      rcases List.mem_append.mp ho' with h | h
      · exact Finset.mem_insert_of_mem (hdel o' h)
      · rw [List.mem_singleton.mp h]
        exact Finset.mem_insert_self o S
    obtain ⟨ihres, ihcc⟩ := ih pre (s.deleteOption o) (del ++ [o]) (insert o S) f
      (by simp [h1]) (by simp [h2]) (by simp [h3]) (by simp [h4]) (by simp [h5])
      hcc' hdel' hsplit' (by simpa using Nat.lt_of_succ_le hfuel)
    have hsetresult : (g :: rest).map (fun g => entryOptOf I opts g) =
        o :: rest.map (fun g => entryOptOf I opts g) := by rw [List.map_cons]
    constructor
    · rw [hstep, hnextg, ihres, hsetresult, List.foldl_cons]
      simp
    · rw [hsetresult, List.foldl_cons]
      have hset : insert o S ∪ (rest.map (fun g => entryOptOf I opts g)).toFinset =
          S ∪ (o :: rest.map (fun g => entryOptOf I opts g)).toFinset := by
        ext x
        simp only [Finset.mem_union, Finset.mem_insert, List.toFinset_cons, List.mem_toFinset]
        tauto
      rw [← hset]
      exact ihcc



/-! ## Field classes: the horizontal and vertical operations commute

`unlinkItem`/`relinkItem` read and write only `left`/`right`;
`unlinkEntry`/`relinkEntry` read and write only `up`/`down`/`choices` (and
the immutable statics).  The two classes therefore commute, which factors a
cover into its ring part and its column part. -/

theorem unlinkItem_eq' (st : DL) (e : Nat) :
    st.unlinkItem e =
      { st with right := st.right.set (st.getLeft e) (st.getRight e),
                left := st.left.set (st.getRight e) (st.getLeft e) } := by
  apply DL.ext' <;>
    simp only [DL.unlinkItem, DL.setRight, DL.setLeft, DL.getRight, DL.getLeft]
  rw [getD_set]
  split
  · rfl
  · rfl

theorem unlinkEntry_eq' (st : DL) (g : Nat) :
    st.unlinkEntry g =
      { st with down := st.down.set (st.getUp g) (st.getDown g),
                up := st.up.set (st.getDown g) (st.getUp g),
                choices := st.choices.set (st.entryItem g)
                  (st.getChoices (st.entryItem g) - 1) } := by
  apply DL.ext' <;>
    simp only [DL.unlinkEntry, DL.setDown, DL.setUp, DL.decChoices, DL.getDown, DL.getUp,
      DL.getChoices, DL.entryItem]
  rw [getD_set]
  split
  · rfl
  · rfl

theorem unlinkEntry_unlinkItem_comm (st : DL) (e g : Nat) :
    (st.unlinkItem e).unlinkEntry g = (st.unlinkEntry g).unlinkItem e := by
  cases st
  rfl

theorem relinkEntry_unlinkItem_comm (st : DL) (e g : Nat) :
    (st.unlinkItem e).relinkEntry g = (st.relinkEntry g).unlinkItem e := by
  cases st
  rfl

theorem unlinkEntry_relinkItem_comm (st : DL) (e g : Nat) :
    (st.relinkItem e).unlinkEntry g = (st.unlinkEntry g).relinkItem e := by
  cases st
  rfl

theorem relinkEntry_relinkItem_comm (st : DL) (e g : Nat) :
    (st.relinkItem e).relinkEntry g = (st.relinkEntry g).relinkItem e := by
  cases st
  rfl

theorem foldl_unlinkEntry_unlinkItem_comm (gs : List Nat) (st : DL) (e : Nat) :
    gs.foldl DL.unlinkEntry (st.unlinkItem e) =
      (gs.foldl DL.unlinkEntry st).unlinkItem e := by
  induction gs generalizing st with
  | nil => rfl
  | cons g r ih =>
    rw [List.foldl_cons, List.foldl_cons, unlinkEntry_unlinkItem_comm, ih]

theorem foldl_unlinkEntry_relinkItem_comm (gs : List Nat) (st : DL) (e : Nat) :
    gs.foldl DL.unlinkEntry (st.relinkItem e) =
      (gs.foldl DL.unlinkEntry st).relinkItem e := by
  induction gs generalizing st with
  | nil => rfl
  | cons g r ih =>
    rw [List.foldl_cons, List.foldl_cons, unlinkEntry_relinkItem_comm, ih]

theorem foldl_relinkEntry_unlinkItem_comm (gs : List Nat) (st : DL) (e : Nat) :
    gs.foldl DL.relinkEntry (st.unlinkItem e) =
      (gs.foldl DL.relinkEntry st).unlinkItem e := by
  induction gs generalizing st with
  | nil => rfl
  | cons g r ih =>
    rw [List.foldl_cons, List.foldl_cons, relinkEntry_unlinkItem_comm, ih]

theorem foldl_relinkEntry_relinkItem_comm (gs : List Nat) (st : DL) (e : Nat) :
    gs.foldl DL.relinkEntry (st.relinkItem e) =
      (gs.foldl DL.relinkEntry st).relinkItem e := by
  induction gs generalizing st with
  | nil => rfl
  | cons g r ih =>
    rw [List.foldl_cons, List.foldl_cons, relinkEntry_relinkItem_comm, ih]

theorem deleteOption_unlinkItem_comm (st : DL) (e o : Nat) :
    (st.unlinkItem e).deleteOption o = (st.deleteOption o).unlinkItem e := by
  show (st.optionEntries o).foldl DL.unlinkEntry (st.unlinkItem e) =
    ((st.optionEntries o).foldl DL.unlinkEntry st).unlinkItem e
  exact foldl_unlinkEntry_unlinkItem_comm _ st e

theorem deleteOption_relinkItem_comm (st : DL) (e o : Nat) :
    (st.relinkItem e).deleteOption o = (st.deleteOption o).relinkItem e := by
  show (st.optionEntries o).foldl DL.unlinkEntry (st.relinkItem e) =
    ((st.optionEntries o).foldl DL.unlinkEntry st).relinkItem e
  exact foldl_unlinkEntry_relinkItem_comm _ st e

theorem restoreOption_unlinkItem_comm (st : DL) (e o : Nat) :
    (st.unlinkItem e).restoreOption o = (st.restoreOption o).unlinkItem e := by
  show (st.optionEntries o).foldl DL.relinkEntry (st.unlinkItem e) =
    ((st.optionEntries o).foldl DL.relinkEntry st).unlinkItem e
  exact foldl_relinkEntry_unlinkItem_comm _ st e

theorem restoreOption_relinkItem_comm (st : DL) (e o : Nat) :
    (st.relinkItem e).restoreOption o = (st.restoreOption o).relinkItem e := by
  show (st.optionEntries o).foldl DL.relinkEntry (st.relinkItem e) =
    ((st.optionEntries o).foldl DL.relinkEntry st).relinkItem e
  exact foldl_relinkEntry_relinkItem_comm _ st e

theorem foldl_deleteOption_unlinkItem_comm (D : List Nat) (st : DL) (e : Nat) :
    D.foldl DL.deleteOption (st.unlinkItem e) =
      (D.foldl DL.deleteOption st).unlinkItem e := by
  induction D generalizing st with
  | nil => rfl
  | cons o r ih =>
    rw [List.foldl_cons, List.foldl_cons, deleteOption_unlinkItem_comm, ih]

theorem foldl_deleteOption_relinkItem_comm (D : List Nat) (st : DL) (e : Nat) :
    D.foldl DL.deleteOption (st.relinkItem e) =
      (D.foldl DL.deleteOption st).relinkItem e := by
  induction D generalizing st with
  | nil => rfl
  | cons o r ih =>
    rw [List.foldl_cons, List.foldl_cons, deleteOption_relinkItem_comm, ih]

theorem foldl_relinkItem_entry (gs : List Nat) (st : DL) :
    gs.foldl (fun s g => s.relinkItem (s.entryItem g)) st =
      (gs.map st.entryItem).foldl DL.relinkItem st := by
  induction gs generalizing st with
  | nil => rfl
  | cons g r ih =>
    rw [List.foldl_cons, List.map_cons, List.foldl_cons, ih]
    rfl

theorem activeList_insert (I : Nat) (C : Finset Nat) {e : Nat}
    (he : e ∈ activeList I C) :
    activeList I (insert e C) = (activeList I C).erase e := by
  rw [(activeList_nodup I C).erase_eq_filter]
  unfold activeList
  rw [List.filter_filter]
  apply List.filter_congr
  intro a ha
  by_cases hae : a = e
  · subst hae
    simp
  · simp [Finset.mem_insert, hae]

theorem ringOf_insert {I : Nat} {C : Finset Nat} {e : Nat}
    (he : e ∈ activeList I C) :
    ringOf I (insert e C) = (ringOf I C).erase e := by
  have heI : e < I := (mem_activeList.mp he).1
  unfold ringOf
  rw [activeList_insert I C he,
    List.erase_cons_tail (by simp only [beq_iff_eq]; omega)]

/-! ## Column locality

Every node of a column has its vertical fields pointing inside the same
column; columns of distinct items share no node.  This is what lets splices
on different columns commute even on stale fields. -/

theorem inCol_item {I : Nat} {opts : List (List Nat)} {i n : Nat} (hi : i < I)
    (h : inCol I opts i n) : entryItemOf I opts n = i := by
  rcases h with h | h
  · subst h
    unfold entryItemOf
    rw [if_pos hi]
  · exact entryItemOf_of_mem_col h

theorem inCol_disjoint {I : Nat} {opts : List (List Nat)} {i i' n : Nat}
    (hi : i < I) (hi' : i' < I) (hii : i ≠ i')
    (h1 : inCol I opts i n) (h2 : inCol I opts i' n) : False :=
  hii ((inCol_item hi h1).symm.trans (inCol_item hi' h2))

theorem inCol_lt {I : Nat} {opts : List (List Nat)} {i n : Nat} (hi : i < I)
    (h : inCol I opts i n) : n < numNodes I opts := by
  rcases h with h | h
  · subst h
    unfold numNodes
    omega
  · exact colEntriesOf_lt h

theorem entry_inCol {I : Nat} {opts : List (List Nat)} {o g : Nat}
    (hwf : WfInput I opts) (hg : g ∈ optionEntriesOf I opts o) :
    entryItemOf I opts g < I ∧ g ∈ colEntriesOf I opts (entryItemOf I opts g) := by
  have hmem : entryItemOf I opts g ∈ opts.getD o [] := by
    rw [← optionEntries_items I opts o]
    exact List.mem_map_of_mem _ hg
  exact ⟨(wf_option_facts hwf o).2 _ hmem, mem_col_of_mem_option hg⟩

theorem unlinkEntry_getUp_frame {s : DL} {h x : Nat} (hx : s.getDown h ≠ x) :
    (s.unlinkEntry h).getUp x = s.getUp x := by
  rw [unlinkEntry_eq']
  show (s.up.set (s.getDown h) (s.getUp h)).getD x 0 = _
  rw [getD_set, if_neg (fun hh => hx hh.1)]
  rfl

theorem unlinkEntry_getDown_frame {s : DL} {h x : Nat} (hx : s.getUp h ≠ x) :
    (s.unlinkEntry h).getDown x = s.getDown x := by
  rw [unlinkEntry_eq']
  show (s.down.set (s.getUp h) (s.getDown h)).getD x 0 = _
  rw [getD_set, if_neg (fun hh => hx hh.1)]
  rfl

theorem unlinkItem_colWithin {I : Nat} {opts : List (List Nat)} {st : DL} {e : Nat}
    (hcw : ColWithin I opts st) : ColWithin I opts (st.unlinkItem e) := by
  intro i hi n hn hcol
  exact hcw i hi n hn hcol

theorem relinkItem_colWithin {I : Nat} {opts : List (List Nat)} {st : DL} {e : Nat}
    (hcw : ColWithin I opts st) : ColWithin I opts (st.relinkItem e) := by
  intro i hi n hn hcol
  exact hcw i hi n hn hcol

theorem unlinkEntry_colWithin {I : Nat} {opts : List (List Nat)} {st : DL} {g i₀ : Nat}
    (hcw : ColWithin I opts st) (hi₀ : i₀ < I) (hg : inCol I opts i₀ g) :
    ColWithin I opts (st.unlinkEntry g) := by
  have hug := hcw i₀ hi₀ g (inCol_lt hi₀ hg) hg
  intro i hi n hn hcol
  have h1 : (st.unlinkEntry g).getUp n =
      if st.getDown g = n ∧ st.getDown g < st.up.length then st.getUp g
      else st.getUp n := by
    rw [unlinkEntry_eq']
    show (st.up.set (st.getDown g) (st.getUp g)).getD n 0 = _
    rw [getD_set]
    rfl
  have h2 : (st.unlinkEntry g).getDown n =
      if st.getUp g = n ∧ st.getUp g < st.down.length then st.getDown g
      else st.getDown n := by
    rw [unlinkEntry_eq']
    show (st.down.set (st.getUp g) (st.getDown g)).getD n 0 = _
    rw [getD_set]
    rfl
  constructor
  · rw [h1]
    split
    case isTrue hcase =>
      by_cases hii : i = i₀
      · subst hii
        exact hug.1
      · exact absurd (hcase.1 ▸ hug.2) (fun hx => inCol_disjoint hi₀ hi (fun hh => hii hh.symm) hx hcol)
    case isFalse hcase =>
      exact (hcw i hi n hn hcol).1
  · rw [h2]
    split
    case isTrue hcase =>
      by_cases hii : i = i₀
      · subst hii
        exact hug.2
      · exact absurd (hcase.1 ▸ hug.1) (fun hx => inCol_disjoint hi₀ hi (fun hh => hii hh.symm) hx hcol)
    case isFalse hcase =>
      exact (hcw i hi n hn hcol).2

theorem relinkEntry_colWithin {I : Nat} {opts : List (List Nat)} {st : DL} {g i₀ : Nat}
    (hcw : ColWithin I opts st) (hi₀ : i₀ < I) (hg : inCol I opts i₀ g) :
    ColWithin I opts (st.relinkEntry g) := by
  have hug := hcw i₀ hi₀ g (inCol_lt hi₀ hg) hg
  have hqcol : inCol I opts i₀ ((st.setDown (st.getUp g) g).getDown g) := by
    show inCol I opts i₀ ((st.down.set (st.getUp g) g).getD g 0)
    rw [getD_set]
    split
    · exact hg
    · exact hug.2
  intro i hi n hn hcol
  have h1 : (st.relinkEntry g).getUp n =
      if (st.setDown (st.getUp g) g).getDown g = n ∧
          (st.setDown (st.getUp g) g).getDown g < st.up.length then g
      else st.getUp n := by
    show (st.up.set ((st.setDown (st.getUp g) g).getDown g) g).getD n 0 = _
    rw [getD_set]
    rfl
  have h2 : (st.relinkEntry g).getDown n =
      if st.getUp g = n ∧ st.getUp g < st.down.length then g
      else st.getDown n := by
    show (st.down.set (st.getUp g) g).getD n 0 = _
    rw [getD_set]
    rfl
  constructor
  · rw [h1]
    split
    case isTrue hcase =>
      by_cases hii : i = i₀
      · subst hii
        exact hg
      · exact absurd (hcase.1 ▸ hqcol) (fun hx => inCol_disjoint hi₀ hi (fun hh => hii hh.symm) hx hcol)
    case isFalse hcase =>
      exact (hcw i hi n hn hcol).1
  · rw [h2]
    split
    case isTrue hcase =>
      by_cases hii : i = i₀
      · subst hii
        exact hg
      · exact absurd (hcase.1 ▸ hug.1) (fun hx => inCol_disjoint hi₀ hi (fun hh => hii hh.symm) hx hcol)
    case isFalse hcase =>
      exact (hcw i hi n hn hcol).2

theorem foldl_unlinkEntry_colWithin {I : Nat} {opts : List (List Nat)} :
    ∀ (gs : List Nat) (st : DL), ColWithin I opts st →
    (∀ g ∈ gs, ∃ i₀, i₀ < I ∧ inCol I opts i₀ g) →
    ColWithin I opts (gs.foldl DL.unlinkEntry st) := by
  intro gs
  induction gs with
  | nil => exact fun st hcw _ => hcw
  | cons g t ih =>
    intro st hcw hmem
    obtain ⟨i₀, hi₀, hg⟩ := hmem g (by simp)
    exact ih _ (unlinkEntry_colWithin hcw hi₀ hg) (fun x hx => hmem x (by simp [hx]))

theorem foldl_relinkEntry_colWithin {I : Nat} {opts : List (List Nat)} :
    ∀ (gs : List Nat) (st : DL), ColWithin I opts st →
    (∀ g ∈ gs, ∃ i₀, i₀ < I ∧ inCol I opts i₀ g) →
    ColWithin I opts (gs.foldl DL.relinkEntry st) := by
  intro gs
  induction gs with
  | nil => exact fun st hcw _ => hcw
  | cons g t ih =>
    intro st hcw hmem
    obtain ⟨i₀, hi₀, hg⟩ := hmem g (by simp)
    exact ih _ (relinkEntry_colWithin hcw hi₀ hg) (fun x hx => hmem x (by simp [hx]))

theorem deleteOption_colWithin {I : Nat} {opts : List (List Nat)} {st : DL} {o : Nat}
    (hwf : WfInput I opts) (h1 : st.itemCount = I) (h2 : st.optionItems = opts)
    (hcw : ColWithin I opts st) : ColWithin I opts (st.deleteOption o) := by
  show ColWithin I opts ((st.optionEntries o).foldl DL.unlinkEntry st)
  have hoe : st.optionEntries o = optionEntriesOf I opts o := by
    unfold DL.optionEntries
    rw [h1, h2]
  rw [hoe]
  exact foldl_unlinkEntry_colWithin _ st hcw (fun g hg =>
    ⟨entryItemOf I opts g, (entry_inCol hwf hg).1, Or.inr (entry_inCol hwf hg).2⟩)

theorem restoreOption_colWithin {I : Nat} {opts : List (List Nat)} {st : DL} {o : Nat}
    (hwf : WfInput I opts) (h1 : st.itemCount = I) (h2 : st.optionItems = opts)
    (hcw : ColWithin I opts st) : ColWithin I opts (st.restoreOption o) := by
  show ColWithin I opts ((st.optionEntries o).foldl DL.relinkEntry st)
  have hoe : st.optionEntries o = optionEntriesOf I opts o := by
    unfold DL.optionEntries
    rw [h1, h2]
  rw [hoe]
  exact foldl_relinkEntry_colWithin _ st hcw (fun g hg =>
    ⟨entryItemOf I opts g, (entry_inCol hwf hg).1, Or.inr (entry_inCol hwf hg).2⟩)

/-! ## Splices on distinct columns commute, and a restore cancels a delete

`unlinkEntry`/`relinkEntry` on nodes of different columns touch disjoint
array positions (column locality), so they commute; a column's own splice
pair cancels by the local ring identities.  Chaining these, restoring a
deletion schedule in reverse order undoes it exactly. -/

theorem relinkEntry_unlinkEntry_cross {I : Nat} {opts : List (List Nat)} {s : DL}
    {g h iG iH : Nat}
    (h1 : s.itemCount = I) (h2 : s.optionItems = opts)
    (hiG : iG < I) (hiH : iH < I) (hne : iG ≠ iH)
    (hgcol : g ∈ colEntriesOf I opts iG) (hhcol : h ∈ colEntriesOf I opts iH)
    (hug : inCol I opts iG (s.getUp g)) (hdg : inCol I opts iG (s.getDown g))
    (huh : inCol I opts iH (s.getUp h)) (hdh : inCol I opts iH (s.getDown h))
    (hggu : s.getUp g ≠ g) :
    (s.unlinkEntry h).relinkEntry g = (s.relinkEntry g).unlinkEntry h := by
  have hgin : inCol I opts iG g := Or.inr hgcol
  have hhin : inCol I opts iH h := Or.inr hhcol
  have hne' : iH ≠ iG := fun hh => hne hh.symm
  have d1 : s.getDown h ≠ g := fun he => inCol_disjoint hiH hiG hne' (he ▸ hdh) hgin
  have d2 : s.getUp h ≠ g := fun he => inCol_disjoint hiH hiG hne' (he ▸ huh) hgin
  have d3 : s.getDown g ≠ h := fun he => inCol_disjoint hiG hiH hne (he ▸ hdg) hhin
  have d4 : s.getUp g ≠ h := fun he => inCol_disjoint hiG hiH hne (he ▸ hug) hhin
  have d5 : s.getUp h ≠ s.getUp g := fun he =>
    inCol_disjoint hiH hiG hne' (he ▸ huh) hug
  have d6 : s.getDown h ≠ s.getDown g := fun he =>
    inCol_disjoint hiH hiG hne' (he ▸ hdh) hdg
  have hitg : s.entryItem g = iG := by
    show entryItemOf s.itemCount s.optionItems g = iG
    rw [h1, h2]
    exact entryItemOf_of_mem_col hgcol
  have hith : s.entryItem h = iH := by
    show entryItemOf s.itemCount s.optionItems h = iH
    rw [h1, h2]
    exact entryItemOf_of_mem_col hhcol
  have hAu : (s.unlinkEntry h).getUp g = s.getUp g := unlinkEntry_getUp_frame d1
  have hAd : (s.unlinkEntry h).getDown g = s.getDown g := unlinkEntry_getDown_frame d2
  have hAc : (s.unlinkEntry h).getChoices iG = s.getChoices iG := by
    rw [unlinkEntry_eq']
    show (s.choices.set (s.entryItem h) _).getD iG 0 = _
    rw [getD_set, if_neg (fun hh => hne' (hith ▸ hh.1))]
    rfl
  have hAdown : (s.unlinkEntry h).down = s.down.set (s.getUp h) (s.getDown h) := by
    rw [unlinkEntry_eq']
  have hAup : (s.unlinkEntry h).up = s.up.set (s.getDown h) (s.getUp h) := by
    rw [unlinkEntry_eq']
  have hAch : (s.unlinkEntry h).choices =
      s.choices.set iH (s.getChoices iH - 1) := by
    rw [unlinkEntry_eq', hith]
  have hAit : (s.unlinkEntry h).entryItem g = s.entryItem g := rfl
  have hBu : (s.relinkEntry g).getUp h = s.getUp h := by
    rw [relinkEntry_eq hggu]
    show (s.up.set (s.getDown g) g).getD h 0 = _
    rw [getD_set, if_neg (fun hh => d3 hh.1)]
    rfl
  have hBd : (s.relinkEntry g).getDown h = s.getDown h := by
    rw [relinkEntry_eq hggu]
    show (s.down.set (s.getUp g) g).getD h 0 = _
    rw [getD_set, if_neg (fun hh => d4 hh.1)]
    rfl
  have hBc : (s.relinkEntry g).getChoices iH = s.getChoices iH := by
    rw [relinkEntry_eq hggu]
    show (s.choices.set (s.entryItem g) _).getD iH 0 = _
    rw [getD_set, if_neg (fun hh => hne (hitg ▸ hh.1))]
    rfl
  have hBdown : (s.relinkEntry g).down = s.down.set (s.getUp g) g := by
    rw [relinkEntry_eq hggu]
  have hBup : (s.relinkEntry g).up = s.up.set (s.getDown g) g := by
    rw [relinkEntry_eq hggu]
  have hBch : (s.relinkEntry g).choices = s.choices.set iG (s.getChoices iG + 1) := by
    rw [relinkEntry_eq hggu, hitg]
  have hBit : (s.relinkEntry g).entryItem h = s.entryItem h := rfl
  rw [relinkEntry_eq (by rw [hAu]; exact hggu), unlinkEntry_eq' (s.relinkEntry g) h]
  apply DL.ext'
  · rfl
  · rfl
  · rfl
  · rfl
  · show (s.unlinkEntry h).up.set ((s.unlinkEntry h).getDown g) g =
      (s.relinkEntry g).up.set ((s.relinkEntry g).getDown h) ((s.relinkEntry g).getUp h)
    rw [hAd, hAup, hBd, hBu, hBup, List.set_comm _ _ _ d6]
  · show (s.unlinkEntry h).down.set ((s.unlinkEntry h).getUp g) g =
      (s.relinkEntry g).down.set ((s.relinkEntry g).getUp h) ((s.relinkEntry g).getDown h)
    rw [hAu, hAdown, hBu, hBd, hBdown, List.set_comm _ _ _ d5]
  · show (s.unlinkEntry h).choices.set ((s.unlinkEntry h).entryItem g)
        ((s.unlinkEntry h).getChoices ((s.unlinkEntry h).entryItem g) + 1) =
      (s.relinkEntry g).choices.set ((s.relinkEntry g).entryItem h)
        ((s.relinkEntry g).getChoices ((s.relinkEntry g).entryItem h) - 1)
    rw [hAit, hitg, hBit, hith]
    have hAc' : (s.unlinkEntry h).getChoices iG = s.getChoices iG := hAc
    rw [hAc', hAch, hBc, hBch, List.set_comm _ _ _ hne']
  · rfl
  · rfl

theorem foldl_unlinkEntry_relinkEntry_cross {I : Nat} {opts : List (List Nat)}
    {g iG : Nat} (hiG : iG < I) (hgcol : g ∈ colEntriesOf I opts iG) :
    ∀ (hs : List Nat) (s : DL),
    s.itemCount = I → s.optionItems = opts → ColWithin I opts s →
    s.getUp g ≠ g →
    (∀ x ∈ hs, entryItemOf I opts x ≠ iG ∧ entryItemOf I opts x < I ∧
      x ∈ colEntriesOf I opts (entryItemOf I opts x)) →
    hs.foldl DL.unlinkEntry (s.relinkEntry g) =
      (hs.foldl DL.unlinkEntry s).relinkEntry g := by
  intro hs
  induction hs with
  | nil => exact fun s _ _ _ _ _ => rfl
  | cons h t ih =>
    intro s h1 h2 hcw hggu hmem
    obtain ⟨hne, hiH, hhcol⟩ := hmem h (by simp)
    have hglt : g < numNodes I opts := colEntriesOf_lt hgcol
    have hhlt : h < numNodes I opts := colEntriesOf_lt hhcol
    have hug := hcw iG hiG g hglt (Or.inr hgcol)
    have huh := hcw _ hiH h hhlt (Or.inr hhcol)
    have hcross := relinkEntry_unlinkEntry_cross h1 h2 hiG hiH
      (fun hh => hne hh.symm) hgcol hhcol hug.1 hug.2 huh.1 huh.2 hggu
    rw [List.foldl_cons, List.foldl_cons, ← hcross]
    exact ih (s.unlinkEntry h) (by simp [h1]) (by simp [h2])
      (unlinkEntry_colWithin hcw hiH (Or.inr hhcol))
      (by
        have hfr : (s.unlinkEntry h).getUp g = s.getUp g :=
          unlinkEntry_getUp_frame (fun he =>
            inCol_disjoint hiH hiG (fun hh => hne hh) (he ▸ huh.2) (Or.inr hgcol))
        rw [hfr]
        exact hggu)
      (fun x hx => hmem x (by simp [hx]))

theorem colsCanon_entry_facts {I : Nat} {opts : List (List Nat)} {R : Finset Nat}
    {st : DL} (hcc : ColsCanon I opts (fun _ => R) st) {x : Nat}
    (hix : entryItemOf I opts x < I)
    (hx : x ∈ colSurv I opts R (entryItemOf I opts x)) :
    st.getUp x ≠ x ∧ st.getDown x ≠ x ∧
    st.getDown (st.getUp x) = x ∧ st.getUp (st.getDown x) = x := by
  have hcc1 : ∀ i < I, ∀ n ∈ colChain I opts R i,
      st.getDown n = nextInRing (colChain I opts R i) n ∧
      st.getUp n = prevInRing (colChain I opts R i) n := hcc.1
  set i := entryItemOf I opts x with hidef
  set ρ := colChain I opts R i with hρdef
  have hxρ : x ∈ ρ := List.mem_cons_of_mem i hx
  have hnd : ρ.Nodup := colChain_nodup hix
  have hρne : ρ ≠ [] := by simp [hρdef, colChain]
  have hlen2 : 2 ≤ ρ.length := by
    rcases hsurv : colSurv I opts R i with - | ⟨a, t⟩
    · rw [hsurv] at hx
      exact absurd hx (by simp)
    · show 2 ≤ (colChain I opts R i).length
      rw [colChain, hsurv]
      simp
  have hu := (hcc1 i hix x hxρ).2
  have hd := (hcc1 i hix x hxρ).1
  refine ⟨by rw [hu]; exact prevInRing_ne hnd hxρ hlen2,
          by rw [hd]; exact nextInRing_ne hnd hxρ hlen2, ?_, ?_⟩
  · have humem : st.getUp x ∈ ρ := by rw [hu]; exact prevInRing_mem x hρne
    have hh := (hcc1 i hix _ humem).1
    rw [hh, hu, nextInRing_prevInRing hnd hxρ]
  · have hdmem : st.getDown x ∈ ρ := by rw [hd]; exact nextInRing_mem x hρne
    have hh := (hcc1 i hix _ hdmem).2
    rw [hh, hd, prevInRing_nextInRing hnd hxρ]

theorem foldl_relink_unlink_cancel {I : Nat} {opts : List (List Nat)} :
    ∀ (gs : List Nat) (s : DL),
    s.itemCount = I → s.optionItems = opts → ColWithin I opts s →
    (gs.map (entryItemOf I opts)).Nodup →
    (∀ x ∈ gs, entryItemOf I opts x < I ∧
      x ∈ colEntriesOf I opts (entryItemOf I opts x) ∧
      s.getUp x ≠ x ∧ s.getDown x ≠ x ∧
      s.getDown (s.getUp x) = x ∧ s.getUp (s.getDown x) = x) →
    gs.foldl DL.relinkEntry (gs.foldl DL.unlinkEntry s) = s := by
  intro gs
  induction gs with
  | nil => intros; rfl
  | cons g t ih =>
    intro s h1 h2 hcw hnd hfacts
    obtain ⟨hiG, hgcol, hgu, hgd, hgud, hgdu⟩ := hfacts g (by simp)
    have hnd' : ((g :: t).map (entryItemOf I opts)).Nodup := hnd
    rw [List.map_cons] at hnd'
    have hhead : entryItemOf I opts g ∉ t.map (entryItemOf I opts) :=
      (List.nodup_cons.mp hnd').1
    rw [List.foldl_cons, List.foldl_cons]
    have hcw' : ColWithin I opts (s.unlinkEntry g) :=
      unlinkEntry_colWithin hcw hiG (Or.inr hgcol)
    have hgu' : (s.unlinkEntry g).getUp g = s.getUp g :=
      unlinkEntry_getUp_frame hgd
    have hcomm := foldl_unlinkEntry_relinkEntry_cross hiG hgcol t (s.unlinkEntry g)
      (by simp [h1]) (by simp [h2]) hcw' (by rw [hgu']; exact hgu)
      (fun x hx => by
        obtain ⟨hx1, hx2, _⟩ := hfacts x (by simp [hx])
        exact ⟨fun he => hhead (he ▸ List.mem_map_of_mem _ hx), hx1, hx2⟩)
    rw [← hcomm, relinkEntry_unlinkEntry hgu hgd hgud hgdu]
    exact ih s h1 h2 hcw (hnd'.of_cons) (fun x hx => hfacts x (by simp [hx]))

theorem restoreOption_deleteOption {I : Nat} {opts : List (List Nat)}
    {R : Finset Nat} {st : DL} {o : Nat}
    (hcc : ColsCanon I opts (fun _ => R) st)
    (h1 : st.itemCount = I) (h2 : st.optionItems = opts)
    (hcw : ColWithin I opts st) (hoR : o ∉ R)
    (hnd : (opts.getD o []).Nodup) (hwb : ∀ it ∈ opts.getD o [], it < I) :
    (st.deleteOption o).restoreOption o = st := by
  have hwff : ∀ g ∈ optionEntriesOf I opts o, entryItemOf I opts g < I ∧
      g ∈ colEntriesOf I opts (entryItemOf I opts g) := by
    intro g hg
    have hmem : entryItemOf I opts g ∈ opts.getD o [] := by
      rw [← optionEntries_items I opts o]
      exact List.mem_map_of_mem _ hg
    exact ⟨hwb _ hmem, mem_col_of_mem_option hg⟩
  show ((st.deleteOption o).optionEntries o).foldl DL.relinkEntry (st.deleteOption o) = st
  have hoe1 : (st.deleteOption o).optionEntries o = optionEntriesOf I opts o := by
    unfold DL.optionEntries
    rw [deleteOption_itemCount, deleteOption_optionItems, h1, h2]
  have hdel : st.deleteOption o = (optionEntriesOf I opts o).foldl DL.unlinkEntry st := by
    show (st.optionEntries o).foldl DL.unlinkEntry st = _
    unfold DL.optionEntries
    rw [h1, h2]
  rw [hoe1, hdel]
  apply foldl_relink_unlink_cancel _ st h1 h2 hcw
    (by rw [optionEntries_items]; exact hnd)
  intro x hx
  obtain ⟨hx1, hx2⟩ := hwff x hx
  have hsurv : x ∈ colSurv I opts R (entryItemOf I opts x) :=
    mem_colSurv.mpr ⟨hx2, by rw [entryOptOf_of_mem_option hx]; exact hoR⟩
  obtain ⟨f1, f2, f3, f4⟩ := colsCanon_entry_facts hcc hx1 hsurv
  exact ⟨hx1, hx2, f1, f2, f3, f4⟩

theorem foldl_restore_delete_cancel {I : Nat} {opts : List (List Nat)}
    (hwf : WfInput I opts) :
    ∀ (D : List Nat) (S : Finset Nat) (st : DL),
    st.itemCount = I → st.optionItems = opts →
    st.down.length = numNodes I opts → st.up.length = numNodes I opts →
    st.choices.length = I →
    ColsCanon I opts (fun _ => S) st → ColWithin I opts st →
    FreshSeq S D →
    D.reverse.foldl DL.restoreOption (D.foldl DL.deleteOption st) = st := by
  intro D
  induction D with
  | nil => intros; rfl
  | cons o D' ih =>
    intro S st h1 h2 h3 h4 h5 hcc hcw hfresh
    have hfr1 : o ∉ S := hfresh.1
    obtain ⟨hdel_cc, -⟩ := deleteOption_spec hcc h1 h2 h3 h4 h5 hfr1
      (wf_option_facts hwf o).1 (wf_option_facts hwf o).2
    rw [List.reverse_cons, List.foldl_append, List.foldl_cons]
    show ((D'.reverse.foldl DL.restoreOption
      (D'.foldl DL.deleteOption (st.deleteOption o))).restoreOption o) = st
    rw [ih (insert o S) (st.deleteOption o) (by simp [h1]) (by simp [h2])
      (by simp [h3]) (by simp [h4]) (by simp [h5]) hdel_cc
      (deleteOption_colWithin hwf h1 h2 hcw) hfresh.2]
    exact restoreOption_deleteOption hcc h1 h2 hcw hfr1
      (wf_option_facts hwf o).1 (wf_option_facts hwf o).2

/-! ## Support facts for the cover specification -/

theorem colEntriesOf_length_le (I : Nat) (opts : List (List Nat)) (i : Nat) :
    (colEntriesOf I opts i).length ≤ (flatPairs opts).length := by
  rw [colEntriesOf_eq, List.length_map]
  calc ((flatPairs opts).enum.filter _).length ≤ (flatPairs opts).enum.length :=
        List.length_filter_le _ _
    _ = (flatPairs opts).length := List.enum_length

theorem colSurv_length_le (I : Nat) (opts : List (List Nat)) (S : Finset Nat) (i : Nat) :
    (colSurv I opts S i).length ≤ (flatPairs opts).length :=
  le_trans (List.length_filter_le _ _) (colEntriesOf_length_le I opts i)

theorem flatPairs_fst_lt (opts : List (List Nat)) :
    ∀ p ∈ flatPairs opts, p.1 < opts.length := by
  induction opts with
  | nil => intro p hp; exact absurd hp (by simp [flatPairs])
  | cons l ls ih =>
    intro p hp
    rw [flatPairs_cons] at hp
    rcases List.mem_append.mp hp with h | h
    · obtain ⟨it, -, rfl⟩ := List.mem_map.mp h
      simp
    · obtain ⟨q, hq, rfl⟩ := List.mem_map.mp h
      have := ih q hq
      simp only [List.length_cons]
      omega

theorem mem_flatPairs_of {opts : List (List Nat)} {o i : Nat}
    (ho : o < opts.length) (hio : i ∈ opts.getD o []) : (o, i) ∈ flatPairs opts := by
  induction opts generalizing o with
  | nil => simp at ho
  | cons l ls ih =>
    rw [flatPairs_cons]
    cases o with
    | zero =>
      apply List.mem_append_left
      exact List.mem_map.mpr ⟨i, by simpa using hio, rfl⟩
    | succ o' =>
      apply List.mem_append_right
      exact List.mem_map.mpr ⟨(o', i), ih (by simpa using ho) (by simpa using hio), rfl⟩

theorem entryOptOf_lt_of_mem_col {I : Nat} {opts : List (List Nat)} {i g : Nat}
    (h : g ∈ colEntriesOf I opts i) : entryOptOf I opts g < opts.length := by
  rcases mem_colEntriesOf.mp h with ⟨p, hp, hpi, hIg⟩
  rw [entryOptOf_of_flat hp hIg]
  obtain ⟨hlt2, heq2⟩ := List.getElem?_eq_some_iff.mp hp
  have hm := List.getElem_mem hlt2
  rw [heq2] at hm
  exact flatPairs_fst_lt opts p hm

theorem col_option_exists {I : Nat} {opts : List (List Nat)} {i o : Nat}
    (ho : o < opts.length) (hio : i ∈ opts.getD o []) :
    ∃ g ∈ colEntriesOf I opts i, entryOptOf I opts g = o := by
  have hmem : (o, i) ∈ flatPairs opts := mem_flatPairs_of ho hio
  obtain ⟨idx, hidx, hget⟩ := List.getElem_of_mem hmem
  have hp : (flatPairs opts)[(I + idx) - I]? = some (o, i) := by
    rw [show (I + idx) - I = idx from by omega, List.getElem?_eq_getElem hidx, hget]
  refine ⟨I + idx, mem_colEntriesOf.mpr ⟨(o, i), hp, rfl, by omega⟩, ?_⟩
  rw [entryOptOf_of_flat hp (by omega)]

theorem colSurv_opts_nodup {I : Nat} {opts : List (List Nat)} (hwf : WfInput I opts)
    (S : Finset Nat) (i : Nat) :
    ((colSurv I opts S i).map (entryOptOf I opts)).Nodup := by
  apply (colSurv_nodup I opts S i).map_on
  intro x hx y hy hxy
  have hxc : x ∈ colEntriesOf I opts i := (mem_colSurv.mp hx).1
  have hyc : y ∈ colEntriesOf I opts i := (mem_colSurv.mp hy).1
  have hxo : x ∈ optionEntriesOf I opts (entryOptOf I opts x) :=
    mem_option_of_mem_col hxc
  have hyo : y ∈ optionEntriesOf I opts (entryOptOf I opts x) := by
    have h := mem_option_of_mem_col hyc
    rw [hxy]
    exact h
  exact option_entry_unique (wf_option_facts hwf (entryOptOf I opts x)).1 hxo hyo
    (by rw [entryItemOf_of_mem_col hxc, entryItemOf_of_mem_col hyc])

theorem FreshSeq_of_nodup {S : Finset Nat} :
    ∀ {l : List Nat}, l.Nodup → (∀ x ∈ l, x ∉ S) → FreshSeq S l := by
  intro l
  induction l generalizing S with
  | nil => intro _ _; trivial
  | cons x t ih =>
    intro hnd hmem
    refine ⟨hmem x (by simp), ih hnd.of_cons ?_⟩
    intro y hy
    simp only [Finset.mem_insert]
    push_neg
    exact ⟨fun he => (List.nodup_cons.mp hnd).1 (he ▸ hy), hmem y (by simp [hy])⟩

theorem FreshSeq_append {a : List Nat} :
    ∀ {S : Finset Nat} {b : List Nat}, FreshSeq S a →
      FreshSeq (S ∪ a.toFinset) b → FreshSeq S (a ++ b) := by
  induction a with
  | nil =>
    intro S b _ hb
    simpa using hb
  | cons x a' ih =>
    intro S b ha hb
    refine ⟨ha.1, ih ha.2 ?_⟩
    have hset : S ∪ (x :: a').toFinset = insert x S ∪ a'.toFinset := by
      ext y
      simp only [Finset.mem_union, List.toFinset_cons, Finset.mem_insert,
        List.mem_toFinset]
      tauto
    rw [hset] at hb
    exact hb

theorem foldl_unlinkItem_deleteOption_swap (its : List Nat) :
    ∀ (D : List Nat) (st : DL),
    its.foldl DL.unlinkItem (D.foldl DL.deleteOption st) =
      D.foldl DL.deleteOption (its.foldl DL.unlinkItem st) := by
  induction its with
  | nil => intros; rfl
  | cons e t ih =>
    intro D st
    rw [List.foldl_cons, ← foldl_deleteOption_unlinkItem_comm, ih, List.foldl_cons]

theorem foldl_deleteOption_colWithin {I : Nat} {opts : List (List Nat)}
    (hwf : WfInput I opts) :
    ∀ (D : List Nat) (st : DL), st.itemCount = I → st.optionItems = opts →
    ColWithin I opts st → ColWithin I opts (D.foldl DL.deleteOption st) := by
  intro D
  induction D with
  | nil => exact fun st _ _ h => h
  | cons o D' ih =>
    intro st h1 h2 hcw
    exact ih _ (by simp [h1]) (by simp [h2]) (deleteOption_colWithin hwf h1 h2 hcw)

theorem RingCanon_congr {s t : DL} {ρ : List Nat} (hl : t.left = s.left)
    (hr : t.right = s.right) (h : RingCanon s ρ) : RingCanon t ρ := by
  intro n hn
  show t.right.getD n 0 = _ ∧ t.left.getD n 0 = _
  rw [hl, hr]
  exact h n hn

theorem ColsCanon_congr_state {I : Nat} {opts : List (List Nat)}
    {Rf : Nat → Finset Nat} {s t : DL} (hu : t.up = s.up) (hd : t.down = s.down)
    (hc : t.choices = s.choices) (h : ColsCanon I opts Rf s) :
    ColsCanon I opts Rf t := by
  constructor
  · intro i hi n hn
    show t.down.getD n 0 = _ ∧ t.up.getD n 0 = _
    rw [hu, hd]
    exact h.1 i hi n hn
  · intro i hi
    show t.choices.getD i 0 = _
    rw [hc]
    exact h.2 i hi

theorem foldl_deleteOption_left (D : List Nat) (st : DL) :
    (D.foldl DL.deleteOption st).left = st.left :=
  foldl_preserve (f := DL.deleteOption) (g := fun s => s.left) (by simp) D st

theorem foldl_deleteOption_right (D : List Nat) (st : DL) :
    (D.foldl DL.deleteOption st).right = st.right :=
  foldl_preserve (f := DL.deleteOption) (g := fun s => s.right) (by simp) D st

theorem foldl_deleteOption_itemCount (D : List Nat) (st : DL) :
    (D.foldl DL.deleteOption st).itemCount = st.itemCount :=
  foldl_preserve (f := DL.deleteOption) (g := fun s => s.itemCount) (by simp) D st

theorem foldl_deleteOption_optionItems (D : List Nat) (st : DL) :
    (D.foldl DL.deleteOption st).optionItems = st.optionItems :=
  foldl_preserve (f := DL.deleteOption) (g := fun s => s.optionItems) (by simp) D st

theorem foldl_deleteOption_up_length (D : List Nat) (st : DL) :
    (D.foldl DL.deleteOption st).up.length = st.up.length :=
  foldl_preserve (f := DL.deleteOption) (g := fun s => s.up.length) (by simp) D st

theorem foldl_deleteOption_down_length (D : List Nat) (st : DL) :
    (D.foldl DL.deleteOption st).down.length = st.down.length :=
  foldl_preserve (f := DL.deleteOption) (g := fun s => s.down.length) (by simp) D st

theorem foldl_deleteOption_choices_length (D : List Nat) (st : DL) :
    (D.foldl DL.deleteOption st).choices.length = st.choices.length :=
  foldl_preserve (f := DL.deleteOption) (g := fun s => s.choices.length) (by simp) D st

theorem nextInRing_head {l : List Nat} {e : Nat} (h : e ∉ l) :
    nextInRing (e :: l) e = l.headD e := by
  have hs := @nextInRing_split [] l e (by simp)
  cases l with
  | nil => simpa using hs
  | cons y t => simpa using hs

/-! ## The cover specification

Covering an option factors into its ring part (unlink each covered item) and
its column part (delete the scheduled options), preserves canonicity with
`C, R` grown by the covered items and the schedule, and the schedule is
exactly `coverDels`. -/

theorem chooseOption_aux {I : Nat} {opts : List (List Nat)} (hwf : WfInput I opts)
    {k : Nat} :
    ∀ (gs : List Nat) (s : DL) (C' R' : Finset Nat) (L : List Nat),
    (∀ g ∈ gs, g ∈ optionEntriesOf I opts k) →
    ((gs.map (entryItemOf I opts)).Nodup) →
    (∀ g ∈ gs, entryItemOf I opts g ∉ C') →
    s.itemCount = I → s.optionItems = opts →
    s.left.length = I + 1 → s.right.length = I + 1 →
    s.up.length = numNodes I opts → s.down.length = numNodes I opts →
    s.choices.length = I →
    RingCanon s (ringOf I C') →
    ColsCanon I opts (fun _ => R') s →
    ColWithin I opts s →
    (∀ o ∈ L, o ∈ R') →
    ∀ (D : List Nat) (fin : DL),
    D = coverDelsGo I opts R' (gs.map (entryItemOf I opts)) →
    fin = D.foldl DL.deleteOption ((gs.map (entryItemOf I opts)).foldl DL.unlinkItem s) →
    gs.foldl (fun p g =>
        let e := p.1.entryItem g
        let st1 := p.1.unlinkItem e
        DL.walkDel st1 e p.2 (st1.getDown e)
          (numNodes st1.itemCount st1.optionItems + 1)) (s, L) = (fin, L ++ D) ∧
    RingCanon fin (ringOf I (C' ∪ (gs.map (entryItemOf I opts)).toFinset)) ∧
    ColsCanon I opts (fun _ => R' ∪ D.toFinset) fin ∧
    ColWithin I opts fin ∧
    FreshSeq R' D ∧
    (∀ o ∈ D, o < opts.length ∧ ∃ i ∈ gs.map (entryItemOf I opts), i ∈ opts.getD o []) ∧
    (∀ o < opts.length, (∃ i ∈ gs.map (entryItemOf I opts), i ∈ opts.getD o []) →
      o ∈ R' ∪ D.toFinset) := by
  intro gs
  induction gs with
  | nil =>
    intro s C' R' L hgk hnd hnc h1 h2 h3 h4 h5 h6 h7 hring hcc hcw hL D fin hD hfin
    have hD0 : D = [] := by simpa [coverDelsGo] using hD
    subst hD0
    have hfin0 : fin = s := by simpa using hfin
    subst hfin0
    refine ⟨by simp, by simpa using hring, by simpa using hcc, hcw, trivial,
      by simp, ?_⟩
    intro o ho hex
    obtain ⟨i, hi, -⟩ := hex
    simp at hi
  | cons g rest ih =>
    intro s C' R' L hgk hnd hnc h1 h2 h3 h4 h5 h6 h7 hring hcc hcw hL D fin hD hfin
    have hcc1 : ∀ i < I, ∀ n ∈ colChain I opts R' i,
        s.getDown n = nextInRing (colChain I opts R' i) n ∧
        s.getUp n = prevInRing (colChain I opts R' i) n := hcc.1
    have hg_opt : g ∈ optionEntriesOf I opts k := hgk g (by simp)
    set e := entryItemOf I opts g with hedef
    have heI : e < I := (entry_inCol hwf hg_opt).1
    have heC : e ∉ C' := hnc g (by simp)
    have heact : e ∈ activeList I C' := mem_activeList.mpr ⟨heI, heC⟩
    have hering : e ∈ ringOf I C' := List.mem_cons_of_mem _ heact
    have hsit : s.entryItem g = e := by
      show entryItemOf s.itemCount s.optionItems g = e
      rw [h1, h2]
    set ds := (colSurv I opts R' e).map (fun g => entryOptOf I opts g) with hdsdef
    set st1 := s.unlinkItem e with hst1def
    have hchainmem : e ∈ colChain I opts R' e := by simp [colChain]
    have hdown : s.getDown e = (colSurv I opts R' e).headD e := by
      rw [(hcc1 e heI e hchainmem).1]
      show nextInRing (e :: colSurv I opts R' e) e = _
      exact nextInRing_head (fun hmem => by
        have := colEntriesOf_ge (mem_colSurv.mp hmem).1
        omega)
    have hwalk := walkDel_spec hwf heI (colSurv I opts R' e) [] st1 L R'
      (numNodes I opts + 1) h1 h2 h6 h5 h7
      (ColsCanon_congr_state rfl rfl rfl hcc) hL (by simp)
      (by have := colSurv_length_le I opts R' e; unfold numNodes; omega)
    have hstep : (fun (p : DL × List Nat) (g : Nat) =>
          let e := p.1.entryItem g
          let st1 := p.1.unlinkItem e
          DL.walkDel st1 e p.2 (st1.getDown e)
            (numNodes st1.itemCount st1.optionItems + 1))
        (s, L) g = (ds.foldl (fun t o => t.deleteOption o) st1, L ++ ds) := by
      show DL.walkDel (s.unlinkItem (s.entryItem g)) (s.entryItem g) L
          ((s.unlinkItem (s.entryItem g)).getDown (s.entryItem g))
          (numNodes (s.unlinkItem (s.entryItem g)).itemCount
            (s.unlinkItem (s.entryItem g)).optionItems + 1) = _
      rw [hsit]
      rw [show (s.unlinkItem e).getDown e = (colSurv I opts R' e).headD e from hdown]
      rw [show numNodes (s.unlinkItem e).itemCount (s.unlinkItem e).optionItems =
        numNodes I opts from by
          show numNodes s.itemCount s.optionItems = numNodes I opts
          rw [h1, h2]]
      exact hwalk.1
    have hsfold : ∀ (t : DL), ds.foldl (fun t o => t.deleteOption o) t =
        ds.foldl DL.deleteOption t := fun t => rfl
    set s' := ds.foldl DL.deleteOption st1 with hsPdef
    -- ring invariant after unlinking e and deleting the schedule
    have hlen2 : 2 ≤ (ringOf I C').length := by
      show 2 ≤ (I :: activeList I C').length
      have hpos : 0 < (activeList I C').length :=
        List.length_pos.mpr (List.ne_nil_of_mem heact)
      simp only [List.length_cons]
      omega
    have hring1 : RingCanon st1 ((ringOf I C').erase e) :=
      unlinkItem_ringCanon hring (ringOf_nodup I C') hering hlen2
        (fun n hn => by have := mem_ringOf_lt hn; omega)
        (fun n hn => by have := mem_ringOf_lt hn; omega)
    have hring1' : RingCanon st1 (ringOf I (insert e C')) := by
      rw [ringOf_insert heact]
      exact hring1
    have hring' : RingCanon s' (ringOf I (insert e C')) :=
      RingCanon_congr (by rw [hsPdef, foldl_deleteOption_left])
        (by rw [hsPdef, foldl_deleteOption_right]) hring1'
    have hcc' : ColsCanon I opts (fun _ => R' ∪ ds.toFinset) s' := hwalk.2
    have hcw1 : ColWithin I opts st1 := unlinkItem_colWithin hcw
    have hcw' : ColWithin I opts s' :=
      foldl_deleteOption_colWithin hwf ds st1 h1 h2 hcw1
    -- statics and lengths at s'
    have hs1 : s'.itemCount = I := by rw [hsPdef, foldl_deleteOption_itemCount]; exact h1
    have hs2 : s'.optionItems = opts := by
      rw [hsPdef, foldl_deleteOption_optionItems]; exact h2
    have hs3 : s'.left.length = I + 1 := by
      rw [hsPdef, foldl_deleteOption_left, hst1def, unlinkItem_left_length]
      exact h3
    have hs4 : s'.right.length = I + 1 := by
      rw [hsPdef, foldl_deleteOption_right, hst1def, unlinkItem_right_length]
      exact h4
    have hs5 : s'.up.length = numNodes I opts := by
      rw [hsPdef, foldl_deleteOption_up_length]; exact h5
    have hs6 : s'.down.length = numNodes I opts := by
      rw [hsPdef, foldl_deleteOption_down_length]; exact h6
    have hs7 : s'.choices.length = I := by
      rw [hsPdef, foldl_deleteOption_choices_length]; exact h7
    -- freshness of the head schedule
    have hds_fresh : FreshSeq R' ds := by
      apply FreshSeq_of_nodup (colSurv_opts_nodup hwf R' e)
      intro x hx
      obtain ⟨g', hg', rfl⟩ := List.mem_map.mp hx
      exact (mem_colSurv.mp hg').2
    -- the head-map fact
    have hnd' : (e :: rest.map (entryItemOf I opts)).Nodup := by
      have := hnd
      rw [List.map_cons] at this
      exact this
    have hheadnm : e ∉ rest.map (entryItemOf I opts) := (List.nodup_cons.mp hnd').1
    -- apply the induction hypothesis at s'
    obtain ⟨ihstate, ihring, ihcc, ihcw, ihfresh, ihcover, ihcomplete⟩ :=
      ih s' (insert e C') (R' ∪ ds.toFinset) (L ++ ds)
        (fun x hx => hgk x (by simp [hx]))
        (hnd'.of_cons)
        (fun x hx => by
          simp only [Finset.mem_insert]
          push_neg
          exact ⟨fun he => hheadnm (he ▸ List.mem_map_of_mem _ hx),
            hnc x (by simp [hx])⟩)
        hs1 hs2 hs3 hs4 hs5 hs6 hs7 hring' hcc' hcw'
        (fun o ho => by
          rcases List.mem_append.mp ho with h | h
          · exact Finset.mem_union_left _ (hL o h)
          · exact Finset.mem_union_right _ (List.mem_toFinset.mpr h))
        (coverDelsGo I opts (R' ∪ ds.toFinset) (rest.map (entryItemOf I opts)))
        ((coverDelsGo I opts (R' ∪ ds.toFinset) (rest.map (entryItemOf I opts))).foldl
          DL.deleteOption ((rest.map (entryItemOf I opts)).foldl DL.unlinkItem s'))
        rfl rfl
    set its' := rest.map (entryItemOf I opts) with hitsPdef
    set D' := coverDelsGo I opts (R' ∪ ds.toFinset) its' with hDPdef
    -- identify D and fin
    have hDsplit : D = ds ++ D' := by
      rw [hD, List.map_cons, ← hedef]
      rfl
    have hfin_eq : (D'.foldl DL.deleteOption (its'.foldl DL.unlinkItem s')) = fin := by
      rw [hfin, hDsplit, List.foldl_append]
      congr 1
      rw [hsPdef, foldl_unlinkItem_deleteOption_swap]
      congr 1
    have hstep' : (fun (p : DL × List Nat) (g : Nat) =>
          let e := p.1.entryItem g
          let st1 := p.1.unlinkItem e
          DL.walkDel st1 e p.2 (st1.getDown e)
            (numNodes st1.itemCount st1.optionItems + 1))
        (s, L) g = (s', L ++ ds) := hstep
    refine ⟨?_, ?_, ?_, ?_, ?_, ?_, ?_⟩
    · -- the fold equation
      refine (congrArg (fun q => List.foldl _ q rest) hstep').trans ?_
      refine ihstate.trans ?_
      rw [hfin_eq, hDsplit, List.append_assoc]
    · -- ring canonicity
      have hset1 : C' ∪ ((g :: rest).map (entryItemOf I opts)).toFinset =
          insert e C' ∪ its'.toFinset := by
        rw [List.map_cons, ← hedef]
        ext x
        simp only [Finset.mem_union, List.toFinset_cons, Finset.mem_insert,
          List.mem_toFinset]
        tauto
      rw [hset1, ← hfin_eq]
      exact ihring
    · -- column canonicity
      have hset2 : (fun (_ : Nat) => R' ∪ D.toFinset) =
          (fun (_ : Nat) => R' ∪ ds.toFinset ∪ D'.toFinset) := by
        funext x
        rw [hDsplit]
        ext y
        simp only [Finset.mem_union, List.toFinset_append, List.mem_toFinset]
        tauto
      rw [hset2, ← hfin_eq]
      exact ihcc
    · rw [← hfin_eq]
      exact ihcw
    · rw [hDsplit]
      exact FreshSeq_append hds_fresh ihfresh
    · intro o ho
      rw [hDsplit] at ho
      rcases List.mem_append.mp ho with h | h
      · obtain ⟨g', hg', rfl⟩ := List.mem_map.mp h
        have hg'col : g' ∈ colEntriesOf I opts e := (mem_colSurv.mp hg').1
        refine ⟨entryOptOf_lt_of_mem_col hg'col, e, ?_, ?_⟩
        · rw [List.map_cons, ← hedef]
          simp
        · have hg'o : g' ∈ optionEntriesOf I opts (entryOptOf I opts g') :=
            mem_option_of_mem_col hg'col
          have : entryItemOf I opts g' ∈ opts.getD (entryOptOf I opts g') [] := by
            rw [← optionEntries_items I opts (entryOptOf I opts g')]
            exact List.mem_map_of_mem _ hg'o
          rw [entryItemOf_of_mem_col hg'col] at this
          exact this
      · obtain ⟨holt, i, hi, hio⟩ := ihcover o h
        refine ⟨holt, i, ?_, hio⟩
        rw [List.map_cons, ← hedef]
        exact List.mem_cons_of_mem _ hi
    · intro o ho hex
      obtain ⟨i, hi, hio⟩ := hex
      rw [List.map_cons, ← hedef] at hi
      rw [hDsplit]
      rcases List.mem_cons.mp hi with hie | hirest
      · subst hie
        by_cases hoR : o ∈ R'
        · exact Finset.mem_union_left _ hoR
        · obtain ⟨g', hg'col, hg'opt⟩ := col_option_exists ho hio
          have hsurv : g' ∈ colSurv I opts R' e :=
            mem_colSurv.mpr ⟨hg'col, by rw [hg'opt]; exact hoR⟩
          apply Finset.mem_union_right
          rw [List.toFinset_append]
          apply Finset.mem_union_left
          rw [List.mem_toFinset]
          exact List.mem_map.mpr ⟨g', hsurv, hg'opt⟩
      · have := ihcomplete o ho ⟨i, hirest, hio⟩
        rcases Finset.mem_union.mp this with h | h
        · rcases Finset.mem_union.mp h with h' | h'
          · exact Finset.mem_union_left _ h'
          · apply Finset.mem_union_right
            rw [List.toFinset_append]
            exact Finset.mem_union_left _ h'
        · apply Finset.mem_union_right
          rw [List.toFinset_append]
          exact Finset.mem_union_right _ h

theorem foldl_relinkItem_deleteOption_swap (its : List Nat) :
    ∀ (D : List Nat) (st : DL),
    its.foldl DL.relinkItem (D.foldl DL.deleteOption st) =
      D.foldl DL.deleteOption (its.foldl DL.relinkItem st) := by
  induction its with
  | nil => intros; rfl
  | cons e t ih =>
    intro D st
    rw [List.foldl_cons, ← foldl_deleteOption_relinkItem_comm, ih, List.foldl_cons]

theorem foldl_unlinkItem_left_length (its : List Nat) (st : DL) :
    (its.foldl DL.unlinkItem st).left.length = st.left.length :=
  foldl_preserve (f := DL.unlinkItem) (g := fun s => s.left.length) (by simp) its st

theorem foldl_unlinkItem_right_length (its : List Nat) (st : DL) :
    (its.foldl DL.unlinkItem st).right.length = st.right.length :=
  foldl_preserve (f := DL.unlinkItem) (g := fun s => s.right.length) (by simp) its st

theorem foldl_unlinkItem_itemCount (its : List Nat) (st : DL) :
    (its.foldl DL.unlinkItem st).itemCount = st.itemCount :=
  foldl_preserve (f := DL.unlinkItem) (g := fun s => s.itemCount) (by simp) its st

theorem foldl_unlinkItem_optionItems (its : List Nat) (st : DL) :
    (its.foldl DL.unlinkItem st).optionItems = st.optionItems :=
  foldl_preserve (f := DL.unlinkItem) (g := fun s => s.optionItems) (by simp) its st

theorem foldl_unlinkItem_up (its : List Nat) (st : DL) :
    (its.foldl DL.unlinkItem st).up = st.up :=
  foldl_preserve (f := DL.unlinkItem) (g := fun s => s.up) (by simp) its st

theorem foldl_unlinkItem_down (its : List Nat) (st : DL) :
    (its.foldl DL.unlinkItem st).down = st.down :=
  foldl_preserve (f := DL.unlinkItem) (g := fun s => s.down) (by simp) its st

theorem foldl_unlinkItem_choices (its : List Nat) (st : DL) :
    (its.foldl DL.unlinkItem st).choices = st.choices :=
  foldl_preserve (f := DL.unlinkItem) (g := fun s => s.choices) (by simp) its st

theorem ringCanon_item_facts {I : Nat} {C' : Finset Nat} {st : DL} {e : Nat}
    (hring : RingCanon st (ringOf I C')) (he : e ∈ activeList I C') :
    st.getLeft e ≠ e ∧ st.getRight e ≠ e ∧
    st.getRight (st.getLeft e) = e ∧ st.getLeft (st.getRight e) = e := by
  set ρ := ringOf I C' with hρdef
  have heρ : e ∈ ρ := List.mem_cons_of_mem _ he
  have hnd : ρ.Nodup := ringOf_nodup I C'
  have hρne : ρ ≠ [] := by simp [hρdef, ringOf]
  have hlen2 : 2 ≤ ρ.length := by
    show 2 ≤ (I :: activeList I C').length
    have hpos : 0 < (activeList I C').length :=
      List.length_pos.mpr (List.ne_nil_of_mem he)
    simp only [List.length_cons]
    omega
  have hl := (hring e heρ).2
  have hr := (hring e heρ).1
  refine ⟨by rw [hl]; exact prevInRing_ne hnd heρ hlen2,
          by rw [hr]; exact nextInRing_ne hnd heρ hlen2, ?_, ?_⟩
  · have hmem : st.getLeft e ∈ ρ := by rw [hl]; exact prevInRing_mem e hρne
    have hh := (hring _ hmem).1
    rw [hh, hl, nextInRing_prevInRing hnd heρ]
  · have hmem : st.getRight e ∈ ρ := by rw [hr]; exact nextInRing_mem e hρne
    have hh := (hring _ hmem).2
    rw [hh, hr, prevInRing_nextInRing hnd heρ]

theorem foldl_relink_unlink_items_cancel {I : Nat} :
    ∀ (its : List Nat) (C' : Finset Nat) (st : DL),
    RingCanon st (ringOf I C') → its.Nodup →
    (∀ e ∈ its, e < I ∧ e ∉ C') →
    st.left.length = I + 1 → st.right.length = I + 1 →
    (its.reverse).foldl DL.relinkItem (its.foldl DL.unlinkItem st) = st := by
  intro its
  induction its with
  | nil => intros; rfl
  | cons e t ih =>
    intro C' st hring hnd hmem h3 h4
    obtain ⟨heI, heC⟩ := hmem e (by simp)
    have heact : e ∈ activeList I C' := mem_activeList.mpr ⟨heI, heC⟩
    obtain ⟨f1, f2, f3, f4⟩ := ringCanon_item_facts hring heact
    have hring1 : RingCanon (st.unlinkItem e) (ringOf I (insert e C')) := by
      rw [ringOf_insert heact]
      exact unlinkItem_ringCanon hring (ringOf_nodup I C')
        (List.mem_cons_of_mem _ heact)
        (by
          show 2 ≤ (I :: activeList I C').length
          have hpos : 0 < (activeList I C').length :=
            List.length_pos.mpr (List.ne_nil_of_mem heact)
          simp only [List.length_cons]
          omega)
        (fun n hn => by have := mem_ringOf_lt hn; omega)
        (fun n hn => by have := mem_ringOf_lt hn; omega)
    rw [List.reverse_cons, List.foldl_append, List.foldl_cons, List.foldl_cons]
    show ((t.reverse.foldl DL.relinkItem
      (t.foldl DL.unlinkItem (st.unlinkItem e))).relinkItem e) = st
    rw [ih (insert e C') (st.unlinkItem e) hring1 hnd.of_cons
      (fun x hx => ⟨(hmem x (by simp [hx])).1, by
        simp only [Finset.mem_insert]
        push_neg
        exact ⟨fun hh => (List.nodup_cons.mp hnd).1 (hh ▸ hx),
          (hmem x (by simp [hx])).2⟩⟩)
      (by rw [unlinkItem_left_length]; exact h3)
      (by rw [unlinkItem_right_length]; exact h4)]
    exact relinkItem_unlinkItem f1 f2 f3 f4

theorem New_colWithin (I : Nat) (opts : List (List Nat)) :
    ColWithin I opts (New I opts) := by
  obtain ⟨h1, h2, h3, h4, h5, h6, h7, hring, hcol, hcnt, -⟩ := New_canonical I opts
  intro i hi n hn hcoln
  have hch : n ∈ colChain I opts ∅ i := by
    rcases hcoln with h | h
    · rw [h]
      exact List.mem_cons_self _ _
    · refine List.mem_cons_of_mem _ ?_
      rw [colSurv_empty]
      exact h
  have hfacts := hcol i hi n hch
  have hchne : colChain I opts (∅ : Finset Nat) i ≠ [] := by simp [colChain]
  constructor
  · rw [hfacts.2]
    have hm : prevInRing (colChain I opts ∅ i) n ∈ colChain I opts ∅ i :=
      prevInRing_mem n hchne
    rcases List.mem_cons.mp hm with h | h
    · exact Or.inl h
    · refine Or.inr ?_
      rw [colSurv_empty] at h
      exact h
  · rw [hfacts.1]
    have hm : nextInRing (colChain I opts ∅ i) n ∈ colChain I opts ∅ i :=
      nextInRing_mem n hchne
    rcases List.mem_cons.mp hm with h | h
    · exact Or.inl h
    · refine Or.inr ?_
      rw [colSurv_empty] at h
      exact h

theorem chooseOption_spec {I : Nat} {opts : List (List Nat)} {C R : Finset Nat}
    {st : DL} {k : Nat} {L : List Nat}
    (hwf : WfInput I opts) (hcan : Canonical I opts C R st)
    (hcw : ColWithin I opts st)
    (hk : k < opts.length) (hkR : k ∉ R) (hL : ∀ o ∈ L, o ∈ R) :
    st.chooseOption k L =
      ((coverDels I opts R k).foldl DL.deleteOption
        ((opts.getD k []).foldl DL.unlinkItem st), L ++ coverDels I opts R k) ∧
    Canonical I opts (C ∪ (opts.getD k []).toFinset)
      (R ∪ (coverDels I opts R k).toFinset)
      ((coverDels I opts R k).foldl DL.deleteOption
        ((opts.getD k []).foldl DL.unlinkItem st)) ∧
    ColWithin I opts ((coverDels I opts R k).foldl DL.deleteOption
        ((opts.getD k []).foldl DL.unlinkItem st)) ∧
    (opts.getD k [] ≠ [] → k ∈ coverDels I opts R k) ∧
    FreshSeq R (coverDels I opts R k) := by
  obtain ⟨h1, h2, h3, h4, h5, h6, h7, hringc, hcolc, hcnt, hCb, hRb, hcoh1, hcoh2⟩ := hcan
  have hmap : (optionEntriesOf I opts k).map (entryItemOf I opts) = opts.getD k [] :=
    optionEntries_items I opts k
  have hnd : ((optionEntriesOf I opts k).map (entryItemOf I opts)).Nodup := by
    rw [hmap]
    exact (wf_option_facts hwf k).1
  have hnc : ∀ g ∈ optionEntriesOf I opts k, entryItemOf I opts g ∉ C := by
    intro g hg hmem
    have hitem : entryItemOf I opts g ∈ opts.getD k [] := by
      rw [← hmap]
      exact List.mem_map_of_mem _ hg
    exact hkR (hcoh1 _ hmem k hk hitem)
  obtain ⟨hfold, hringF, hccF, hcwF, hfreshF, hcoverF, hcompleteF⟩ :=
    chooseOption_aux hwf (optionEntriesOf I opts k) st C R L (fun g hg => hg) hnd hnc
      h1 h2 h3 h4 h5 h6 h7 hringc ⟨hcolc, hcnt⟩ hcw hL _ _ rfl rfl
  rw [hmap] at hfold hringF hccF hcwF hfreshF hcoverF hcompleteF
  have hcd : coverDelsGo I opts R (opts.getD k []) = coverDels I opts R k := rfl
  rw [hcd] at hfold hringF hccF hcwF hfreshF hcoverF hcompleteF
  have hchoose : st.chooseOption k L =
      ((coverDels I opts R k).foldl DL.deleteOption
        ((opts.getD k []).foldl DL.unlinkItem st), L ++ coverDels I opts R k) := by
    unfold DL.chooseOption
    have hoe : st.optionEntries k = optionEntriesOf I opts k := by
      unfold DL.optionEntries
      rw [h1, h2]
    rw [hoe]
    exact hfold
  set fin := (coverDels I opts R k).foldl DL.deleteOption
    ((opts.getD k []).foldl DL.unlinkItem st) with hfindef
  refine ⟨hchoose, ?_, hcwF, ?_, hfreshF⟩
  · refine ⟨?_, ?_, ?_, ?_, ?_, ?_, ?_, hringF, hccF.1, hccF.2, ?_, ?_, ?_, ?_⟩
    · rw [hfindef, foldl_deleteOption_itemCount, foldl_unlinkItem_itemCount]
      exact h1
    · rw [hfindef, foldl_deleteOption_optionItems, foldl_unlinkItem_optionItems]
      exact h2
    · rw [hfindef, foldl_deleteOption_left, foldl_unlinkItem_left_length]
      exact h3
    · rw [hfindef, foldl_deleteOption_right, foldl_unlinkItem_right_length]
      exact h4
    · rw [hfindef, foldl_deleteOption_up_length, foldl_unlinkItem_up]
      exact h5
    · rw [hfindef, foldl_deleteOption_down_length, foldl_unlinkItem_down]
      exact h6
    · rw [hfindef, foldl_deleteOption_choices_length, foldl_unlinkItem_choices]
      exact h7
    · intro i hi
      rcases Finset.mem_union.mp hi with h | h
      · exact hCb i h
      · exact (wf_option_facts hwf k).2 i (List.mem_toFinset.mp h)
    · intro o ho
      rcases Finset.mem_union.mp ho with h | h
      · exact hRb o h
      · exact (hcoverF o (List.mem_toFinset.mp h)).1
    · intro i hi o ho hio
      rcases Finset.mem_union.mp hi with h | h
      · exact Finset.mem_union_left _ (hcoh1 i h o ho hio)
      · exact hcompleteF o ho ⟨i, List.mem_toFinset.mp h, hio⟩
    · intro o ho
      rcases Finset.mem_union.mp ho with h | h
      · obtain ⟨i, hio, hiC⟩ := hcoh2 o h
        exact ⟨i, hio, Finset.mem_union_left _ hiC⟩
      · obtain ⟨-, i, hik, hio⟩ := hcoverF o (List.mem_toFinset.mp h)
        exact ⟨i, hio, Finset.mem_union_right _ (List.mem_toFinset.mpr hik)⟩
  · intro hne
    obtain ⟨i0, hi0⟩ := List.exists_mem_of_ne_nil _ hne
    have := hcompleteF k hk ⟨i0, hi0, hi0⟩
    rcases Finset.mem_union.mp this with h | h
    · exact absurd h hkR
    · exact List.mem_toFinset.mp h

theorem cleanup_choose_cancel {I : Nat} {opts : List (List Nat)} {C R : Finset Nat}
    {st : DL} {k : Nat}
    (hwf : WfInput I opts) (hcan : Canonical I opts C R st)
    (hcw : ColWithin I opts st) (hk : k < opts.length) (hkR : k ∉ R) :
    (st.chooseOption k []).1.cleanupOp k (st.chooseOption k []).2 = st := by
  obtain ⟨hchoose, hcanF, hcwF, -, hfreshF⟩ :=
    chooseOption_spec hwf hcan hcw hk hkR (L := []) (by simp)
  obtain ⟨h1, h2, h3, h4, h5, h6, h7, hringc, hcolc, hcnt, hCb, hRb, hcoh1, hcoh2⟩ := hcan
  set its := opts.getD k [] with hitsdef
  set D := coverDels I opts R k with hDdef
  set fin := D.foldl DL.deleteOption (its.foldl DL.unlinkItem st) with hfindef
  have hfin1 : fin.itemCount = I := by
    rw [hfindef, foldl_deleteOption_itemCount, foldl_unlinkItem_itemCount]
    exact h1
  have hfin2 : fin.optionItems = opts := by
    rw [hfindef, foldl_deleteOption_optionItems, foldl_unlinkItem_optionItems]
    exact h2
  rw [hchoose]
  show (fin.cleanupOp k ([] ++ D)) = st
  rw [List.nil_append]
  unfold DL.cleanupOp
  have hoe : fin.optionEntries k = optionEntriesOf I opts k := by
    unfold DL.optionEntries
    rw [hfin1, hfin2]
  rw [hoe, foldl_relinkItem_entry]
  have hmap036 : ((optionEntriesOf I opts k).reverse.map fin.entryItem) = its.reverse := by
    have hfn : ∀ g ∈ (optionEntriesOf I opts k).reverse,
        fin.entryItem g = entryItemOf I opts g := by
      intro g _
      show entryItemOf fin.itemCount fin.optionItems g = _
      rw [hfin1, hfin2]
    rw [List.map_congr_left hfn, List.map_reverse, optionEntries_items]
  rw [hmap036]
  rw [hfindef, foldl_relinkItem_deleteOption_swap]
  rw [foldl_relink_unlink_items_cancel its C st hringc (wf_option_facts hwf k).1
    (fun e he => ⟨(wf_option_facts hwf k).2 e he, fun hmem => hkR (hcoh1 e hmem k hk he)⟩)
    h3 h4]
  exact foldl_restore_delete_cancel hwf D R st h1 h2 h6 h5 h7 ⟨hcolc, hcnt⟩ hcw hfreshF

/-! ## The branching oracle under canonicity

The fueled ring and column walks enumerate exactly the active list and the
column survivors, and the champion fold finds the leftmost minimum. -/

theorem activeList_length_le (I : Nat) (C : Finset Nat) :
    (activeList I C).length ≤ I := by
  calc (activeList I C).length ≤ (List.range I).length := List.length_filter_le _ _
    _ = I := List.length_range I

theorem ringItems_go_succ (st : DL) (cur f : Nat) :
    DL.ringItems.go st cur (f + 1) =
      if cur = st.ihead then [] else cur :: DL.ringItems.go st (st.getRight cur) f := rfl

theorem colOptions_go_succ (st : DL) (i cur f : Nat) :
    DL.colOptions.go st i cur (f + 1) =
      if cur = i then []
      else st.entryOpt cur :: DL.colOptions.go st i (st.getDown cur) f := rfl

theorem ringItems_go_spec {I : Nat} {C : Finset Nat} {st : DL}
    (h1 : st.itemCount = I) (hring : RingCanon st (ringOf I C)) :
    ∀ (suffix pre : List Nat), activeList I C = pre ++ suffix →
    ∀ fuel, suffix.length < fuel →
    DL.ringItems.go st (suffix.headD I) fuel = suffix := by
  intro suffix
  induction suffix with
  | nil =>
    intro pre hsplit fuel hfuel
    match fuel, hfuel with
    | f + 1, _ =>
      rw [ringItems_go_succ, if_pos (show ([] : List Nat).headD I = st.ihead from h1.symm)]
  | cons a rest ih =>
    intro pre hsplit fuel hfuel
    match fuel, hfuel with
    | f + 1, hfuel =>
      have ha : a ∈ activeList I C := by rw [hsplit]; simp
      have haI : a < I := (mem_activeList.mp ha).1
      have hane : (a :: rest).headD I ≠ st.ihead := by
        show a ≠ st.ihead
        have : st.ihead = I := h1
        omega
      rw [ringItems_go_succ, if_neg hane]
      have hnd : (activeList I C).Nodup := activeList_nodup I C
      have hanotpre : a ∉ pre := by
        rw [hsplit] at hnd
        intro hmem
        exact (List.disjoint_of_nodup_append hnd) hmem (by simp)
      have hanotIpre : a ∉ (I :: pre) := by
        intro hmem
        rcases List.mem_cons.mp hmem with h | h
        · omega
        · exact hanotpre h
      have haring : a ∈ ringOf I C := List.mem_cons_of_mem _ ha
      have hchain : ringOf I C = (I :: pre) ++ a :: rest := by
        rw [ringOf, hsplit]
        simp
      have hnext : st.getRight a = rest.headD I := by
        rw [(hring a haring).1, hchain, nextInRing_split hanotIpre]
        cases rest with
        | nil => rfl
        | cons y t => rfl
      show a :: DL.ringItems.go st (st.getRight a) f = a :: rest
      rw [hnext]
      congr 1
      exact ih (pre ++ [a]) (by rw [hsplit]; simp) f
        (by
          have : rest.length + 1 < f + 1 := by simpa using hfuel
          omega)

theorem ringItems_canonical {I : Nat} {C : Finset Nat} {st : DL}
    (h1 : st.itemCount = I) (hring : RingCanon st (ringOf I C)) :
    st.ringItems = activeList I C := by
  show DL.ringItems.go st (st.getRight st.ihead) (st.itemCount + 1) = activeList I C
  have hI : st.ihead = I := h1
  have hmemI : (I : Nat) ∈ ringOf I C := List.mem_cons_self _ _
  have hstart : st.getRight st.ihead = (activeList I C).headD I := by
    rw [hI, (hring I hmemI).1]
    show nextInRing ([] ++ I :: activeList I C) I = _
    rw [nextInRing_split (by simp)]
    cases hact : activeList I C with
    | nil => rfl
    | cons y t => rfl
  rw [hstart, h1]
  exact ringItems_go_spec h1 hring (activeList I C) [] rfl (I + 1)
    (by have := activeList_length_le I C; omega)

theorem colOptions_go_spec {I : Nat} {opts : List (List Nat)} {R : Finset Nat}
    {st : DL} {i : Nat} (h1 : st.itemCount = I) (h2 : st.optionItems = opts)
    (hcc1 : ∀ i' < I, ∀ n ∈ colChain I opts R i',
      st.getDown n = nextInRing (colChain I opts R i') n ∧
      st.getUp n = prevInRing (colChain I opts R i') n)
    (hi : i < I) :
    ∀ (suffix pre : List Nat), colSurv I opts R i = pre ++ suffix →
    ∀ fuel, suffix.length < fuel →
    DL.colOptions.go st i (suffix.headD i) fuel = suffix.map (entryOptOf I opts) := by
  intro suffix
  induction suffix with
  | nil =>
    intro pre hsplit fuel hfuel
    match fuel, hfuel with
    | f + 1, _ =>
      rw [colOptions_go_succ, if_pos (show ([] : List Nat).headD i = i from rfl)]
      rfl
  | cons g rest ih =>
    intro pre hsplit fuel hfuel
    match fuel, hfuel with
    | f + 1, hfuel =>
      have hg : g ∈ colSurv I opts R i := by rw [hsplit]; simp
      have hgI : I ≤ g := colEntriesOf_ge (mem_colSurv.mp hg).1
      have hgne : (g :: rest).headD i ≠ i := by
        show g ≠ i
        omega
      rw [colOptions_go_succ, if_neg hgne]
      have hnd : (colSurv I opts R i).Nodup := colSurv_nodup I opts R i
      have hgnotpre : g ∉ pre := by
        rw [hsplit] at hnd
        intro hmem
        exact (List.disjoint_of_nodup_append hnd) hmem (by simp)
      have hgnotipre : g ∉ (i :: pre) := by
        intro hmem
        rcases List.mem_cons.mp hmem with h | h
        · omega
        · exact hgnotpre h
      have hgchain : g ∈ colChain I opts R i := List.mem_cons_of_mem _ hg
      have hchain : colChain I opts R i = (i :: pre) ++ g :: rest := by
        rw [colChain, hsplit]
        simp
      have hnext : st.getDown g = rest.headD i := by
        rw [(hcc1 i hi g hgchain).1, hchain, nextInRing_split hgnotipre]
        cases rest with
        | nil => rfl
        | cons y t => rfl
      show st.entryOpt g :: DL.colOptions.go st i (st.getDown g) f = _
      rw [hnext, List.map_cons, entryOpt_state h1 h2]
      congr 1
      exact ih (pre ++ [g]) (by rw [hsplit]; simp) f
        (by
          have : rest.length + 1 < f + 1 := by simpa using hfuel
          omega)

theorem colOptions_canonical {I : Nat} {opts : List (List Nat)} {R : Finset Nat}
    {st : DL} {i : Nat} (h1 : st.itemCount = I) (h2 : st.optionItems = opts)
    (hcc1 : ∀ i' < I, ∀ n ∈ colChain I opts R i',
      st.getDown n = nextInRing (colChain I opts R i') n ∧
      st.getUp n = prevInRing (colChain I opts R i') n)
    (hi : i < I) :
    st.colOptions i = (colSurv I opts R i).map (entryOptOf I opts) := by
  show DL.colOptions.go st i (st.getDown i)
    (numNodes st.itemCount st.optionItems + 1) = _
  have hstart : st.getDown i = (colSurv I opts R i).headD i := by
    rw [(hcc1 i hi i (by simp [colChain])).1]
    show nextInRing (i :: colSurv I opts R i) i = _
    exact nextInRing_head (fun hmem => by
      have := colEntriesOf_ge (mem_colSurv.mp hmem).1
      omega)
  rw [hstart, h1, h2]
  exact colOptions_go_spec h1 h2 hcc1 hi (colSurv I opts R i) [] rfl
    (numNodes I opts + 1)
    (by have := colSurv_length_le I opts R i; unfold numNodes; omega)

theorem foldl_min_congr (c1 c2 : Nat → Int) :
    ∀ (l : List Nat) (x : Nat), c1 x = c2 x → (∀ y ∈ l, c1 y = c2 y) →
    l.foldl (fun a b => if c1 b < c1 a then b else a) x =
      l.foldl (fun a b => if c2 b < c2 a then b else a) x := by
  intro l
  induction l with
  | nil => intros; rfl
  | cons y t ih =>
    intro x hx hall
    rw [List.foldl_cons, List.foldl_cons]
    have hy := hall y (by simp)
    by_cases hcond : c1 y < c1 x
    · rw [if_pos hcond, if_pos (by rw [← hy, ← hx]; exact hcond)]
      exact ih y hy (fun z hz => hall z (by simp [hz]))
    · rw [if_neg hcond, if_neg (by rw [← hy, ← hx]; exact hcond)]
      exact ih x hx (fun z hz => hall z (by simp [hz]))

theorem foldl_min_spec (c : Nat → Int) :
    ∀ (l : List Nat) (x : Nat),
    ∃ pre post,
      x :: l = pre ++ (l.foldl (fun a b => if c b < c a then b else a) x) :: post ∧
      (∀ j ∈ pre, c (l.foldl (fun a b => if c b < c a then b else a) x) < c j) ∧
      (∀ j ∈ post, c (l.foldl (fun a b => if c b < c a then b else a) x) ≤ c j) := by
  intro l
  induction l with
  | nil => intro x; exact ⟨[], [], rfl, by simp, by simp⟩
  | cons y t ih =>
    intro x
    by_cases hcond : c y < c x
    · obtain ⟨pre', post', hsplit, hstrict, hle⟩ := ih y
      have hfold : (y :: t).foldl (fun a b => if c b < c a then b else a) x =
          t.foldl (fun a b => if c b < c a then b else a) y := by
        rw [List.foldl_cons, if_pos hcond]
      set r := t.foldl (fun a b => if c b < c a then b else a) y with hrdef
      have hrmin : ∀ j ∈ y :: t, c r ≤ c j := by
        intro j hj
        rw [hsplit] at hj
        rcases List.mem_append.mp hj with h | h
        · exact le_of_lt (hstrict j h)
        · rcases List.mem_cons.mp h with h | h
          · rw [h]
          · exact hle j h
      rw [hfold]
      refine ⟨x :: pre', post', ?_, ?_, hle⟩
      · rw [List.cons_append, ← hsplit]
      · intro j hj
        rcases List.mem_cons.mp hj with h | h
        · subst h
          exact lt_of_le_of_lt (hrmin y (by simp)) hcond
        · exact hstrict j h
    · obtain ⟨pre', post', hsplit, hstrict, hle⟩ := ih x
      have hfold : (y :: t).foldl (fun a b => if c b < c a then b else a) x =
          t.foldl (fun a b => if c b < c a then b else a) x := by
        rw [List.foldl_cons, if_neg hcond]
      set r := t.foldl (fun a b => if c b < c a then b else a) x with hrdef
      have hxy : c x ≤ c y := le_of_not_lt hcond
      have hrminx : c r ≤ c x := by
        have hx : x ∈ pre' ++ r :: post' := by rw [← hsplit]; simp
        rcases List.mem_append.mp hx with h | h
        · exact le_of_lt (hstrict x h)
        · rcases List.mem_cons.mp h with h | h
          · rw [h]
          · exact hle x h
      rw [hfold]
      cases pre' with
      | nil =>
        rw [List.nil_append] at hsplit
        obtain ⟨hxr, htp⟩ := List.cons_eq_cons.mp hsplit
        refine ⟨[], y :: post', ?_, by simp, ?_⟩
        · rw [List.nil_append, ← hxr, ← htp]
        · intro j hj
          rcases List.mem_cons.mp hj with h | h
          · subst h
            exact le_trans hrminx hxy
          · exact hle j h
      | cons p0 pre'' =>
        rw [List.cons_append] at hsplit
        obtain ⟨hxp, htp⟩ := List.cons_eq_cons.mp hsplit
        refine ⟨x :: y :: pre'', post', ?_, ?_, hle⟩
        · rw [htp]
          simp
        · intro j hj
          have hrx : c r < c x := by
            have : x ∈ p0 :: pre'' := by rw [← hxp]; simp
            exact hstrict x this
          rcases List.mem_cons.mp hj with h | h
          · subst h
            exact hrx
          · rcases List.mem_cons.mp h with h | h
            · subst h
              exact lt_of_lt_of_le hrx hxy
            · exact hstrict j (by simp [h])

theorem foldl_min_mem (c : Nat → Int) (l : List Nat) (x : Nat) :
    l.foldl (fun a b => if c b < c a then b else a) x ∈ x :: l := by
  obtain ⟨pre, post, hsplit, -, -⟩ := foldl_min_spec c l x
  rw [hsplit]
  simp

theorem minItemOf_cons {I : Nat} {opts : List (List Nat)} {C R : Finset Nat}
    {a : Nat} {r : List Nat} (hact : activeList I C = a :: r) :
    minItemOf I opts C R = (a :: r).foldl
      (fun x y =>
        if ((colSurv I opts R y).length : Int) < ((colSurv I opts R x).length : Int)
        then y else x) a := by
  unfold minItemOf
  rw [hact]

theorem minItemOf_mem {I : Nat} {opts : List (List Nat)} {C R : Finset Nat}
    (hne : activeList I C ≠ []) : minItemOf I opts C R ∈ activeList I C := by
  cases hact : activeList I C with
  | nil => exact absurd hact hne
  | cons a r =>
    rw [minItemOf_cons hact]
    have hm := foldl_min_mem (fun i => ((colSurv I opts R i).length : Int)) (a :: r) a
    rcases List.mem_cons.mp hm with h | h
    · rw [h]
      simp
    · exact h

theorem foldl_min_drop_head (c : Nat → Int) (r : List Nat) (a : Nat) :
    (a :: r).foldl (fun x y => if c y < c x then y else x) a =
      r.foldl (fun x y => if c y < c x then y else x) a := by
  rw [List.foldl_cons, if_neg (lt_irrefl _)]

theorem minItemOf_spec {I : Nat} {opts : List (List Nat)} {C R : Finset Nat}
    (hne : activeList I C ≠ []) :
    ∃ pre post, activeList I C = pre ++ minItemOf I opts C R :: post ∧
      (∀ j ∈ pre, ((colSurv I opts R (minItemOf I opts C R)).length : Int) <
        ((colSurv I opts R j).length : Int)) ∧
      (∀ j ∈ post, ((colSurv I opts R (minItemOf I opts C R)).length : Int) ≤
        ((colSurv I opts R j).length : Int)) := by
  cases hact : activeList I C with
  | nil => exact absurd hact hne
  | cons a r =>
    rw [minItemOf_cons hact, foldl_min_drop_head]
    obtain ⟨pre, post, hsplit, hstrict, hle⟩ :=
      foldl_min_spec (fun i => ((colSurv I opts R i).length : Int)) r a
    exact ⟨pre, post, hsplit, hstrict, hle⟩

theorem nextChoices_canonical {I : Nat} {opts : List (List Nat)} {C R : Finset Nat}
    {st : DL} (hcan : Canonical I opts C R st) :
    st.nextChoices = (match activeList I C with
      | [] => none
      | _ :: _ =>
        some ((colSurv I opts R (minItemOf I opts C R)).map (entryOptOf I opts))) := by
  obtain ⟨h1, h2, h3, h4, h5, h6, h7, hringc, hcolc, hcnt, hCb, hRb, hcoh1, hcoh2⟩ := hcan
  unfold DL.nextChoices
  rw [ringItems_canonical h1 hringc]
  cases hact : activeList I C with
  | nil => rfl
  | cons a r =>
    show some (st.colOptions ((a :: r).foldl
      (fun a b => if st.getChoices b < st.getChoices a then b else a) a)) = _
    have hmemall : ∀ y ∈ a :: r, y < I := by
      intro y hy
      have : y ∈ activeList I C := by rw [hact]; exact hy
      exact (mem_activeList.mp this).1
    have hsrc : (a :: r).foldl
        (fun a b => if st.getChoices b < st.getChoices a then b else a) a =
        minItemOf I opts C R := by
      rw [minItemOf_cons hact]
      exact foldl_min_congr st.getChoices
        (fun i => ((colSurv I opts R i).length : Int)) (a :: r) a
        (hcnt a (hmemall a (by simp)))
        (fun y hy => hcnt y (hmemall y hy))
    rw [hsrc, colOptions_canonical h1 h2 hcolc
      (mem_activeList.mp (minItemOf_mem (by rw [hact]; simp))).1]


/-! ## ToMatrix on states whose listed items are all active -/

theorem lookup_swap_enumFrom (l : List Nat) :
    ∀ (n i : Nat), i ∈ l →
    ((List.enumFrom n l).map (fun p => (p.2, p.1))).lookup i =
      some (n + l.indexOf i) := by
  induction l with
  | nil =>
    intro n i hi
    simp at hi
  | cons a t ih =>
    intro n i hi
    rw [List.enumFrom_cons, List.map_cons]
    by_cases hia : i = a
    · subst hia
      simp [List.lookup_cons]
    · have hit : i ∈ t := by
        rcases List.mem_cons.mp hi with h | h
        · exact absurd h hia
        · exact h
      rw [show ((n, a).2, (n, a).1) = (a, n) from rfl]
      rw [show List.lookup i ((a, n) :: (List.enumFrom (n + 1) t).map (fun p => (p.2, p.1))) =
        List.lookup i ((List.enumFrom (n + 1) t).map (fun p => (p.2, p.1))) from by
          rw [List.lookup_cons, show (i == a) = false from by simp [hia]]]
      rw [ih (n + 1) i hit, List.indexOf_cons_ne _ (fun h => hia h.symm)]
      congr 1
      omega

theorem foldl_set_getElem? (F : Nat → Nat) :
    ∀ (its : List Nat) (row : List Bool) (p : Nat),
    (its.foldl (fun row i => row.set (F i) true) row)[p]? =
      if ∃ i ∈ its, F i = p then (if p < row.length then some true else none)
      else row[p]? := by
  intro its
  induction its with
  | nil =>
    intro row p
    rw [if_neg (by simp)]
    rfl
  | cons a t ih =>
    intro row p
    rw [List.foldl_cons, ih, List.length_set]
    by_cases hex : ∃ i ∈ t, F i = p
    · rw [if_pos hex, if_pos (show ∃ i ∈ a :: t, F i = p by
        obtain ⟨i, hi, h⟩ := hex
        exact ⟨i, List.mem_cons_of_mem _ hi, h⟩)]
    · rw [if_neg hex]
      by_cases hap : F a = p
      · rw [if_pos (show ∃ i ∈ a :: t, F i = p from ⟨a, by simp, hap⟩), ← hap]
        by_cases hlt : F a < row.length
        · rw [if_pos hlt]
          exact List.getElem?_set_self hlt
        · rw [if_neg hlt, List.set_eq_of_length_le (by omega),
            List.getElem?_eq_none (by omega)]
      · rw [if_neg (show ¬ ∃ i ∈ a :: t, F i = p by
          rintro ⟨i, hi, hF⟩
          rcases List.mem_cons.mp hi with h | h
          · exact hap (h ▸ hF)
          · exact hex ⟨i, h, hF⟩)]
        exact List.getElem?_set_ne hap

theorem toMatrix_row_spec (active : List Nat) (hnd : active.Nodup) (its : List Nat)
    (hsub : ∀ i ∈ its, i ∈ active) :
    its.foldl (fun row i =>
        row.set (((active.enum.map (fun p => (p.2, p.1))).lookup i).getD 0) true)
      (List.replicate active.length false) =
      active.map (fun i => decide (i ∈ its)) := by
  have hFdef : ∀ i ∈ active,
      (((active.enum.map (fun p => (p.2, p.1))).lookup i).getD 0) = active.indexOf i := by
    intro i hi
    rw [show active.enum = List.enumFrom 0 active from rfl,
      lookup_swap_enumFrom active 0 i hi]
    simp
  apply List.ext_getElem?
  intro p
  rw [foldl_set_getElem? (fun i =>
    (((active.enum.map (fun p => (p.2, p.1))).lookup i).getD 0)) its
    (List.replicate active.length false) p, List.length_replicate]
  by_cases hp : p < active.length
  · have hrhsp : (active.map (fun i => decide (i ∈ its)))[p]? =
        some (decide (active[p] ∈ its)) := by
      rw [List.getElem?_map, List.getElem?_eq_getElem hp]
      rfl
    rw [hrhsp]
    by_cases hex : ∃ i ∈ its,
        (((active.enum.map (fun p => (p.2, p.1))).lookup i).getD 0) = p
    · rw [if_pos hex, if_pos hp]
      obtain ⟨i, hi, hFi⟩ := hex
      have hia : i ∈ active := hsub i hi
      rw [hFdef i hia] at hFi
      subst hFi
      have hgeti : active[active.indexOf i] = i :=
        List.getElem_indexOf (List.indexOf_lt_length.mpr hia)
      rw [hgeti]
      simp [hi]
    · rw [if_neg hex]
      have hnm : active[p] ∉ its := by
        intro hmem
        exact hex ⟨active[p], hmem, by
          rw [hFdef _ (hsub _ hmem)]
          exact List.indexOf_getElem hnd p hp⟩
      rw [List.getElem?_eq_getElem (by simpa using hp)]
      simp [hnm]
  · have hex : ¬ ∃ i ∈ its,
        (((active.enum.map (fun p => (p.2, p.1))).lookup i).getD 0) = p := by
      rintro ⟨i, hi, hFi⟩
      have hia := hsub i hi
      have := List.indexOf_lt_length.mpr hia
      rw [hFdef i hia] at hFi
      omega
    rw [if_neg hex, List.getElem?_eq_none (by simpa using hp),
      List.getElem?_eq_none (by simp; omega)]

theorem toMatrix_fresh {I : Nat} {opts : List (List Nat)} {C R : Finset Nat}
    {st : DL} (hwf : WfInput I opts) (hcan : Canonical I opts C R st)
    (hactive : ∀ o < opts.length, ∀ i ∈ opts.getD o [], i ∉ C) :
    DL.ToMatrix st = specMatrix st := by
  obtain ⟨h1, h2, h3, h4, h5, h6, h7, hringc, hcolc, hcnt, hCb, hRb, hcoh1, hcoh2⟩ := hcan
  have hri : st.ringItems = activeList I C := ringItems_canonical h1 hringc
  show (List.range st.optionItems.length).map (fun o =>
      (st.optionEntries o).foldl
        (fun row g => row.set
          (((st.ringItems.enum.map (fun p => (p.2, p.1))).lookup (st.entryItem g)).getD 0)
          true)
        (List.replicate st.ringItems.length false)) =
    (List.range st.optionItems.length).map (fun o =>
      st.ringItems.map (fun i => decide (i ∈ st.optionItems.getD o [])))
  rw [hri, h2]
  apply List.map_congr_left
  intro o ho
  have holt : o < opts.length := List.mem_range.mp ho
  have hoe : st.optionEntries o = optionEntriesOf I opts o := by
    unfold DL.optionEntries
    rw [h1, h2]
  rw [hoe]
  have hmapfold := (List.foldl_map st.entryItem
    (fun (row : List Bool) (i : Nat) => row.set
      ((((activeList I C).enum.map (fun p => (p.2, p.1))).lookup i).getD 0) true)
    (optionEntriesOf I opts o)
    (List.replicate (activeList I C).length false)).symm
  have hmapeq : (optionEntriesOf I opts o).map st.entryItem = opts.getD o [] := by
    rw [List.map_congr_left (fun g _ =>
      show st.entryItem g = entryItemOf I opts g from by
        show entryItemOf st.itemCount st.optionItems g = _
        rw [h1, h2]), optionEntries_items]
  exact hmapfold.trans (by
    rw [hmapeq]
    exact toMatrix_row_spec (activeList I C) (activeList_nodup I C) (opts.getD o [])
      (fun i hi => mem_activeList.mpr ⟨(wf_option_facts hwf o).2 i hi,
        hactive o holt i hi⟩))


/-! ## The pure (C, R) layer: schedules, candidates and the reference tree -/

theorem coverDelsGo_facts {I : Nat} {opts : List (List Nat)} :
    ∀ (its : List Nat) (S : Finset Nat),
    (∀ o ∈ coverDelsGo I opts S its,
      o < opts.length ∧ o ∉ S ∧ ∃ i ∈ its, i ∈ opts.getD o []) ∧
    (∀ o < opts.length, o ∉ S → (∃ i ∈ its, i ∈ opts.getD o []) →
      o ∈ coverDelsGo I opts S its) := by
  intro its
  induction its with
  | nil =>
    intro S
    constructor
    · intro o ho
      simp [coverDelsGo] at ho
    · rintro o - - ⟨i, hi, -⟩
      simp at hi
  | cons e rest ih =>
    intro S
    have hds : coverDelsGo I opts S (e :: rest) =
        (colSurv I opts S e).map (entryOptOf I opts) ++
          coverDelsGo I opts
            (S ∪ ((colSurv I opts S e).map (entryOptOf I opts)).toFinset) rest := rfl
    constructor
    · intro o ho
      rw [hds] at ho
      rcases List.mem_append.mp ho with h | h
      · obtain ⟨g, hg, rfl⟩ := List.mem_map.mp h
        have hgcol : g ∈ colEntriesOf I opts e := (mem_colSurv.mp hg).1
        refine ⟨entryOptOf_lt_of_mem_col hgcol, (mem_colSurv.mp hg).2, e, by simp, ?_⟩
        have hg'o : g ∈ optionEntriesOf I opts (entryOptOf I opts g) :=
          mem_option_of_mem_col hgcol
        have hmem : entryItemOf I opts g ∈ opts.getD (entryOptOf I opts g) [] := by
          rw [← optionEntries_items I opts (entryOptOf I opts g)]
          exact List.mem_map_of_mem _ hg'o
        rw [entryItemOf_of_mem_col hgcol] at hmem
        exact hmem
      · obtain ⟨holt, hoS, i, hi, hio⟩ := (ih _).1 o h
        have hoS' : o ∉ S := fun hh => hoS (Finset.mem_union_left _ hh)
        exact ⟨holt, hoS', i, List.mem_cons_of_mem _ hi, hio⟩
    · rintro o holt hoS ⟨i, hi, hio⟩
      rw [hds]
      by_cases hods : o ∈ (colSurv I opts S e).map (entryOptOf I opts)
      · exact List.mem_append_left _ hods
      · apply List.mem_append_right
        rcases List.mem_cons.mp hi with hie | hirest
        · subst hie
          obtain ⟨g, hgcol, hgopt⟩ := col_option_exists holt hio
          exact absurd (List.mem_map.mpr ⟨g,
            mem_colSurv.mpr ⟨hgcol, by rw [hgopt]; exact hoS⟩, hgopt⟩) hods
        · refine (ih _).2 o holt ?_ ⟨i, hirest, hio⟩
          intro hmem
          rcases Finset.mem_union.mp hmem with h | h
          · exact hoS h
          · exact hods (List.mem_toFinset.mp h)

theorem coverDelsGo_fresh {I : Nat} {opts : List (List Nat)} (hwf : WfInput I opts) :
    ∀ (its : List Nat) (S : Finset Nat), FreshSeq S (coverDelsGo I opts S its) := by
  intro its
  induction its with
  | nil => intro S; trivial
  | cons e rest ih =>
    intro S
    refine FreshSeq_append ?_ (ih _)
    apply FreshSeq_of_nodup (colSurv_opts_nodup hwf S e)
    intro x hx
    obtain ⟨g, hg, rfl⟩ := List.mem_map.mp hx
    exact (mem_colSurv.mp hg).2

theorem coverDels_facts {I : Nat} {opts : List (List Nat)} {R : Finset Nat} {k : Nat} :
    (∀ o ∈ coverDels I opts R k,
      o < opts.length ∧ o ∉ R ∧ ∃ i ∈ opts.getD k [], i ∈ opts.getD o []) ∧
    (∀ o < opts.length, o ∉ R → (∃ i ∈ opts.getD k [], i ∈ opts.getD o []) →
      o ∈ coverDels I opts R k) :=
  coverDelsGo_facts (opts.getD k []) R

theorem CRcoherent_cover {I : Nat} {opts : List (List Nat)} {C R : Finset Nat}
    (hwf : WfInput I opts) (hco : CRcoherent I opts C R) {k : Nat} :
    CRcoherent I opts (C ∪ (opts.getD k []).toFinset)
      (R ∪ (coverDels I opts R k).toFinset) := by
  obtain ⟨hCb, hRb, hcoh1, hcoh2⟩ := hco
  refine ⟨?_, ?_, ?_, ?_⟩
  · intro i hi
    rcases Finset.mem_union.mp hi with h | h
    · exact hCb i h
    · exact (wf_option_facts hwf k).2 i (List.mem_toFinset.mp h)
  · intro o ho
    rcases Finset.mem_union.mp ho with h | h
    · exact hRb o h
    · exact (coverDels_facts.1 o (List.mem_toFinset.mp h)).1
  · intro i hi o ho hio
    rcases Finset.mem_union.mp hi with h | h
    · exact Finset.mem_union_left _ (hcoh1 i h o ho hio)
    · by_cases hoR : o ∈ R
      · exact Finset.mem_union_left _ hoR
      · exact Finset.mem_union_right _ (List.mem_toFinset.mpr
          (coverDels_facts.2 o ho hoR ⟨i, List.mem_toFinset.mp h, hio⟩))
  · intro o ho
    rcases Finset.mem_union.mp ho with h | h
    · obtain ⟨i, hio, hiC⟩ := hcoh2 o h
      exact ⟨i, hio, Finset.mem_union_left _ hiC⟩
    · obtain ⟨-, -, i, hik, hio⟩ := coverDels_facts.1 o (List.mem_toFinset.mp h)
      exact ⟨i, hio, Finset.mem_union_right _ (List.mem_toFinset.mpr hik)⟩

theorem activeList_union_sub {I : Nat} {C : Finset Nat} {s : List Nat} {i : Nat}
    (h : i ∈ activeList I (C ∪ s.toFinset)) : i ∈ activeList I C ∧ i ∉ s := by
  obtain ⟨hiI, hiC⟩ := mem_activeList.mp h
  rw [Finset.mem_union] at hiC
  push_neg at hiC
  exact ⟨mem_activeList.mpr ⟨hiI, hiC.1⟩, fun hh => hiC.2 (List.mem_toFinset.mpr hh)⟩

theorem activeList_union_mem {I : Nat} {C : Finset Nat} {s : List Nat} {i : Nat}
    (h1 : i ∈ activeList I C) (h2 : i ∉ s) : i ∈ activeList I (C ∪ s.toFinset) := by
  obtain ⟨hiI, hiC⟩ := mem_activeList.mp h1
  refine mem_activeList.mpr ⟨hiI, ?_⟩
  rw [Finset.mem_union]
  push_neg
  exact ⟨hiC, fun hh => h2 (List.mem_toFinset.mp hh)⟩

theorem activeList_split_multiset {I : Nat} {C : Finset Nat} {its : List Nat}
    (hnd : its.Nodup) (hsub : ∀ i ∈ its, i ∈ activeList I C) :
    (activeList I C : Multiset Nat) =
      (its : Multiset Nat) + (activeList I (C ∪ its.toFinset) : Multiset Nat) := by
  have hperm : List.Perm (activeList I C) (its ++ activeList I (C ∪ its.toFinset)) := by
    apply List.perm_of_nodup_nodup_toFinset_eq (activeList_nodup I C)
    · rw [List.nodup_append]
      refine ⟨hnd, activeList_nodup _ _, ?_⟩
      intro i hi hact
      exact (activeList_union_sub hact).2 hi
    · ext i
      simp only [List.mem_toFinset, List.mem_append]
      constructor
      · intro hi
        by_cases his : i ∈ its
        · exact Or.inl his
        · exact Or.inr (activeList_union_mem hi his)
      · rintro (hi | hi)
        · exact hsub i hi
        · exact (activeList_union_sub hi).1
  calc (activeList I C : Multiset Nat)
      = ((its ++ activeList I (C ∪ its.toFinset) : List Nat) : Multiset Nat) :=
        Multiset.coe_eq_coe.mpr hperm
    _ = _ := by rw [← Multiset.coe_add]

theorem activeList_union_filter {I : Nat} (C : Finset Nat) (s : List Nat) :
    activeList I (C ∪ s.toFinset) =
      (activeList I C).filter (fun j => decide (j ∉ s)) := by
  unfold activeList
  rw [List.filter_filter]
  apply List.filter_congr
  intro a ha
  by_cases h1 : a ∈ C <;> by_cases h2 : a ∈ s <;>
    simp [h1, h2, Finset.mem_union]

theorem activeList_cover_length_lt {I : Nat} {C : Finset Nat} {s : List Nat} {i : Nat}
    (hi : i ∈ s) (hact : i ∈ activeList I C) :
    (activeList I (C ∪ s.toFinset)).length < (activeList I C).length := by
  rw [activeList_union_filter]
  exact List.length_filter_lt_length_iff_exists.mpr ⟨i, hact, by simp [hi]⟩


theorem mem_candsOf {I : Nat} {opts : List (List Nat)} {C R : Finset Nat} {c : Nat} :
    c ∈ candsOf I opts C R ↔
      (c < opts.length ∧ c ∉ R ∧ minItemOf I opts C R ∈ opts.getD c []) := by
  unfold candsOf
  constructor
  · intro h
    obtain ⟨g, hg, rfl⟩ := List.mem_map.mp h
    have hgcol := (mem_colSurv.mp hg).1
    refine ⟨entryOptOf_lt_of_mem_col hgcol, (mem_colSurv.mp hg).2, ?_⟩
    have hmem : entryItemOf I opts g ∈ opts.getD (entryOptOf I opts g) [] := by
      rw [← optionEntries_items I opts (entryOptOf I opts g)]
      exact List.mem_map_of_mem _ (mem_option_of_mem_col hgcol)
    rw [entryItemOf_of_mem_col hgcol] at hmem
    exact hmem
  · rintro ⟨hlt, hR, hmem⟩
    obtain ⟨g, hgcol, hgopt⟩ := col_option_exists hlt hmem
    exact List.mem_map.mpr ⟨g, mem_colSurv.mpr ⟨hgcol, by rw [hgopt]; exact hR⟩, hgopt⟩

theorem candsOf_nodup {I : Nat} {opts : List (List Nat)} (hwf : WfInput I opts)
    (C R : Finset Nat) : (candsOf I opts C R).Nodup :=
  colSurv_opts_nodup hwf R (minItemOf I opts C R)

theorem subSols_succ {I : Nat} {opts : List (List Nat)} {C R : Finset Nat} {f : Nat} :
    subSols I opts (f + 1) C R =
      if activeList I C = [] then [[]]
      else ((candsOf I opts C R).map (fun c =>
        (subSols I opts f (C ∪ (opts.getD c []).toFinset)
            (R ∪ (coverDels I opts R c).toFinset)).map
          (fun q => (⟨c, candsOf I opts C R⟩ : Step) :: q))).flatten := rfl

theorem subSols_succ_nil {I : Nat} {opts : List (List Nat)} {C R : Finset Nat}
    {f : Nat} (h : activeList I C = []) : subSols I opts (f + 1) C R = [[]] := by
  rw [subSols_succ, if_pos h]

theorem subSols_succ_cons {I : Nat} {opts : List (List Nat)} {C R : Finset Nat}
    {f : Nat} (h : activeList I C ≠ []) :
    subSols I opts (f + 1) C R =
      ((candsOf I opts C R).map (fun c =>
        (subSols I opts f (C ∪ (opts.getD c []).toFinset)
            (R ∪ (coverDels I opts R c).toFinset)).map
          (fun q => (⟨c, candsOf I opts C R⟩ : Step) :: q))).flatten := by
  rw [subSols_succ, if_neg h]

theorem subSols_congr_fuel {I : Nat} {opts : List (List Nat)} :
    ∀ (m : Nat) (C R : Finset Nat) (f f' : Nat),
    (activeList I C).length ≤ m →
    (activeList I C).length < f → (activeList I C).length < f' →
    subSols I opts f C R = subSols I opts f' C R := by
  intro m
  induction m with
  | zero =>
    intro C R f f' hm hf hf'
    have hact : activeList I C = [] := List.length_eq_zero.mp (by omega)
    match f, hf, f', hf' with
    | fa + 1, _, fb + 1, _ => rw [subSols_succ_nil hact, subSols_succ_nil hact]
  | succ m ih =>
    intro C R f f' hm hf hf'
    match f, hf, f', hf' with
    | fa + 1, hf, fb + 1, hf' =>
      by_cases hact : activeList I C = []
      · rw [subSols_succ_nil hact, subSols_succ_nil hact]
      · rw [subSols_succ_cons hact, subSols_succ_cons hact]
        congr 1
        apply List.map_congr_left
        intro c hc
        have hmin := @minItemOf_mem I opts C R hact
        have hcand := (mem_candsOf.mp hc).2.2
        have hlt := activeList_cover_length_lt hcand hmin
        rw [ih (C ∪ (opts.getD c []).toFinset) (R ∪ (coverDels I opts R c).toFinset)
          fa fb (by omega) (by omega) (by omega)]


/-! ## The reference tree enumerates the exact covers, exactly once -/

theorem IsExactCover_of_no_active {I : Nat} {opts : List (List Nat)}
    {C : Finset Nat} (hact : activeList I C = []) (F : Finset Nat) :
    IsExactCover I opts C F ↔ F = ∅ := by
  constructor
  · intro hF
    rw [Finset.eq_empty_iff_forall_not_mem]
    intro o ho
    obtain ⟨hne, hitems⟩ := hF.1 o ho
    obtain ⟨i, hi⟩ := List.exists_mem_of_ne_nil _ hne
    have := hitems i hi
    have hmem : i ∈ activeList I C := mem_activeList.mpr ⟨this.1, this.2⟩
    rw [hact] at hmem
    exact absurd hmem (by simp)
  · rintro rfl
    refine ⟨by simp, by simp, ?_⟩
    intro i hi hiC
    have hmem : i ∈ activeList I C := mem_activeList.mpr ⟨hi, hiC⟩
    rw [hact] at hmem
    exact absurd hmem (by simp)

theorem subSols_facts_nil {I : Nat} {opts : List (List Nat)} {C R : Finset Nat}
    {f : Nat} (hact : activeList I C = []) (hf : 0 < f) :
    (∀ p ∈ subSols I opts f C R,
      StepsOK I opts C R p ∧
      ((p.map (fun s => ((opts.getD s.option [] : List Nat) : Multiset Nat))).sum =
        (activeList I C : Multiset Nat)) ∧
      (p.map Step.option).Nodup ∧
      (∀ s ∈ p, s.option ∉ R ∧ s.option < opts.length ∧ opts.getD s.option [] ≠ []) ∧
      IsExactCover I opts C (pathOptions p)) ∧
    ((subSols I opts f C R).map pathOptions).Nodup ∧
    (∀ F, F ∈ (subSols I opts f C R).map pathOptions ↔ IsExactCover I opts C F) := by
  match f, hf with
  | fa + 1, _ =>
  rw [subSols_succ_nil hact]
  refine ⟨?_, by simp, ?_⟩
  · intro p hp
    have hpnil : p = [] := by simpa using hp
    subst hpnil
    refine ⟨hact, by rw [hact]; rfl, by simp, by simp, ?_⟩
    rw [show pathOptions [] = ∅ from rfl]
    exact (IsExactCover_of_no_active hact ∅).mpr rfl
  · intro F
    rw [IsExactCover_of_no_active hact F]
    simp [pathOptions]

theorem subSols_facts {I : Nat} {opts : List (List Nat)} (hwf : WfInput I opts) :
    ∀ (m : Nat) (C R : Finset Nat) (f : Nat),
    (activeList I C).length ≤ m → (activeList I C).length < f →
    CRcoherent I opts C R →
    (∀ p ∈ subSols I opts f C R,
      StepsOK I opts C R p ∧
      ((p.map (fun s => ((opts.getD s.option [] : List Nat) : Multiset Nat))).sum =
        (activeList I C : Multiset Nat)) ∧
      (p.map Step.option).Nodup ∧
      (∀ s ∈ p, s.option ∉ R ∧ s.option < opts.length ∧ opts.getD s.option [] ≠ []) ∧
      IsExactCover I opts C (pathOptions p)) ∧
    ((subSols I opts f C R).map pathOptions).Nodup ∧
    (∀ F, F ∈ (subSols I opts f C R).map pathOptions ↔ IsExactCover I opts C F) := by
  intro m
  induction m with
  | zero =>
    intro C R f hm hf hco
    exact subSols_facts_nil (List.length_eq_zero.mp (by omega)) (by omega)
  | succ m ih =>
    intro C R f hm hf hco
    by_cases hact : activeList I C = []
    · exact subSols_facts_nil hact (by omega)
    · match f, hf with
      | fa + 1, hf =>
      obtain ⟨hCb, hRb, hcoh1, hcoh2⟩ := hco
      have hminmem : minItemOf I opts C R ∈ activeList I C := minItemOf_mem hact
      have hminI : minItemOf I opts C R < I := (mem_activeList.mp hminmem).1
      -- facts per candidate
      have hcfacts : ∀ c ∈ candsOf I opts C R,
          c < opts.length ∧ c ∉ R ∧ minItemOf I opts C R ∈ opts.getD c [] ∧
          (∀ i ∈ opts.getD c [], i ∈ activeList I C) ∧
          (activeList I (C ∪ (opts.getD c []).toFinset)).length <
            (activeList I C).length ∧
          CRcoherent I opts (C ∪ (opts.getD c []).toFinset)
            (R ∪ (coverDels I opts R c).toFinset) ∧
          c ∈ (R ∪ (coverDels I opts R c).toFinset) := by
        intro c hc
        obtain ⟨hclt, hcR, hcmin⟩ := mem_candsOf.mp hc
        have hCitems : ∀ i ∈ opts.getD c [], i ∈ activeList I C := by
          intro i hi
          refine mem_activeList.mpr ⟨(wf_option_facts hwf c).2 i hi, ?_⟩
          intro hiC
          exact hcR (hcoh1 i hiC c hclt hi)
        refine ⟨hclt, hcR, hcmin, hCitems,
          activeList_cover_length_lt hcmin hminmem,
          CRcoherent_cover hwf ⟨hCb, hRb, hcoh1, hcoh2⟩, ?_⟩
        exact Finset.mem_union_right _ (List.mem_toFinset.mpr
          (coverDels_facts.2 c hclt hcR ⟨minItemOf I opts C R, hcmin, hcmin⟩))
      -- the per-solution facts
      have hall : ∀ p ∈ subSols I opts (fa + 1) C R,
          StepsOK I opts C R p ∧
          ((p.map (fun s => ((opts.getD s.option [] : List Nat) : Multiset Nat))).sum =
            (activeList I C : Multiset Nat)) ∧
          (p.map Step.option).Nodup ∧
          (∀ s ∈ p, s.option ∉ R ∧ s.option < opts.length ∧
            opts.getD s.option [] ≠ []) ∧
          IsExactCover I opts C (pathOptions p) := by
        intro p hp
        rw [subSols_succ_cons hact] at hp
        obtain ⟨lp, hlp, hplp⟩ := List.mem_flatten.mp hp
        obtain ⟨c, hc, rfl⟩ := List.mem_map.mp hlp
        obtain ⟨q, hq, rfl⟩ := List.mem_map.mp hplp
        obtain ⟨hclt, hcR, hcmin, hCitems, hlen, hcco, hcRnew⟩ := hcfacts c hc
        obtain ⟨hq1, hq2, hq3, hq4, hq5⟩ := (ih (C ∪ (opts.getD c []).toFinset)
          (R ∪ (coverDels I opts R c).toFinset) fa (by omega) (by omega) hcco).1 q hq
        have hcnotq : c ∉ q.map Step.option := by
          intro hmem
          obtain ⟨s, hs, hso⟩ := List.mem_map.mp hmem
          exact (hq4 s hs).1 (hso ▸ hcRnew)
        have hpo : pathOptions ((⟨c, candsOf I opts C R⟩ : Step) :: q) =
            insert c (pathOptions q) := by
          simp [pathOptions]
        refine ⟨⟨hact, rfl, hc, hq1⟩, ?_, ?_, ?_, ?_⟩
        · rw [List.map_cons, List.sum_cons, hq2]
          exact (activeList_split_multiset (wf_option_facts hwf c).1 hCitems).symm
        · rw [List.map_cons]
          exact List.nodup_cons.mpr ⟨hcnotq, hq3⟩
        · intro s hs
          rcases List.mem_cons.mp hs with h | h
          · subst h
            exact ⟨hcR, hclt, List.ne_nil_of_mem hcmin⟩
          · obtain ⟨h1, h2, h3⟩ := hq4 s h
            exact ⟨fun hh => h1 (Finset.mem_union_left _ hh), h2, h3⟩
        · rw [hpo]
          obtain ⟨hic1, hic2, hic3⟩ := hq5
          refine ⟨?_, ?_, ?_⟩
          · intro o ho
            rcases Finset.mem_insert.mp ho with h | h
            · subst h
              refine ⟨List.ne_nil_of_mem hcmin, ?_⟩
              intro i hi
              exact mem_activeList.mp (hCitems i hi)
            · obtain ⟨hne, hitems⟩ := hic1 o h
              refine ⟨hne, ?_⟩
              intro i hi
              obtain ⟨hiI, hiC'⟩ := hitems i hi
              exact ⟨hiI, fun hh => hiC' (Finset.mem_union_left _ hh)⟩
          · intro o ho o' ho' hne
            have hdisj_c : ∀ o'', o'' ∈ pathOptions q →
                (opts.getD c []).Disjoint (opts.getD o'' []) := by
              intro o'' ho'' i hic hio''
              exact (hic1 o'' ho'').2 i hio''
                |>.2 (Finset.mem_union_right _ (List.mem_toFinset.mpr hic))
            rcases Finset.mem_insert.mp ho with h | h
            · subst h
              rcases Finset.mem_insert.mp ho' with h' | h'
              · exact absurd h'.symm hne
              · exact hdisj_c o' h'
            · rcases Finset.mem_insert.mp ho' with h' | h'
              · subst h'
                intro i hio hic
                exact hdisj_c o h hic hio
              · exact hic2 o h o' h' hne
          · intro i hiI hiC
            by_cases hic : i ∈ opts.getD c []
            · exact ⟨c, Finset.mem_insert_self _ _, hic⟩
            · have hiC' : i ∉ C ∪ (opts.getD c []).toFinset := by
                intro hh
                rcases Finset.mem_union.mp hh with h | h
                · exact hiC h
                · exact hic (List.mem_toFinset.mp h)
              obtain ⟨o, ho, hio⟩ := hic3 i hiI hiC'
              exact ⟨o, Finset.mem_insert_of_mem ho, hio⟩
      refine ⟨hall, ?_, ?_⟩
      · -- the solution list has no repeated cover
        rw [subSols_succ_cons hact, List.map_flatten, List.map_map]
        rw [List.nodup_flatten]
        constructor
        · intro l hl
          obtain ⟨c, hc, rfl⟩ := List.mem_map.mp hl
          obtain ⟨hclt, hcR, hcmin, hCitems, hlen, hcco, hcRnew⟩ := hcfacts c hc
          have hchild := ih (C ∪ (opts.getD c []).toFinset)
            (R ∪ (coverDels I opts R c).toFinset) fa (by omega) (by omega) hcco
          show (((subSols I opts fa _ _).map _).map pathOptions).Nodup
          rw [List.map_map]
          apply (List.Nodup.of_map pathOptions hchild.2.1).map_on
          intro q1 hq1 q2 hq2 heq
          have hins : ∀ q ∈ subSols I opts fa (C ∪ (opts.getD c []).toFinset)
              (R ∪ (coverDels I opts R c).toFinset),
              (pathOptions ∘ fun q => (⟨c, candsOf I opts C R⟩ : Step) :: q) q =
                insert c (pathOptions q) := by
            intro q _
            simp [pathOptions]
          have hnotc : ∀ q ∈ subSols I opts fa (C ∪ (opts.getD c []).toFinset)
              (R ∪ (coverDels I opts R c).toFinset), c ∉ pathOptions q := by
            intro q hq hmem
            obtain ⟨s, hs, hso⟩ := List.mem_map.mp (List.mem_toFinset.mp hmem)
            exact ((hchild.1 q hq).2.2.2.1 s hs).1 (hso ▸ hcRnew)
          rw [hins q1 hq1, hins q2 hq2] at heq
          have hpoeq : pathOptions q1 = pathOptions q2 := by
            have := congrArg (fun t => t.erase c) heq
            simpa [Finset.erase_insert (hnotc q1 hq1), Finset.erase_insert (hnotc q2 hq2)]
              using this
          exact List.inj_on_of_nodup_map hchild.2.1 hq1 hq2 hpoeq
        · -- across candidates the covers differ
          rw [List.pairwise_map]
          refine List.Pairwise.imp_of_mem ?_ (candsOf_nodup hwf C R)
          intro c c' hc hc' hne F hFc hFc'
          obtain ⟨hclt, hcR, hcmin, -, -, -, -⟩ := hcfacts c hc
          obtain ⟨hc'lt, hc'R, hc'min, -, hlen', hc'co, -⟩ := hcfacts c' hc'
          have hchild' := ih (C ∪ (opts.getD c' []).toFinset)
            (R ∪ (coverDels I opts R c').toFinset) fa (by omega) (by omega) hc'co
          obtain ⟨pc, hpc, hFeq⟩ := List.mem_map.mp hFc
          obtain ⟨q, hq, rfl⟩ := List.mem_map.mp hpc
          obtain ⟨pc', hpc', hFeq'⟩ := List.mem_map.mp hFc'
          obtain ⟨q', hq', rfl⟩ := List.mem_map.mp hpc'
          have hcF : c ∈ F := by
            rw [← hFeq]
            simp [pathOptions]
          rw [← hFeq'] at hcF
          have hcF' : c ∈ insert c' (pathOptions q') := by
            simpa [pathOptions] using hcF
          rcases Finset.mem_insert.mp hcF' with h | h
          · exact hne h
          · obtain ⟨s, hs, hso⟩ := List.mem_map.mp (List.mem_toFinset.mp h)
            refine ((hchild'.1 q' hq').2.2.2.1 s hs).1 ?_
            rw [hso]
            exact Finset.mem_union_right _ (List.mem_toFinset.mpr
              (coverDels_facts.2 c hclt hcR ⟨minItemOf I opts C R, hc'min, hcmin⟩))
      · intro F
        constructor
        · intro hF
          obtain ⟨p, hp, hpF⟩ := List.mem_map.mp hF
          rw [← hpF]
          exact (hall p hp).2.2.2.2
        · intro hF
          obtain ⟨oF, hoF, hioF⟩ := hF.2.2 (minItemOf I opts C R) hminI
            (mem_activeList.mp hminmem).2
          have hoFlt : oF < opts.length := by
            by_contra h
            rw [List.getD_eq_getElem?_getD, List.getElem?_eq_none (by omega)] at hioF
            exact absurd hioF (by simp)
          have hoFR : oF ∉ R := by
            intro hmem
            obtain ⟨i, hi, hiC⟩ := hcoh2 oF hmem
            exact ((hF.1 oF hoF).2 i hi).2 hiC
          have hoFc : oF ∈ candsOf I opts C R := mem_candsOf.mpr ⟨hoFlt, hoFR, hioF⟩
          obtain ⟨hclt, hcR, hcmin, hCitems, hlen, hcco, hcRnew⟩ := hcfacts oF hoFc
          have hchild := ih (C ∪ (opts.getD oF []).toFinset)
            (R ∪ (coverDels I opts R oF).toFinset) fa (by omega) (by omega) hcco
          have hF' : IsExactCover I opts (C ∪ (opts.getD oF []).toFinset)
              (F.erase oF) := by
            refine ⟨?_, ?_, ?_⟩
            · intro o ho
              have hoF2 : o ∈ F := Finset.mem_of_mem_erase ho
              have honeF : o ≠ oF := Finset.ne_of_mem_erase ho
              obtain ⟨hne, hitems⟩ := hF.1 o hoF2
              refine ⟨hne, ?_⟩
              intro i hi
              obtain ⟨hiI, hiC⟩ := hitems i hi
              refine ⟨hiI, ?_⟩
              intro hh
              rcases Finset.mem_union.mp hh with h | h
              · exact hiC h
              · exact hF.2.1 o hoF2 oF hoF honeF hi (List.mem_toFinset.mp h)
            · intro o ho o' ho' hne
              exact hF.2.1 o (Finset.mem_of_mem_erase ho) o'
                (Finset.mem_of_mem_erase ho') hne
            · intro i hiI hiC'
              have hiC : i ∉ C := fun hh => hiC' (Finset.mem_union_left _ hh)
              have hioF' : i ∉ opts.getD oF [] := fun hh =>
                hiC' (Finset.mem_union_right _ (List.mem_toFinset.mpr hh))
              obtain ⟨o, ho, hio⟩ := hF.2.2 i hiI hiC
              have honeF : o ≠ oF := fun hh => hioF' (hh ▸ hio)
              exact ⟨o, Finset.mem_erase.mpr ⟨honeF, ho⟩, hio⟩
          obtain ⟨q, hq, hqF⟩ := List.mem_map.mp ((hchild.2.2 (F.erase oF)).mpr hF')
          refine List.mem_map.mpr ⟨(⟨oF, candsOf I opts C R⟩ : Step) :: q, ?_, ?_⟩
          · rw [subSols_succ_cons hact]
            apply List.mem_flatten.mpr
            exact ⟨_, List.mem_map.mpr ⟨oF, hoFc, rfl⟩, List.mem_map.mpr ⟨q, hq, rfl⟩⟩
          · rw [show pathOptions ((⟨oF, candsOf I opts C R⟩ : Step) :: q) =
              insert oF (pathOptions q) from by simp [pathOptions], hqF,
              Finset.insert_erase hoF]


/-! ## Engine equations, fuel monotonicity and abort-index algebra -/

theorem engineLoop_zero (yield : Nat → List Step → Bool) (st : DL)
    (stages : List StageT) (path : List Step) (n : Nat)
    (log : List (List Step)) :
    DL.engineLoop yield 0 st stages path n log = none := rfl

theorem engineLoop_nil (yield : Nat → List Step → Bool) (f : Nat) (st : DL)
    (path : List Step) (n : Nat) (log : List (List Step)) :
    DL.engineLoop yield (f + 1) st [] path n log = some (st, n, log) := rfl

theorem engineLoop_cleanup (yield : Nat → List Step → Bool) (f : Nat) (st : DL)
    (c : Nat) (d : List Nat) (rest : List StageT) (path : List Step) (n : Nat)
    (log : List (List Step)) :
    DL.engineLoop yield (f + 1) st (.cleanup c d :: rest) path n log =
      DL.engineLoop yield f (st.cleanupOp c d) rest path.dropLast n log := rfl

theorem engineLoop_search_none (yield : Nat → List Step → Bool) (f : Nat)
    (st : DL) (cs : List Nat) (rest : List StageT) (path : List Step) (n : Nat)
    (log : List (List Step)) :
    DL.engineLoop yield (f + 1) st (.search none cs :: rest) path n log =
      match st.nextChoices with
      | none =>
        if yield n path then
          DL.engineLoop yield f st rest path (n + 1) (log ++ [path])
        else some (st, n + 1, log ++ [path])
      | some cs2 =>
        DL.engineLoop yield f st
          (cs2.map (fun c => StageT.search (some c) cs2) ++ rest) path n log := rfl

theorem engineLoop_search_some_bridge (yield : Nat → List Step → Bool) (f : Nat)
    (st : DL) (c : Nat) (cs : List Nat) (rest : List StageT) (path : List Step)
    (n : Nat) (log : List (List Step)) :
    DL.engineLoop yield (f + 1) st (.search (some c) cs :: rest) path n log =
      DL.engineLoop yield (f + 1) (st.chooseOption c []).1
        (.search none [] :: .cleanup c (st.chooseOption c []).2 :: rest)
        (path ++ [⟨c, cs⟩]) n log := rfl

theorem engineLoop_mono (yield : Nat → List Step → Bool) :
    ∀ (f : Nat) (st : DL) (stages : List StageT) (path : List Step) (n : Nat)
      (log : List (List Step)) (r : DL × Nat × List (List Step)),
    DL.engineLoop yield f st stages path n log = some r →
    DL.engineLoop yield (f + 1) st stages path n log = some r := by
  intro f
  induction f with
  | zero =>
    intro st stages path n log r h
    rw [engineLoop_zero] at h
    exact absurd h (by simp)
  | succ f ih =>
    intro st stages path n log r h
    match stages with
    | [] => exact h
    | .cleanup c d :: rest =>
      rw [engineLoop_cleanup] at h ⊢
      exact ih _ _ _ _ _ _ h
    | .search (some c) cs :: rest =>
      rw [engineLoop_search_some_bridge] at h ⊢
      rw [engineLoop_search_none] at h ⊢
      cases hnext : ((st.chooseOption c []).1).nextChoices with
      | none =>
        rw [hnext] at h
        cases hyield : yield n (path ++ [⟨c, cs⟩]) with
        | true =>
          rw [hyield] at h
          exact ih _ _ _ _ _ _ h
        | false =>
          rw [hyield] at h
          exact h
      | some cs2 =>
        rw [hnext] at h
        exact ih _ _ _ _ _ _ h
    | .search none cs :: rest =>
      rw [engineLoop_search_none] at h ⊢
      cases hnext : st.nextChoices with
      | none =>
        rw [hnext] at h
        cases hyield : yield n path with
        | true =>
          rw [hyield] at h
          exact ih _ _ _ _ _ _ h
        | false =>
          rw [hyield] at h
          exact h
      | some cs2 =>
        rw [hnext] at h
        exact ih _ _ _ _ _ _ h

theorem engineLoop_le_mono (yield : Nat → List Step → Bool) {f g : Nat}
    (hfg : f ≤ g) (st : DL) (stages : List StageT) (path : List Step) (n : Nat)
    (log : List (List Step)) (r : DL × Nat × List (List Step))
    (h : DL.engineLoop yield f st stages path n log = some r) :
    DL.engineLoop yield g st stages path n log = some r := by
  induction g with
  | zero =>
    have hf0 : f = 0 := by omega
    subst hf0
    exact h
  | succ g ihg =>
    rcases Nat.lt_or_ge f (g + 1) with hlt | hge
    · exact engineLoop_mono yield g st stages path n log r (ihg (by omega))
    · have hfe : f = g + 1 := by omega
      subst hfe
      exact h

theorem EngineEval_unique {yield : Nat → List Step → Bool} {st : DL}
    {stages : List StageT} {path : List Step} {n : Nat}
    {log : List (List Step)} {r r' : DL × Nat × List (List Step)}
    (h : EngineEval yield st stages path n log r)
    (h' : EngineEval yield st stages path n log r') : r = r' := by
  obtain ⟨f, hf⟩ := h
  obtain ⟨g, hg⟩ := h'
  have h1 := engineLoop_le_mono yield (Nat.le_max_left f g) st stages path n log r hf
  have h2 := engineLoop_le_mono yield (Nat.le_max_right f g) st stages path n log r' hg
  rw [h1] at h2
  exact Option.some_injective _ h2

theorem abortIndex_nil (yield : Nat → List Step → Bool) (n : Nat) :
    abortIndex yield n [] = none := rfl

theorem abortIndex_cons (yield : Nat → List Step → Bool) (n : Nat)
    (p : List Step) (ps : List (List Step)) :
    abortIndex yield n (p :: ps) =
      if yield n p then (abortIndex yield (n + 1) ps).map (· + 1)
      else some 0 := rfl

theorem abortIndex_lt_length {yield : Nat → List Step → Bool} :
    ∀ {sols : List (List Step)} {n j : Nat},
    abortIndex yield n sols = some j → j < sols.length := by
  intro sols
  induction sols with
  | nil =>
    intro n j h
    rw [abortIndex_nil] at h
    exact absurd h (by simp)
  | cons p ps ih =>
    intro n j h
    rw [abortIndex_cons] at h
    by_cases hy : yield n p
    · rw [if_pos hy] at h
      cases hrec : abortIndex yield (n + 1) ps with
      | none =>
        rw [hrec] at h
        exact absurd h (by simp)
      | some j' =>
        rw [hrec] at h
        have hj : j = j' + 1 := by simpa using h.symm
        subst hj
        have := ih hrec
        simp only [List.length_cons]
        omega
    · rw [if_neg hy] at h
      have hj : j = 0 := (Option.some_injective _ h.symm)
      subst hj
      simp

theorem abortIndex_append (yield : Nat → List Step → Bool) :
    ∀ (xs ys : List (List Step)) (n : Nat),
    abortIndex yield n (xs ++ ys) =
      match abortIndex yield n xs with
      | some j => some j
      | none => (abortIndex yield (n + xs.length) ys).map (· + xs.length) := by
  intro xs
  induction xs with
  | nil =>
    intro ys n
    rw [List.nil_append, abortIndex_nil]
    simp
  | cons p ps ih =>
    intro ys n
    rw [List.cons_append, abortIndex_cons, abortIndex_cons]
    by_cases hy : yield n p
    · rw [if_pos hy, if_pos hy, ih ys (n + 1)]
      cases hrec : abortIndex yield (n + 1) ps with
      | none =>
        have harith : n + 1 + ps.length = n + (p :: ps).length := by
          simp only [List.length_cons]
          omega
        rw [harith]
        cases abortIndex yield (n + (p :: ps).length) ys with
        | none => rfl
        | some j => rfl
      | some j => rfl
    · rw [if_neg hy, if_neg hy]

theorem abortIndex_true (sols : List (List Step)) :
    ∀ (n : Nat), abortIndex (fun _ _ => true) n sols = none := by
  induction sols with
  | nil => intro n; rfl
  | cons p ps ih =>
    intro n
    rw [abortIndex_cons, if_pos rfl, ih (n + 1)]
    rfl


/-! ## The engine simulates the reference enumeration, block by block -/

theorem Canonical_CRcoherent {I : Nat} {opts : List (List Nat)} {C R : Finset Nat}
    {st : DL} (h : Canonical I opts C R st) : CRcoherent I opts C R := by
  obtain ⟨-, -, -, -, -, -, -, -, -, -, h1, h2, h3, h4⟩ := h
  exact ⟨h1, h2, h3, h4⟩

theorem blockSols_nil (I : Nat) (opts : List (List Nat)) (fl : Nat) (CS : List Nat)
    (C R : Finset Nat) : blockSols I opts fl CS C R [] = [] := rfl

theorem blockSols_cons (I : Nat) (opts : List (List Nat)) (fl : Nat) (CS : List Nat)
    (C R : Finset Nat) (c : Nat) (cs : List Nat) :
    blockSols I opts fl CS C R (c :: cs) =
      childSols I opts fl CS C R c ++ blockSols I opts fl CS C R cs := rfl

theorem subSols_eq_blockSols {I : Nat} {opts : List (List Nat)} {C R : Finset Nat}
    {f : Nat} (h : activeList I C ≠ []) :
    subSols I opts (f + 1) C R =
      blockSols I opts f (candsOf I opts C R) C R (candsOf I opts C R) := by
  rw [subSols_succ_cons h]
  rfl

theorem engine_branch_base {I : Nat} {opts : List (List Nat)} {C R : Finset Nat}
    {st : DL} (hcan : Canonical I opts C R st) (hact : activeList I C = [])
    (yield : Nat → List Step → Bool) (rest : List StageT) (path : List Step)
    (n : Nat) (log : List (List Step)) :
    match abortIndex yield n ((subSols I opts ((activeList I C).length + 1) C R).map
        (fun q => path ++ q)) with
    | none => ∀ r, EngineEval yield st rest path
          (n + (subSols I opts ((activeList I C).length + 1) C R).length)
          (log ++ (subSols I opts ((activeList I C).length + 1) C R).map
            (fun q => path ++ q)) r →
        EngineEval yield st (.search none [] :: rest) path n log r
    | some j => ∃ stD, EngineEval yield st (.search none [] :: rest) path n log
        (stD, n + j + 1,
         log ++ ((subSols I opts ((activeList I C).length + 1) C R).map
           (fun q => path ++ q)).take (j + 1)) := by
  have hnext : st.nextChoices = none := by
    rw [nextChoices_canonical hcan, hact]
  have hsols : subSols I opts ((activeList I C).length + 1) C R = [[]] :=
    subSols_succ_nil hact
  rw [hsols]
  have hmap : (([[]] : List (List Step)).map (fun q => path ++ q)) = [path] := by simp
  rw [hmap, abortIndex_cons, abortIndex_nil]
  by_cases hy : yield n path = true
  · rw [if_pos hy]
    intro r hr
    obtain ⟨f, hf⟩ := hr
    refine ⟨f + 1, ?_⟩
    rw [engineLoop_search_none, hnext, if_pos hy]
    exact hf
  · rw [if_neg hy]
    refine ⟨st, 1, ?_⟩
    rw [engineLoop_search_none, hnext, if_neg hy]
    rfl

theorem engine_branch {I : Nat} {opts : List (List Nat)} (hwf : WfInput I opts)
    (yield : Nat → List Step → Bool) :
    ∀ (m : Nat) (C R : Finset Nat) (st : DL) (rest : List StageT)
      (path : List Step) (n : Nat) (log : List (List Step)),
    (activeList I C).length ≤ m →
    Canonical I opts C R st → ColWithin I opts st →
    match abortIndex yield n ((subSols I opts ((activeList I C).length + 1) C R).map
        (fun q => path ++ q)) with
    | none => ∀ r, EngineEval yield st rest path
          (n + (subSols I opts ((activeList I C).length + 1) C R).length)
          (log ++ (subSols I opts ((activeList I C).length + 1) C R).map
            (fun q => path ++ q)) r →
        EngineEval yield st (.search none [] :: rest) path n log r
    | some j => ∃ stD, EngineEval yield st (.search none [] :: rest) path n log
        (stD, n + j + 1,
         log ++ ((subSols I opts ((activeList I C).length + 1) C R).map
           (fun q => path ++ q)).take (j + 1)) := by
  intro m
  induction m with
  | zero =>
    intro C R st rest path n log hm hcan hcw
    exact engine_branch_base hcan (List.length_eq_zero.mp (by omega)) yield rest path n log
  | succ m ih =>
    intro C R st rest path n log hm hcan hcw
    by_cases hact : activeList I C = []
    · exact engine_branch_base hcan hact yield rest path n log
    have hminmem : minItemOf I opts C R ∈ activeList I C := minItemOf_mem hact
    have hnextCS : st.nextChoices = some (candsOf I opts C R) := by
      rw [nextChoices_canonical hcan]
      cases hal : activeList I C with
      | nil => exact absurd hal hact
      | cons a r => rfl
    have hinner : ∀ (cs : List Nat), (∀ x ∈ cs, x ∈ candsOf I opts C R) →
        ∀ (n' : Nat) (log' : List (List Step)),
        match abortIndex yield n'
            ((blockSols I opts (activeList I C).length (candsOf I opts C R) C R cs).map
              (fun q => path ++ q)) with
        | none => ∀ r, EngineEval yield st rest path
              (n' + (blockSols I opts (activeList I C).length (candsOf I opts C R) C R cs).length)
              (log' ++ (blockSols I opts (activeList I C).length (candsOf I opts C R) C R cs).map
                (fun q => path ++ q)) r →
            EngineEval yield st
              (cs.map (fun x => StageT.search (some x) (candsOf I opts C R)) ++ rest)
              path n' log' r
        | some j => ∃ stD, EngineEval yield st
            (cs.map (fun x => StageT.search (some x) (candsOf I opts C R)) ++ rest)
            path n' log'
            (stD, n' + j + 1,
             log' ++ ((blockSols I opts (activeList I C).length (candsOf I opts C R) C R cs).map
               (fun q => path ++ q)).take (j + 1)) := by
      intro cs
      induction cs with
      | nil =>
        intro hsub n' log'
        rw [blockSols_nil]
        intro r hr
        obtain ⟨f, hf⟩ := hr
        simp only [List.map_nil, List.append_nil, List.length_nil, Nat.add_zero] at hf
        exact ⟨f, hf⟩
      | cons c cs' ihin =>
        intro hsub n' log'
        have hc : c ∈ candsOf I opts C R := hsub c (by simp)
        obtain ⟨hclt, hcR, hcmin⟩ := mem_candsOf.mp hc
        obtain ⟨hchoose, hcanF, hcwF, -, -⟩ :=
          chooseOption_spec hwf hcan hcw hclt hcR (L := []) (by simp)
        have hlenlt : (activeList I (C ∪ (opts.getD c []).toFinset)).length <
            (activeList I C).length := activeList_cover_length_lt hcmin hminmem
        have hfuel : subSols I opts (activeList I C).length
              (C ∪ (opts.getD c []).toFinset) (R ∪ (coverDels I opts R c).toFinset) =
            subSols I opts ((activeList I (C ∪ (opts.getD c []).toFinset)).length + 1)
              (C ∪ (opts.getD c []).toFinset) (R ∪ (coverDels I opts R c).toFinset) :=
          subSols_congr_fuel (activeList I (C ∪ (opts.getD c []).toFinset)).length
            (C ∪ (opts.getD c []).toFinset) (R ∪ (coverDels I opts R c).toFinset)
            (activeList I C).length
            ((activeList I (C ∪ (opts.getD c []).toFinset)).length + 1)
            le_rfl hlenlt (by omega)
        have houter := ih (C ∪ (opts.getD c []).toFinset) (R ∪ (coverDels I opts R c).toFinset)
          ((coverDels I opts R c).foldl DL.deleteOption
            ((opts.getD c []).foldl DL.unlinkItem st))
          (.cleanup c (coverDels I opts R c) ::
            (cs'.map (fun x => StageT.search (some x) (candsOf I opts C R)) ++ rest))
          (path ++ [⟨c, candsOf I opts C R⟩]) n' log' (by omega) hcanF hcwF
        have hbpc : (childSols I opts (activeList I C).length (candsOf I opts C R) C R c).map
              (fun q => path ++ q) =
            (subSols I opts ((activeList I (C ∪ (opts.getD c []).toFinset)).length + 1)
                (C ∪ (opts.getD c []).toFinset) (R ∪ (coverDels I opts R c).toFinset)).map
              (fun q => (path ++ [(⟨c, candsOf I opts C R⟩ : Step)]) ++ q) := by
          rw [← hfuel]
          unfold childSols
          rw [List.map_map]
          apply List.map_congr_left
          intro q hq
          show path ++ ((⟨c, candsOf I opts C R⟩ : Step) :: q) =
            (path ++ [(⟨c, candsOf I opts C R⟩ : Step)]) ++ q
          rw [List.append_cons]
        have hbridge : ∀ (f : Nat) (res : DL × Nat × List (List Step)),
            DL.engineLoop yield (f + 1)
              ((coverDels I opts R c).foldl DL.deleteOption
                ((opts.getD c []).foldl DL.unlinkItem st))
              (.search none [] :: .cleanup c (coverDels I opts R c) ::
                (cs'.map (fun x => StageT.search (some x) (candsOf I opts C R)) ++ rest))
              (path ++ [⟨c, candsOf I opts C R⟩]) n' log' = some res →
            DL.engineLoop yield (f + 1) st
              ((c :: cs').map (fun x => StageT.search (some x) (candsOf I opts C R)) ++ rest)
              path n' log' = some res := by
          intro f res h
          rw [List.map_cons, List.cons_append, engineLoop_search_some_bridge, hchoose]
          exact h
        have hcleanup : ∀ (f : Nat) (nn : Nat) (lg : List (List Step))
            (res : DL × Nat × List (List Step)),
            DL.engineLoop yield f st
              (cs'.map (fun x => StageT.search (some x) (candsOf I opts C R)) ++ rest)
              path nn lg = some res →
            DL.engineLoop yield (f + 1)
              ((coverDels I opts R c).foldl DL.deleteOption
                ((opts.getD c []).foldl DL.unlinkItem st))
              (.cleanup c (coverDels I opts R c) ::
                (cs'.map (fun x => StageT.search (some x) (candsOf I opts C R)) ++ rest))
              (path ++ [⟨c, candsOf I opts C R⟩]) nn lg = some res := by
          intro f nn lg res h
          rw [engineLoop_cleanup, List.dropLast_concat]
          have hcc := cleanup_choose_cancel hwf hcan hcw hclt hcR
          rw [hchoose] at hcc
          rw [show ((coverDels I opts R c).foldl DL.deleteOption
              ((opts.getD c []).foldl DL.unlinkItem st)).cleanupOp c (coverDels I opts R c) = st
            from hcc]
          exact h
        have hxsl : ((subSols I opts ((activeList I (C ∪ (opts.getD c []).toFinset)).length + 1)
              (C ∪ (opts.getD c []).toFinset) (R ∪ (coverDels I opts R c).toFinset)).map
            (fun q => (path ++ [(⟨c, candsOf I opts C R⟩ : Step)]) ++ q)).length =
            (subSols I opts ((activeList I (C ∪ (opts.getD c []).toFinset)).length + 1)
              (C ∪ (opts.getD c []).toFinset) (R ∪ (coverDels I opts R c).toFinset)).length :=
          List.length_map _ _
        have hclen : (childSols I opts (activeList I C).length (candsOf I opts C R) C R c).length
            = ((subSols I opts ((activeList I (C ∪ (opts.getD c []).toFinset)).length + 1)
                (C ∪ (opts.getD c []).toFinset) (R ∪ (coverDels I opts R c).toFinset)).map
              (fun q => (path ++ [(⟨c, candsOf I opts C R⟩ : Step)]) ++ q)).length := by
          unfold childSols
          rw [List.length_map, List.length_map, hfuel]
        rw [blockSols_cons, List.map_append, abortIndex_append, hbpc]
        cases habort1 : abortIndex yield n'
            ((subSols I opts ((activeList I (C ∪ (opts.getD c []).toFinset)).length + 1)
                (C ∪ (opts.getD c []).toFinset) (R ∪ (coverDels I opts R c).toFinset)).map
              (fun q => (path ++ [(⟨c, candsOf I opts C R⟩ : Step)]) ++ q)) with
        | some j =>
          rw [habort1] at houter
          obtain ⟨stD, fC, hfC⟩ := houter
          match fC, hfC with
          | 0, hfC =>
            rw [engineLoop_zero] at hfC
            exact absurd hfC (by simp)
          | fC + 1, hfC =>
          refine ⟨stD, fC + 1, ?_⟩
          have hfin := hbridge fC _ hfC
          rw [List.take_append_of_le_length
            (show j + 1 ≤ ((subSols I opts
                ((activeList I (C ∪ (opts.getD c []).toFinset)).length + 1)
                (C ∪ (opts.getD c []).toFinset) (R ∪ (coverDels I opts R c).toFinset)).map
              (fun q => (path ++ [(⟨c, candsOf I opts C R⟩ : Step)]) ++ q)).length from by
              have := abortIndex_lt_length habort1
              omega)]
          exact hfin
        | none =>
          rw [habort1] at houter
          have hsub' : ∀ x ∈ cs', x ∈ candsOf I opts C R :=
            fun x hx => hsub x (List.mem_cons_of_mem c hx)
          have hihin := ihin hsub'
            (n' + ((subSols I opts ((activeList I (C ∪ (opts.getD c []).toFinset)).length + 1)
                (C ∪ (opts.getD c []).toFinset) (R ∪ (coverDels I opts R c).toFinset)).map
              (fun q => (path ++ [(⟨c, candsOf I opts C R⟩ : Step)]) ++ q)).length)
            (log' ++ (subSols I opts ((activeList I (C ∪ (opts.getD c []).toFinset)).length + 1)
                (C ∪ (opts.getD c []).toFinset) (R ∪ (coverDels I opts R c).toFinset)).map
              (fun q => (path ++ [(⟨c, candsOf I opts C R⟩ : Step)]) ++ q))
          cases habort2 : abortIndex yield
              (n' + ((subSols I opts ((activeList I (C ∪ (opts.getD c []).toFinset)).length + 1)
                  (C ∪ (opts.getD c []).toFinset) (R ∪ (coverDels I opts R c).toFinset)).map
                (fun q => (path ++ [(⟨c, candsOf I opts C R⟩ : Step)]) ++ q)).length)
              ((blockSols I opts (activeList I C).length (candsOf I opts C R) C R cs').map
                (fun q => path ++ q)) with
          | none =>
            rw [habort2] at hihin
            intro r hr
            rw [List.length_append, hclen, ← List.append_assoc, ← Nat.add_assoc] at hr
            have h1 := hihin r hr
            obtain ⟨f1, hf1⟩ := h1
            have h2 := hcleanup f1 _ _ _ hf1
            have h3 := houter r ⟨f1 + 1, by rw [← hxsl]; exact h2⟩
            obtain ⟨f3, hf3⟩ := h3
            match f3, hf3 with
            | 0, hf3 =>
              rw [engineLoop_zero] at hf3
              exact absurd hf3 (by simp)
            | f3 + 1, hf3 =>
            exact ⟨f3 + 1, hbridge f3 _ hf3⟩
          | some j2 =>
            rw [habort2] at hihin
            obtain ⟨stD, f1, hf1⟩ := hihin
            have h2 := hcleanup f1 _ _ _ hf1
            have h3 := houter _ ⟨f1 + 1, by rw [← hxsl]; exact h2⟩
            obtain ⟨f3, hf3⟩ := h3
            match f3, hf3 with
            | 0, hf3 =>
              rw [engineLoop_zero] at hf3
              exact absurd hf3 (by simp)
            | f3 + 1, hf3 =>
            refine ⟨stD, f3 + 1, ?_⟩
            have hfin := hbridge f3 _ hf3
            have htk : ((subSols I opts ((activeList I (C ∪ (opts.getD c []).toFinset)).length + 1)
                  (C ∪ (opts.getD c []).toFinset) (R ∪ (coverDels I opts R c).toFinset)).map
                (fun q => (path ++ [(⟨c, candsOf I opts C R⟩ : Step)]) ++ q)
                ++ (blockSols I opts (activeList I C).length (candsOf I opts C R) C R cs').map
                  (fun q => path ++ q)).take
                  (j2 + ((subSols I opts
                    ((activeList I (C ∪ (opts.getD c []).toFinset)).length + 1)
                    (C ∪ (opts.getD c []).toFinset)
                    (R ∪ (coverDels I opts R c).toFinset)).map
                  (fun q => (path ++ [(⟨c, candsOf I opts C R⟩ : Step)]) ++ q)).length + 1) =
                (subSols I opts ((activeList I (C ∪ (opts.getD c []).toFinset)).length + 1)
                  (C ∪ (opts.getD c []).toFinset) (R ∪ (coverDels I opts R c).toFinset)).map
                (fun q => (path ++ [(⟨c, candsOf I opts C R⟩ : Step)]) ++ q)
                ++ ((blockSols I opts (activeList I C).length (candsOf I opts C R) C R cs').map
                  (fun q => path ++ q)).take (j2 + 1) := by
              rw [show (j2 + ((subSols I opts
                    ((activeList I (C ∪ (opts.getD c []).toFinset)).length + 1)
                    (C ∪ (opts.getD c []).toFinset)
                    (R ∪ (coverDels I opts R c).toFinset)).map
                  (fun q => (path ++ [(⟨c, candsOf I opts C R⟩ : Step)]) ++ q)).length + 1) =
                  ((subSols I opts ((activeList I (C ∪ (opts.getD c []).toFinset)).length + 1)
                    (C ∪ (opts.getD c []).toFinset)
                    (R ∪ (coverDels I opts R c).toFinset)).map
                  (fun q => (path ++ [(⟨c, candsOf I opts C R⟩ : Step)]) ++ q)).length + (j2 + 1)
                from by omega]
              exact List.take_append _
            rw [htk, ← List.append_assoc]
            rw [show n' + (j2 + ((subSols I opts
                  ((activeList I (C ∪ (opts.getD c []).toFinset)).length + 1)
                  (C ∪ (opts.getD c []).toFinset)
                  (R ∪ (coverDels I opts R c).toFinset)).map
                (fun q => (path ++ [(⟨c, candsOf I opts C R⟩ : Step)]) ++ q)).length) + 1 =
                n' + ((subSols I opts ((activeList I (C ∪ (opts.getD c []).toFinset)).length + 1)
                  (C ∪ (opts.getD c []).toFinset)
                  (R ∪ (coverDels I opts R c).toFinset)).map
                (fun q => (path ++ [(⟨c, candsOf I opts C R⟩ : Step)]) ++ q)).length + j2 + 1
              from by omega]
            exact hfin
    have hSeq : subSols I opts ((activeList I C).length + 1) C R =
        blockSols I opts (activeList I C).length (candsOf I opts C R) C R
          (candsOf I opts C R) :=
      subSols_eq_blockSols hact
    have hfinal := hinner (candsOf I opts C R) (fun x hx => hx) n log
    rw [hSeq]
    cases habort : abortIndex yield n
        ((blockSols I opts (activeList I C).length (candsOf I opts C R) C R
            (candsOf I opts C R)).map (fun q => path ++ q)) with
    | none =>
      rw [habort] at hfinal
      intro r hr
      have h1 := hfinal r hr
      obtain ⟨f1, hf1⟩ := h1
      refine ⟨f1 + 1, ?_⟩
      rw [engineLoop_search_none, hnextCS]
      exact hf1
    | some j =>
      rw [habort] at hfinal
      obtain ⟨stD, f1, hf1⟩ := hfinal
      refine ⟨stD, f1 + 1, ?_⟩
      rw [engineLoop_search_none, hnextCS]
      exact hf1


/-! ## Master corollaries: a full `GenerateSolutions` run -/

theorem map_nil_append (sols : List (List Step)) :
    sols.map (fun q => ([] : List Step) ++ q) = sols := by
  simp

theorem GenerateSolutions_complete {I : Nat} {opts : List (List Nat)}
    {C R : Finset Nat} {st : DL} (hwf : WfInput I opts)
    (hcan : Canonical I opts C R st) (hcw : ColWithin I opts st) :
    EngineEval (fun _ _ => true) st [.search none []] [] 0 []
      (st, (subSols I opts ((activeList I C).length + 1) C R).length,
       subSols I opts ((activeList I C).length + 1) C R) := by
  have hb := engine_branch hwf (fun _ _ => true) (activeList I C).length C R st [] [] 0 []
    le_rfl hcan hcw
  rw [map_nil_append] at hb
  rw [abortIndex_true _ 0] at hb
  have hcont : EngineEval (fun _ _ => true) st [] []
      (0 + (subSols I opts ((activeList I C).length + 1) C R).length)
      ([] ++ subSols I opts ((activeList I C).length + 1) C R)
      (st, 0 + (subSols I opts ((activeList I C).length + 1) C R).length,
       [] ++ subSols I opts ((activeList I C).length + 1) C R) := ⟨1, rfl⟩
  have hres := hb _ hcont
  rw [Nat.zero_add] at hres
  exact hres

theorem GenerateSolutions_partial {I : Nat} {opts : List (List Nat)}
    {C R : Finset Nat} {st : DL} (hwf : WfInput I opts)
    (hcan : Canonical I opts C R st) (hcw : ColWithin I opts st)
    (yield : Nat → List Step → Bool) :
    ∀ r, EngineEval yield st [.search none []] [] 0 [] r →
    ∃ k, r.2.2 = (subSols I opts ((activeList I C).length + 1) C R).take k ∧
      r.2.1 = k := by
  intro r hr
  have hb := engine_branch hwf yield (activeList I C).length C R st [] [] 0 []
    le_rfl hcan hcw
  rw [map_nil_append] at hb
  cases habort : abortIndex yield 0 (subSols I opts ((activeList I C).length + 1) C R) with
  | none =>
    rw [habort] at hb
    have hcont : EngineEval yield st [] []
        (0 + (subSols I opts ((activeList I C).length + 1) C R).length)
        ([] ++ subSols I opts ((activeList I C).length + 1) C R)
        (st, 0 + (subSols I opts ((activeList I C).length + 1) C R).length,
         [] ++ subSols I opts ((activeList I C).length + 1) C R) := ⟨1, rfl⟩
    have hres := hb _ hcont
    have hu := EngineEval_unique hr hres
    refine ⟨(subSols I opts ((activeList I C).length + 1) C R).length, ?_, ?_⟩
    · rw [hu]
      show [] ++ subSols I opts ((activeList I C).length + 1) C R =
        (subSols I opts ((activeList I C).length + 1) C R).take
          (subSols I opts ((activeList I C).length + 1) C R).length
      rw [List.nil_append, List.take_length]
    · rw [hu]
      show 0 + (subSols I opts ((activeList I C).length + 1) C R).length =
        (subSols I opts ((activeList I C).length + 1) C R).length
      rw [Nat.zero_add]
  | some j =>
    rw [habort] at hb
    obtain ⟨stD, hres⟩ := hb
    have hu := EngineEval_unique hr hres
    refine ⟨j + 1, ?_, ?_⟩
    · rw [hu]
      show [] ++ (subSols I opts ((activeList I C).length + 1) C R).take (j + 1) =
        (subSols I opts ((activeList I C).length + 1) C R).take (j + 1)
      rw [List.nil_append]
    · rw [hu]
      show 0 + j + 1 = j + 1
      omega

theorem StepsOK_mem_choices {I : Nat} {opts : List (List Nat)} :
    ∀ {p : List Step} {C R : Finset Nat}, StepsOK I opts C R p →
      ∀ s ∈ p, s.option ∈ s.choices := by
  intro p
  induction p with
  | nil =>
    intro C R h s hs
    exact absurd hs (by simp)
  | cons a q ih =>
    intro C R h s hs
    obtain ⟨-, -, hmem, hrec⟩ := h
    rcases List.mem_cons.mp hs with rfl | hs'
    · exact hmem
    · exact ih hrec s hs'

theorem classicOptions_wf : WfInput 7 classicOptions := by
  unfold WfInput
  decide

theorem duplicatesOptions_wf : WfInput 7 duplicatesOptions := by
  unfold WfInput
  decide

/-- **C1.**  With an always-true yield callback, a run of `GenerateSolutions`
from any canonical state returns with the matrix restored, having invoked
`yield` once per logged path, and the log's option sets are pairwise distinct
and are exactly the exact covers of the residual problem; a problem with no
active items is yielded once with the empty path, and an unsatisfiable one is
yielded zero times. -/
theorem C1_enumerates_exact_covers_once {I : Nat} {opts : List (List Nat)}
    {C R : Finset Nat} {st : DL} (hwf : WfInput I opts)
    (hcan : Canonical I opts C R st) (hcw : ColWithin I opts st) :
    ∃ log, EngineEval (fun _ _ => true) st [.search none []] [] 0 []
        (st, log.length, log) ∧
      (log.map pathOptions).Nodup ∧
      (∀ F, F ∈ log.map pathOptions ↔ IsExactCover I opts C F) ∧
      (activeList I C = [] → log = [[]]) ∧
      ((¬ ∃ F, IsExactCover I opts C F) → log = []) := by
  obtain ⟨-, hnd, hiff⟩ := subSols_facts hwf (activeList I C).length C R
    ((activeList I C).length + 1) le_rfl (by omega) (Canonical_CRcoherent hcan)
  refine ⟨subSols I opts ((activeList I C).length + 1) C R,
    GenerateSolutions_complete hwf hcan hcw, hnd, hiff, ?_, ?_⟩
  · intro hact
    exact subSols_succ_nil hact
  · intro hno
    by_contra hne
    obtain ⟨p, hp⟩ := List.exists_mem_of_ne_nil _ hne
    exact hno ⟨pathOptions p, (hiff (pathOptions p)).mp (List.mem_map_of_mem _ hp)⟩

set_option maxRecDepth 400000 in
/-- C1 applied to the classic scenario S1 from its fresh matrix. -/
theorem C1_enumerates_exact_covers_once_witness :
    ∃ log, EngineEval (fun _ _ => true) (New 7 classicOptions) [.search none []] [] 0 []
        (New 7 classicOptions, log.length, log) ∧
      (log.map pathOptions).Nodup ∧
      (∀ F, F ∈ log.map pathOptions ↔ IsExactCover 7 classicOptions ∅ F) ∧
      (activeList 7 ∅ = [] → log = [[]]) ∧
      ((¬ ∃ F, IsExactCover 7 classicOptions ∅ F) → log = []) :=
  C1_enumerates_exact_covers_once classicOptions_wf (New_canonical 7 classicOptions)
    (New_colWithin 7 classicOptions)

/-- **C2 (amended).**  Every path the yield callback receives covers, through
its own options alone, each item active at search entry exactly once: the
multiset union of the item lists of the path's options equals the active item
list.  (The items of previously forced options are excluded: they are no
longer active at search entry.) -/
theorem C2_path_items_exact_cover {I : Nat} {opts : List (List Nat)}
    {C R : Finset Nat} {st : DL} (hwf : WfInput I opts)
    (hcan : Canonical I opts C R st) (hcw : ColWithin I opts st)
    (yield : Nat → List Step → Bool) :
    ∀ r, EngineEval yield st [.search none []] [] 0 [] r →
    ∀ p ∈ r.2.2,
      ((p.map (fun s => ((opts.getD s.option [] : List Nat) : Multiset Nat))).sum =
        (activeList I C : Multiset Nat)) := by
  intro r hr p hp
  obtain ⟨k, hk, -⟩ := GenerateSolutions_partial hwf hcan hcw yield r hr
  rw [hk] at hp
  have hp' := List.take_subset _ _ hp
  exact ((subSols_facts hwf (activeList I C).length C R
    ((activeList I C).length + 1) le_rfl (by omega) (Canonical_CRcoherent hcan)).1
    p hp').2.1

set_option maxRecDepth 400000 in
/-- C2 (amended) applied to the sole delivered path of the classic scenario
S1, run from its fresh matrix with an always-true callback. -/
theorem C2_path_items_exact_cover_witness :
    (([(⟨3, [1, 3]⟩ : Step), ⟨4, [4]⟩, ⟨0, [0]⟩].map
        (fun s => ((classicOptions.getD s.option [] : List Nat) : Multiset Nat))).sum =
      (activeList 7 ∅ : Multiset Nat)) :=
  C2_path_items_exact_cover classicOptions_wf (New_canonical 7 classicOptions)
    (New_colWithin 7 classicOptions) (fun _ _ => true)
    (New 7 classicOptions, 1, [[⟨3, [1, 3]⟩, ⟨4, [4]⟩, ⟨0, [0]⟩]])
    ⟨200, by decide⟩
    [⟨3, [1, 3]⟩, ⟨4, [4]⟩, ⟨0, [0]⟩] (by decide)

/-- **C7.**  Every Step of every delivered path snapshots its decision: its
`choices` field is exactly the surviving option list of the branching item's
column at that moment, in downward column order (`candsOf`, the canonical
column walk), the chosen option is an element of it, and the path ends
exactly when no item is active. -/
theorem C7_choices_snapshot {I : Nat} {opts : List (List Nat)}
    {C R : Finset Nat} {st : DL} (hwf : WfInput I opts)
    (hcan : Canonical I opts C R st) (hcw : ColWithin I opts st)
    (yield : Nat → List Step → Bool) :
    ∀ r, EngineEval yield st [.search none []] [] 0 [] r →
    ∀ p ∈ r.2.2, StepsOK I opts C R p ∧ ∀ s ∈ p, s.option ∈ s.choices := by
  intro r hr p hp
  obtain ⟨k, hk, -⟩ := GenerateSolutions_partial hwf hcan hcw yield r hr
  rw [hk] at hp
  have hp' := List.take_subset _ _ hp
  have hok := ((subSols_facts hwf (activeList I C).length C R
    ((activeList I C).length + 1) le_rfl (by omega) (Canonical_CRcoherent hcan)).1
    p hp').1
  exact ⟨hok, StepsOK_mem_choices hok⟩

set_option maxRecDepth 400000 in
/-- C7 applied to the sole delivered path of the classic scenario S1, run
from its fresh matrix with an always-true callback. -/
theorem C7_choices_snapshot_witness :
    StepsOK 7 classicOptions ∅ ∅ [(⟨3, [1, 3]⟩ : Step), ⟨4, [4]⟩, ⟨0, [0]⟩] ∧
    ∀ s ∈ [(⟨3, [1, 3]⟩ : Step), ⟨4, [4]⟩, ⟨0, [0]⟩], s.option ∈ s.choices :=
  C7_choices_snapshot classicOptions_wf (New_canonical 7 classicOptions)
    (New_colWithin 7 classicOptions) (fun _ _ => true)
    (New 7 classicOptions, 1, [[⟨3, [1, 3]⟩, ⟨4, [4]⟩, ⟨0, [0]⟩]])
    ⟨200, by decide⟩
    [⟨3, [1, 3]⟩, ⟨4, [4]⟩, ⟨0, [0]⟩] (by decide)


/-! ## The branching choice against the spec's words -/

theorem find_first_of_split (p : Nat → Bool) (m : Nat) :
    ∀ (pre post : List Nat), (∀ i ∈ pre, p i = false) → p m = true →
    List.find? p (pre ++ m :: post) = some m := by
  intro pre
  induction pre with
  | nil =>
    intro post hpre hpm
    rw [List.nil_append, List.find?_cons, hpm]
  | cons a t ih =>
    intro post hpre hpm
    rw [List.cons_append, List.find?_cons, hpre a (by simp)]
    exact ih post (fun i hi => hpre i (by simp [hi])) hpm

theorem specMinItem_canonical {I : Nat} {opts : List (List Nat)} {C R : Finset Nat}
    (hne : activeList I C ≠ []) (st : DL)
    (hcnt : ∀ i < I, st.getChoices i = ((colSurv I opts R i).length : Int)) :
    specMinItem st.getChoices (activeList I C) = some (minItemOf I opts C R) := by
  obtain ⟨pre, post, hsplit, hlt, hle⟩ := @minItemOf_spec I opts C R hne
  have hmem : ∀ j ∈ activeList I C, j < I := fun j hj => (mem_activeList.mp hj).1
  have hmI : minItemOf I opts C R < I := hmem _ (by rw [hsplit]; simp)
  unfold specMinItem
  rw [hsplit]
  apply find_first_of_split
  · intro i hi
    refine decide_eq_false ?_
    intro hall
    have hjm := hall (minItemOf I opts C R) (by simp)
    have hiI : i < I := hmem i (by rw [hsplit]; simp [hi])
    rw [hcnt i hiI, hcnt _ hmI] at hjm
    have := hlt i hi
    omega
  · refine decide_eq_true ?_
    intro j hj
    have hjI : j < I := hmem j (by rw [hsplit]; exact hj)
    rw [hcnt j hjI, hcnt _ hmI]
    rcases List.mem_append.mp hj with h | h
    · exact le_of_lt (hlt j h)
    · rcases List.mem_cons.mp h with rfl | h'
      · exact le_refl _
      · exact hle j h'

/-- **C6.**  `nextChoices` branches on the item ring: when it is empty it
returns the no-candidates signal (`none`, Go `nil`); otherwise it selects the
active item whose `choices` counter is minimal, ties broken in favour of the
leftmost item in ring order (the spec's words, `specMinItem` over the live
counters), and returns the options of that item's surviving column entries,
enumerated by walking the column downward from the sentinel. -/
theorem C6_next_choices_min_item {I : Nat} {opts : List (List Nat)}
    {C R : Finset Nat} {st : DL} (hcan : Canonical I opts C R st) :
    (activeList I C = [] → st.nextChoices = none) ∧
    (activeList I C ≠ [] →
      specMinItem st.getChoices (activeList I C) = some (minItemOf I opts C R) ∧
      st.nextChoices =
        some ((colSurv I opts R (minItemOf I opts C R)).map (entryOptOf I opts))) := by
  constructor
  · intro hact
    rw [nextChoices_canonical hcan, hact]
  · intro hne
    have hcnt : ∀ i < I, st.getChoices i = ((colSurv I opts R i).length : Int) := by
      obtain ⟨-, -, -, -, -, -, -, -, -, hcnt, -, -, -, -⟩ := hcan
      exact hcnt
    refine ⟨specMinItem_canonical hne st hcnt, ?_⟩
    rw [nextChoices_canonical hcan]
    cases hal : activeList I C with
    | nil => exact absurd hal hne
    | cons a r => rfl

set_option maxRecDepth 400000 in
/-- C6 applied to the classic scenario S1 from its fresh matrix. -/
theorem C6_next_choices_min_item_witness :
    (activeList 7 ∅ = [] → (New 7 classicOptions).nextChoices = none) ∧
    (activeList 7 ∅ ≠ [] →
      specMinItem (New 7 classicOptions).getChoices (activeList 7 ∅) =
        some (minItemOf 7 classicOptions ∅ ∅) ∧
      (New 7 classicOptions).nextChoices =
        some ((colSurv 7 classicOptions ∅ (minItemOf 7 classicOptions ∅ ∅)).map
          (entryOptOf 7 classicOptions))) :=
  C6_next_choices_min_item (New_canonical 7 classicOptions)

/-- **C4.**  Cover followed by the matching uncover is the identity on every
canonical state: running `chooseOption k` with an empty deleted log and then
the cleanup stage's uncover (relink `k`'s items in reverse option order, then
restore the options of the deleted log in reverse append order, incrementing
the counters) returns every link array, every `choices` counter — indeed the
whole state — to its value at the start. -/
theorem C4_cover_uncover_restores {I : Nat} {opts : List (List Nat)}
    {C R : Finset Nat} {st : DL} (hwf : WfInput I opts)
    (hcan : Canonical I opts C R st) (hcw : ColWithin I opts st)
    {k : Nat} (hk : k < opts.length) (hkR : k ∉ R) :
    (st.chooseOption k []).1.cleanupOp k (st.chooseOption k []).2 = st :=
  cleanup_choose_cancel hwf hcan hcw hk hkR

set_option maxRecDepth 400000 in
/-- C4 applied to option 0 of the classic scenario S1 from its fresh matrix. -/
theorem C4_cover_uncover_restores_witness :
    ((New 7 classicOptions).chooseOption 0 []).1.cleanupOp 0
      ((New 7 classicOptions).chooseOption 0 []).2 = New 7 classicOptions :=
  C4_cover_uncover_restores classicOptions_wf (New_canonical 7 classicOptions)
    (New_colWithin 7 classicOptions) (by decide) (by decide)

/-- **C9 (amended).**  On a canonical state all of whose listed items are
still active — in particular any freshly built matrix — `ToMatrix` returns
exactly the matrix of the spec's words (`specMatrix`): one row per original
option in index order, one column per currently-active item in ring order,
and a cell true iff that option lists that item; being a pure function of the
state it mutates no link or counter.  (When some option lists a covered item
the claim fails — the Go map read yields index 0 — see the counterexample.) -/
theorem C9_toMatrix_fresh {I : Nat} {opts : List (List Nat)} {C R : Finset Nat}
    {st : DL} (hwf : WfInput I opts) (hcan : Canonical I opts C R st)
    (hactive : ∀ o < opts.length, ∀ i ∈ opts.getD o [], i ∉ C) :
    DL.ToMatrix st = specMatrix st :=
  toMatrix_fresh hwf hcan hactive

set_option maxRecDepth 400000 in
/-- C9 (amended) applied to the fresh matrix of the duplicates scenario S2. -/
theorem C9_toMatrix_fresh_witness :
    DL.ToMatrix (New 7 duplicatesOptions) = specMatrix (New 7 duplicatesOptions) :=
  C9_toMatrix_fresh duplicatesOptions_wf (New_canonical 7 duplicatesOptions)
    (by decide)


/-! ## Forcing options -/

theorem ForceOptions_nil (st : DL) : st.ForceOptions [] = st := rfl

theorem ForceOptions_cons (st : DL) (k : Nat) (ks : List Nat) :
    st.ForceOptions (k :: ks) =
      DL.ForceOptions
        { (({st with selected := st.selected ++ [k]} : DL).chooseOption k st.deleted).1 with
          deleted :=
            (({st with selected := st.selected ++ [k]} : DL).chooseOption k st.deleted).2 }
        ks := rfl

theorem ForceOptions_spec {I : Nat} {opts : List (List Nat)} (hwf : WfInput I opts) :
    ∀ (ks : List Nat) (C R : Finset Nat) (st : DL),
    Canonical I opts C R st → ColWithin I opts st →
    (∀ o ∈ st.deleted, o ∈ R) → ValidForce I opts R ks →
    ∃ C' R', Canonical I opts C' R' (st.ForceOptions ks) ∧
      ColWithin I opts (st.ForceOptions ks) ∧
      (∀ o ∈ (st.ForceOptions ks).deleted, o ∈ R') ∧
      R ⊆ R' ∧
      (∀ k ∈ ks, opts.getD k [] ≠ [] → k ∈ R') := by
  intro ks
  induction ks with
  | nil =>
    intro C R st hcan hcw hdel hvf
    exact ⟨C, R, hcan, hcw, hdel, Finset.Subset.refl R, by simp⟩
  | cons k ks ih =>
    intro C R st hcan hcw hdel hvf
    obtain ⟨hk, hkR, hvf'⟩ := hvf
    have hcan' : Canonical I opts C R ({st with selected := st.selected ++ [k]} : DL) := hcan
    have hcw' : ColWithin I opts ({st with selected := st.selected ++ [k]} : DL) := hcw
    have hdel' : ∀ o ∈ ({st with selected := st.selected ++ [k]} : DL).deleted, o ∈ R := hdel
    obtain ⟨hchoose, hcanF, hcwF, hkmem, -⟩ :=
      chooseOption_spec hwf hcan' hcw' hk hkR (L := st.deleted) hdel'
    rw [ForceOptions_cons]
    have hs1can : Canonical I opts (C ∪ (opts.getD k []).toFinset)
        (R ∪ (coverDels I opts R k).toFinset)
        ({ (({st with selected := st.selected ++ [k]} : DL).chooseOption k st.deleted).1 with
           deleted :=
             (({st with selected := st.selected ++ [k]} : DL).chooseOption k st.deleted).2 }) := by
      rw [hchoose]
      exact hcanF
    have hs1cw : ColWithin I opts
        ({ (({st with selected := st.selected ++ [k]} : DL).chooseOption k st.deleted).1 with
           deleted :=
             (({st with selected := st.selected ++ [k]} : DL).chooseOption k st.deleted).2 }) := by
      rw [hchoose]
      exact hcwF
    have hs1del : ∀ o ∈
        ({ (({st with selected := st.selected ++ [k]} : DL).chooseOption k st.deleted).1 with
           deleted :=
             (({st with selected := st.selected ++ [k]} : DL).chooseOption k
               st.deleted).2 } : DL).deleted,
        o ∈ R ∪ (coverDels I opts R k).toFinset := by
      rw [hchoose]
      intro o ho
      rcases List.mem_append.mp ho with h | h
      · exact Finset.mem_union_left _ (hdel o h)
      · exact Finset.mem_union_right _ (List.mem_toFinset.mpr h)
    obtain ⟨C', R', hc1, hc2, hc3, hsub, hforced⟩ :=
      ih (C ∪ (opts.getD k []).toFinset) (R ∪ (coverDels I opts R k).toFinset)
        _ hs1can hs1cw hs1del hvf'
    refine ⟨C', R', hc1, hc2, hc3, ?_, ?_⟩
    · exact fun o ho => hsub (Finset.mem_union_left _ ho)
    · intro x hx hne
      rcases List.mem_cons.mp hx with rfl | hx'
      · exact hsub (Finset.mem_union_right _ (List.mem_toFinset.mpr (hkmem hne)))
      · exact hforced x hx' hne

set_option maxRecDepth 400000 in
/-- **C8.**  Paths delivered after forcing omit the forced options: for every
valid forcing sequence, no path a subsequent run hands to `yield` mentions a
forced index among its Steps' options.  Concretely on the duplicates scenario
S2, forcing option 0 and enumerating yields exactly the residual paths with
option lists `[6,4]` and `[6,5]` — option multisets {4,6} and {5,6} — and
forcing option 2 leaves zero solutions. -/
theorem C8_forced_options_omitted {I : Nat} {opts : List (List Nat)}
    {C R : Finset Nat} {st : DL} (hwf : WfInput I opts)
    (hcan : Canonical I opts C R st) (hcw : ColWithin I opts st)
    (hdel : ∀ o ∈ st.deleted, o ∈ R) (ks : List Nat)
    (hks : ValidForce I opts R ks) (yield : Nat → List Step → Bool) :
    (∀ r, EngineEval yield (st.ForceOptions ks) [.search none []] [] 0 [] r →
      ∀ p ∈ r.2.2, ∀ k ∈ ks, k ∉ p.map Step.option) ∧
    ((((New 7 duplicatesOptions).ForceOptions [0]).AllSolutions 200).map
        (fun sols => sols.map (fun p => p.map Step.option)) =
      some [[6, 4], [6, 5]]) ∧
    (((New 7 duplicatesOptions).ForceOptions [2]).AllSolutions 200 = some []) := by
  refine ⟨?_, by decide, by decide⟩
  obtain ⟨C', R', hcan', hcw', -, -, hforced⟩ :=
    ForceOptions_spec hwf ks C R st hcan hcw hdel hks
  intro r hr p hp k hk hkp
  obtain ⟨kk, hkk, -⟩ := GenerateSolutions_partial hwf hcan' hcw' yield r hr
  rw [hkk] at hp
  have hp' := List.take_subset _ _ hp
  have hfact := ((subSols_facts hwf (activeList I C').length C' R'
    ((activeList I C').length + 1) le_rfl (by omega) (Canonical_CRcoherent hcan')).1
    p hp').2.2.2.1
  obtain ⟨s, hs, hso⟩ := List.mem_map.mp hkp
  obtain ⟨hsR, -, hsne⟩ := hfact s hs
  by_cases hkne : opts.getD k [] = []
  · rw [← hso] at hkne
    exact hsne hkne
  · refine hsR ?_
    rw [hso]
    exact hforced k hk hkne

set_option maxRecDepth 400000 in
/-- C8 applied to S2 with option 0 forced, under an always-true callback. -/
theorem C8_forced_options_omitted_witness :
    (∀ r, EngineEval (fun _ _ => true) ((New 7 duplicatesOptions).ForceOptions [0])
        [.search none []] [] 0 [] r →
      ∀ p ∈ r.2.2, ∀ k ∈ ([0] : List Nat), k ∉ p.map Step.option) ∧
    ((((New 7 duplicatesOptions).ForceOptions [0]).AllSolutions 200).map
        (fun sols => sols.map (fun p => p.map Step.option)) =
      some [[6, 4], [6, 5]]) ∧
    (((New 7 duplicatesOptions).ForceOptions [2]).AllSolutions 200 = some []) :=
  C8_forced_options_omitted duplicatesOptions_wf (New_canonical 7 duplicatesOptions)
    (New_colWithin 7 duplicatesOptions) (by simp [New]) [0]
    ⟨by decide, by decide, trivial⟩ (fun _ _ => true)


/-! ## Re-covering an already-covered option is a no-op

The second cover of `ForceOptions(k, j)` with `opts[j] = opts[k]` replays the
exact write sequence of the first item-ring unlink fold (the stale fields it
reads were never overwritten afterwards), and a replayed write sequence is
absorbed; its conflict walks stop immediately because every covered column's
head points to itself. -/

theorem two_mem_le_length {a b : Nat} {l : List Nat} (ha : a ∈ l) (hb : b ∈ l)
    (hab : a ≠ b) : 2 ≤ l.length := by
  cases l with
  | nil => simp at ha
  | cons c tl =>
    cases tl with
    | nil =>
      simp at ha hb
      exact absurd (ha.trans hb.symm) hab
    | cons d tl2 =>
      simp only [List.length_cons]
      omega

theorem ringUnlinkWrites_nil (ρ : List Nat) : ringUnlinkWrites ρ [] = [] := rfl

theorem ringUnlinkWrites_cons (ρ : List Nat) (e : Nat) (rest : List Nat) :
    ringUnlinkWrites ρ (e :: rest) =
      ((prevInRing ρ e, nextInRing ρ e), (nextInRing ρ e, prevInRing ρ e)) ::
        ringUnlinkWrites (ρ.erase e) rest := rfl

theorem ringUnlinkWrites_pos_mem :
    ∀ (its ρ : List Nat), ρ.Nodup → (∀ e ∈ its, e ∈ ρ) → its.Nodup →
    ∀ w ∈ ringUnlinkWrites ρ its, w.1.1 ∈ ρ ∧ w.2.1 ∈ ρ := by
  intro its
  induction its with
  | nil =>
    intro ρ hnd hsub hits w hw
    rw [ringUnlinkWrites_nil] at hw
    exact absurd hw (by simp)
  | cons e its ih =>
    intro ρ hnd hsub hits w hw
    have he : e ∈ ρ := hsub e (by simp)
    have hρne : ρ ≠ [] := fun h => by simp [h] at he
    rw [ringUnlinkWrites_cons] at hw
    rcases List.mem_cons.mp hw with rfl | hw'
    · exact ⟨prevInRing_mem e hρne, nextInRing_mem e hρne⟩
    · obtain ⟨henotin, hits'⟩ := List.nodup_cons.mp hits
      have hsub' : ∀ y ∈ its, y ∈ ρ.erase e := by
        intro y hy
        have hyne : y ≠ e := fun h => henotin (h ▸ hy)
        exact (List.mem_erase_of_ne hyne).mpr (hsub y (List.mem_cons_of_mem e hy))
      have hmem := ih (ρ.erase e) (hnd.erase e) hsub' hits' w hw'
      exact ⟨List.mem_of_mem_erase hmem.1, List.mem_of_mem_erase hmem.2⟩

theorem ext_of_getD {l₁ l₂ : List Nat} (hlen : l₁.length = l₂.length)
    (h : ∀ pos, l₁.getD pos 0 = l₂.getD pos 0) : l₁ = l₂ := by
  apply List.ext_getElem?
  intro n
  rcases Nat.lt_or_ge n l₁.length with hn | hn
  · have hn₂ : n < l₂.length := by omega
    rw [List.getElem?_eq_getElem hn, List.getElem?_eq_getElem hn₂]
    have hh := h n
    rw [List.getD_eq_getElem?_getD, List.getD_eq_getElem?_getD,
      List.getElem?_eq_getElem hn, List.getElem?_eq_getElem hn₂] at hh
    simpa using hh
  · rw [List.getElem?_eq_none (by omega), List.getElem?_eq_none (by omega)]

theorem foldl_unlinkItem_selected (its : List Nat) (st : DL) :
    (its.foldl DL.unlinkItem st).selected = st.selected := by
  induction its generalizing st with
  | nil => rfl
  | cons e r ih => rw [List.foldl_cons, ih, unlinkItem_selected]

theorem foldl_unlinkItem_deleted (its : List Nat) (st : DL) :
    (its.foldl DL.unlinkItem st).deleted = st.deleted := by
  induction its generalizing st with
  | nil => rfl
  | cons e r ih => rw [List.foldl_cons, ih, unlinkItem_deleted]

theorem foldl_unlink_frame :
    ∀ (its ρ : List Nat) (s : DL),
    RingCanon s ρ → ρ.Nodup → (∀ e ∈ its, e ∈ ρ) → its.Nodup →
    (∃ x ∈ ρ, x ∉ its) →
    (∀ n ∈ ρ, n < s.right.length) → (∀ n ∈ ρ, n < s.left.length) →
    (∀ pos : Nat, pos ∉ (ringUnlinkWrites ρ its).map (fun w => w.1.1) →
      (its.foldl DL.unlinkItem s).right.getD pos 0 = s.right.getD pos 0) ∧
    (∀ pos : Nat, pos ∉ (ringUnlinkWrites ρ its).map (fun w => w.2.1) →
      (its.foldl DL.unlinkItem s).left.getD pos 0 = s.left.getD pos 0) := by
  intro its
  induction its with
  | nil =>
    intro ρ s hcanon hnd hsub hits hsent hbr hbl
    exact ⟨fun pos hpos => rfl, fun pos hpos => rfl⟩
  | cons e its ih =>
    intro ρ s hcanon hnd hsub hits hsent hbr hbl
    have he : e ∈ ρ := hsub e (by simp)
    have hρne : ρ ≠ [] := fun h => by simp [h] at he
    obtain ⟨x, hxρ, hxits⟩ := hsent
    have hxe : x ≠ e := fun h => hxits (by simp [h])
    have hlen2 : 2 ≤ ρ.length := two_mem_le_length he hxρ (fun h => hxe h.symm)
    have hP := (hcanon e he).2
    have hN := (hcanon e he).1
    have hPmem : prevInRing ρ e ∈ ρ := prevInRing_mem e hρne
    have hNmem : nextInRing ρ e ∈ ρ := nextInRing_mem e hρne
    obtain ⟨henotin, hits'⟩ := List.nodup_cons.mp hits
    have hsub' : ∀ y ∈ its, y ∈ ρ.erase e := by
      intro y hy
      have hyne : y ≠ e := fun h => henotin (h ▸ hy)
      exact (List.mem_erase_of_ne hyne).mpr (hsub y (List.mem_cons_of_mem e hy))
    have hsent' : ∃ y ∈ ρ.erase e, y ∉ its :=
      ⟨x, (List.mem_erase_of_ne hxe).mpr hxρ, fun h => hxits (List.mem_cons_of_mem e h)⟩
    have hsstep : s.unlinkItem e =
        { s with right := s.right.set (prevInRing ρ e) (nextInRing ρ e),
                 left := s.left.set (nextInRing ρ e) (prevInRing ρ e) } := by
      rw [unlinkItem_eq', hP, hN]
    have hcanon' : RingCanon
        ({ s with right := s.right.set (prevInRing ρ e) (nextInRing ρ e),
                  left := s.left.set (nextInRing ρ e) (prevInRing ρ e) } : DL)
        (ρ.erase e) := by
      rw [← hsstep]
      exact unlinkItem_ringCanon hcanon hnd he hlen2 hbr hbl
    have hbr' : ∀ n ∈ ρ.erase e, n <
        ({ s with right := s.right.set (prevInRing ρ e) (nextInRing ρ e),
                  left := s.left.set (nextInRing ρ e) (prevInRing ρ e) } : DL).right.length := by
      intro n hn
      show n < (s.right.set _ _).length
      rw [List.length_set]
      exact hbr n (List.mem_of_mem_erase hn)
    have hbl' : ∀ n ∈ ρ.erase e, n <
        ({ s with right := s.right.set (prevInRing ρ e) (nextInRing ρ e),
                  left := s.left.set (nextInRing ρ e) (prevInRing ρ e) } : DL).left.length := by
      intro n hn
      show n < (s.left.set _ _).length
      rw [List.length_set]
      exact hbl n (List.mem_of_mem_erase hn)
    obtain ⟨ihr, ihl⟩ := ih (ρ.erase e) _ hcanon' (hnd.erase e) hsub' hits' hsent' hbr' hbl'
    constructor
    · intro pos hpos
      rw [List.foldl_cons, hsstep]
      have hposhead : prevInRing ρ e ≠ pos := by
        intro h
        apply hpos
        rw [ringUnlinkWrites_cons, List.map_cons, h]
        simp
      have hpostail : pos ∉ (ringUnlinkWrites (ρ.erase e) its).map (fun w => w.1.1) := by
        intro h
        apply hpos
        rw [ringUnlinkWrites_cons, List.map_cons]
        exact List.mem_cons_of_mem _ h
      rw [ihr pos hpostail]
      show (s.right.set _ _).getD pos 0 = s.right.getD pos 0
      rw [getD_set, if_neg (fun hh => hposhead hh.1)]
    · intro pos hpos
      rw [List.foldl_cons, hsstep]
      have hposhead : nextInRing ρ e ≠ pos := by
        intro h
        apply hpos
        rw [ringUnlinkWrites_cons, List.map_cons, h]
        simp
      have hpostail : pos ∉ (ringUnlinkWrites (ρ.erase e) its).map (fun w => w.2.1) := by
        intro h
        apply hpos
        rw [ringUnlinkWrites_cons, List.map_cons]
        exact List.mem_cons_of_mem _ h
      rw [ihl pos hpostail]
      show (s.left.set _ _).getD pos 0 = s.left.getD pos 0
      rw [getD_set, if_neg (fun hh => hposhead hh.1)]

theorem unlink_replay_aux :
    ∀ (its ρ : List Nat) (s t : DL),
    RingCanon s ρ → ρ.Nodup → (∀ e ∈ its, e ∈ ρ) → its.Nodup →
    (∃ x ∈ ρ, x ∉ its) →
    (∀ n ∈ ρ, n < s.right.length) → (∀ n ∈ ρ, n < s.left.length) →
    t.right.length = s.right.length → t.left.length = s.left.length →
    (∀ pos : Nat, pos ∉ (ringUnlinkWrites ρ its).map (fun w => w.1.1) →
      t.right.getD pos 0 = s.right.getD pos 0) →
    (∀ pos : Nat, pos ∉ (ringUnlinkWrites ρ its).map (fun w => w.2.1) →
      t.left.getD pos 0 = s.left.getD pos 0) →
    (∀ pos : Nat, (its.foldl DL.unlinkItem t).right.getD pos 0 =
      (its.foldl DL.unlinkItem s).right.getD pos 0) ∧
    (∀ pos : Nat, (its.foldl DL.unlinkItem t).left.getD pos 0 =
      (its.foldl DL.unlinkItem s).left.getD pos 0) := by
  intro its
  induction its with
  | nil =>
    intro ρ s t hcanon hnd hsub hits hsent hbr hbl hlr hll hR hL
    exact ⟨fun pos => hR pos (by rw [ringUnlinkWrites_nil]; simp),
           fun pos => hL pos (by rw [ringUnlinkWrites_nil]; simp)⟩
  | cons e its ih =>
    intro ρ s t hcanon hnd hsub hits hsent hbr hbl hlr hll hR hL
    have he : e ∈ ρ := hsub e (by simp)
    have hρne : ρ ≠ [] := fun h => by simp [h] at he
    obtain ⟨x, hxρ, hxits⟩ := hsent
    have hxe : x ≠ e := fun h => hxits (by simp [h])
    have hlen2 : 2 ≤ ρ.length := two_mem_le_length he hxρ (fun h => hxe h.symm)
    have hP := (hcanon e he).2
    have hN := (hcanon e he).1
    have hPne : prevInRing ρ e ≠ e := prevInRing_ne hnd he hlen2
    have hNne : nextInRing ρ e ≠ e := nextInRing_ne hnd he hlen2
    have hPmem : prevInRing ρ e ∈ ρ := prevInRing_mem e hρne
    have hNmem : nextInRing ρ e ∈ ρ := nextInRing_mem e hρne
    obtain ⟨henotin, hits'⟩ := List.nodup_cons.mp hits
    have hsub' : ∀ y ∈ its, y ∈ ρ.erase e := by
      intro y hy
      have hyne : y ≠ e := fun h => henotin (h ▸ hy)
      exact (List.mem_erase_of_ne hyne).mpr (hsub y (List.mem_cons_of_mem e hy))
    have hsent' : ∃ y ∈ ρ.erase e, y ∉ its :=
      ⟨x, (List.mem_erase_of_ne hxe).mpr hxρ, fun h => hxits (List.mem_cons_of_mem e h)⟩
    have htails := ringUnlinkWrites_pos_mem its (ρ.erase e) (hnd.erase e) hsub' hits'
    have hte_r : t.getRight e = s.getRight e := by
      show t.right.getD e 0 = s.right.getD e 0
      apply hR
      intro hmem
      rw [ringUnlinkWrites_cons, List.map_cons] at hmem
      rcases List.mem_cons.mp hmem with h | h
      · exact hPne h.symm
      · obtain ⟨w, hw, hwe⟩ := List.mem_map.mp h
        have hin := (htails w hw).1
        rw [hwe] at hin
        exact ((hnd.mem_erase_iff).mp hin).1 rfl
    have hte_l : t.getLeft e = s.getLeft e := by
      show t.left.getD e 0 = s.left.getD e 0
      apply hL
      intro hmem
      rw [ringUnlinkWrites_cons, List.map_cons] at hmem
      rcases List.mem_cons.mp hmem with h | h
      · exact hNne h.symm
      · obtain ⟨w, hw, hwe⟩ := List.mem_map.mp h
        have hin := (htails w hw).2
        rw [hwe] at hin
        exact ((hnd.mem_erase_iff).mp hin).1 rfl
    have hsstep : s.unlinkItem e =
        { s with right := s.right.set (prevInRing ρ e) (nextInRing ρ e),
                 left := s.left.set (nextInRing ρ e) (prevInRing ρ e) } := by
      rw [unlinkItem_eq', hP, hN]
    have htstep : t.unlinkItem e =
        { t with right := t.right.set (prevInRing ρ e) (nextInRing ρ e),
                 left := t.left.set (nextInRing ρ e) (prevInRing ρ e) } := by
      rw [unlinkItem_eq', hte_r, hte_l, hP, hN]
    have hcanon' : RingCanon (s.unlinkItem e) (ρ.erase e) :=
      unlinkItem_ringCanon hcanon hnd he hlen2 hbr hbl
    have hbr' : ∀ n ∈ ρ.erase e, n < (s.unlinkItem e).right.length := by
      intro n hn
      rw [unlinkItem_right_length]
      exact hbr n (List.mem_of_mem_erase hn)
    have hbl' : ∀ n ∈ ρ.erase e, n < (s.unlinkItem e).left.length := by
      intro n hn
      rw [unlinkItem_left_length]
      exact hbl n (List.mem_of_mem_erase hn)
    have hlr' : (t.unlinkItem e).right.length = (s.unlinkItem e).right.length := by
      rw [unlinkItem_right_length, unlinkItem_right_length]
      exact hlr
    have hll' : (t.unlinkItem e).left.length = (s.unlinkItem e).left.length := by
      rw [unlinkItem_left_length, unlinkItem_left_length]
      exact hll
    have hR' : ∀ pos : Nat, pos ∉ (ringUnlinkWrites (ρ.erase e) its).map (fun w => w.1.1) →
        (t.unlinkItem e).right.getD pos 0 = (s.unlinkItem e).right.getD pos 0 := by
      intro pos hpos
      rw [hsstep, htstep]
      show (t.right.set _ _).getD pos 0 = (s.right.set _ _).getD pos 0
      rw [getD_set, getD_set]
      by_cases hpP : prevInRing ρ e = pos
      · rw [if_pos ⟨hpP, by rw [hlr]; exact hbr _ hPmem⟩, if_pos ⟨hpP, hbr _ hPmem⟩]
      · rw [if_neg (fun hh => hpP hh.1), if_neg (fun hh => hpP hh.1)]
        apply hR
        intro hmem
        rw [ringUnlinkWrites_cons, List.map_cons] at hmem
        rcases List.mem_cons.mp hmem with h | h
        · exact hpP h.symm
        · exact hpos h
    have hL' : ∀ pos : Nat, pos ∉ (ringUnlinkWrites (ρ.erase e) its).map (fun w => w.2.1) →
        (t.unlinkItem e).left.getD pos 0 = (s.unlinkItem e).left.getD pos 0 := by
      intro pos hpos
      rw [hsstep, htstep]
      show (t.left.set _ _).getD pos 0 = (s.left.set _ _).getD pos 0
      rw [getD_set, getD_set]
      by_cases hpN : nextInRing ρ e = pos
      · rw [if_pos ⟨hpN, by rw [hll]; exact hbl _ hNmem⟩, if_pos ⟨hpN, hbl _ hNmem⟩]
      · rw [if_neg (fun hh => hpN hh.1), if_neg (fun hh => hpN hh.1)]
        apply hL
        intro hmem
        rw [ringUnlinkWrites_cons, List.map_cons] at hmem
        rcases List.mem_cons.mp hmem with h | h
        · exact hpN h.symm
        · exact hpos h
    rw [List.foldl_cons, List.foldl_cons]
    exact ih (ρ.erase e) _ _ hcanon' (hnd.erase e) hsub' hits' hsent' hbr' hbl'
      hlr' hll' hR' hL'

theorem unlink_replay {its ρ : List Nat} {s : DL}
    (hcanon : RingCanon s ρ) (hnd : ρ.Nodup) (hsub : ∀ e ∈ its, e ∈ ρ)
    (hits : its.Nodup) (hsent : ∃ x ∈ ρ, x ∉ its)
    (hbr : ∀ n ∈ ρ, n < s.right.length) (hbl : ∀ n ∈ ρ, n < s.left.length) :
    its.foldl DL.unlinkItem (its.foldl DL.unlinkItem s) = its.foldl DL.unlinkItem s := by
  obtain ⟨hfr, hfl⟩ := foldl_unlink_frame its ρ s hcanon hnd hsub hits hsent hbr hbl
  obtain ⟨hr, hl⟩ := unlink_replay_aux its ρ s (its.foldl DL.unlinkItem s)
    hcanon hnd hsub hits hsent hbr hbl
    (foldl_unlinkItem_right_length its s) (foldl_unlinkItem_left_length its s) hfr hfl
  apply DL.ext'
  · simp only [foldl_unlinkItem_itemCount]
  · simp only [foldl_unlinkItem_optionItems]
  · exact ext_of_getD (by rw [foldl_unlinkItem_left_length]) hl
  · exact ext_of_getD (by rw [foldl_unlinkItem_right_length]) hr
  · simp only [foldl_unlinkItem_up]
  · simp only [foldl_unlinkItem_down]
  · simp only [foldl_unlinkItem_choices]
  · simp only [foldl_unlinkItem_selected]
  · simp only [foldl_unlinkItem_deleted]

theorem colSurv_covered {I : Nat} {opts : List (List Nat)} {C R : Finset Nat}
    (hcoh1 : ∀ i ∈ C, ∀ o < opts.length, i ∈ opts.getD o [] → o ∈ R)
    {e : Nat} (heC : e ∈ C) : colSurv I opts R e = [] := by
  unfold colSurv
  rw [List.filter_eq_nil_iff]
  intro g hg
  simp only [decide_eq_true_eq]
  intro hnot
  apply hnot
  have ho : entryOptOf I opts g < opts.length := entryOptOf_lt_of_mem_col hg
  have hmem : e ∈ opts.getD (entryOptOf I opts g) [] := by
    have h1 := mem_option_of_mem_col hg
    have h2 := List.mem_map_of_mem (entryItemOf I opts) h1
    rw [optionEntries_items] at h2
    rw [entryItemOf_of_mem_col hg] at h2
    exact h2
  exact hcoh1 e heC _ ho hmem

theorem getDown_covered {I : Nat} {opts : List (List Nat)} {C R : Finset Nat}
    {st : DL} (hcan : Canonical I opts C R st) {e : Nat} (heC : e ∈ C) :
    st.getDown e = e := by
  obtain ⟨h1, h2, h3, h4, h5, h6, h7, hringc, hcolc, hcnt, hCb, hRb, hcoh1, hcoh2⟩ := hcan
  have heI : e < I := hCb e heC
  have hcs : colSurv I opts R e = [] := colSurv_covered hcoh1 heC
  have hchain : colChain I opts R e = [e] := by
    unfold colChain
    rw [hcs]
  have hmem : e ∈ colChain I opts R e := by
    rw [hchain]
    simp
  have hdown := (hcolc e heI e hmem).1
  rw [hchain] at hdown
  rw [hdown]
  exact nextInRing_head (l := []) (by simp)

theorem chooseOption_covered {I : Nat} {opts : List (List Nat)} {C R : Finset Nat}
    {st : DL} (hcan : Canonical I opts C R st) {j : Nat}
    (hcov : ∀ i ∈ opts.getD j [], i ∈ C) (L : List Nat) :
    st.chooseOption j L = ((opts.getD j []).foldl DL.unlinkItem st, L) := by
  have h1 : st.itemCount = I := hcan.1
  have h2 : st.optionItems = opts := hcan.2.1
  unfold DL.chooseOption
  have hoe : st.optionEntries j = optionEntriesOf I opts j := by
    unfold DL.optionEntries
    rw [h1, h2]
  rw [hoe]
  have key : ∀ (gs : List Nat), (∀ g ∈ gs, g ∈ optionEntriesOf I opts j) →
      ∀ (u : DL), u.itemCount = I → u.optionItems = opts → u.down = st.down →
      gs.foldl (fun p g =>
          let e := p.1.entryItem g
          let st1 := p.1.unlinkItem e
          DL.walkDel st1 e p.2 (st1.getDown e)
            (numNodes st1.itemCount st1.optionItems + 1)) (u, L) =
        ((gs.map (entryItemOf I opts)).foldl DL.unlinkItem u, L) := by
    intro gs
    induction gs with
    | nil =>
      intro hsub u hu1 hu2 hud
      rfl
    | cons g gs ih =>
      intro hsub u hu1 hu2 hud
      have hg : g ∈ optionEntriesOf I opts j := hsub g (by simp)
      have he : u.entryItem g = entryItemOf I opts g := by
        unfold DL.entryItem
        rw [hu1, hu2]
      have heitem : entryItemOf I opts g ∈ opts.getD j [] := by
        rw [← optionEntries_items I opts j]
        exact List.mem_map_of_mem _ hg
      have heC : entryItemOf I opts g ∈ C := hcov _ heitem
      have hdn : st.getDown (entryItemOf I opts g) = entryItemOf I opts g :=
        getDown_covered hcan heC
      have hstep : (fun (p : DL × List Nat) g =>
          let e := p.1.entryItem g
          let st1 := p.1.unlinkItem e
          DL.walkDel st1 e p.2 (st1.getDown e)
            (numNodes st1.itemCount st1.optionItems + 1)) (u, L) g =
          (u.unlinkItem (entryItemOf I opts g), L) := by
        show DL.walkDel (u.unlinkItem (u.entryItem g)) (u.entryItem g) L
            ((u.unlinkItem (u.entryItem g)).getDown (u.entryItem g))
            (numNodes (u.unlinkItem (u.entryItem g)).itemCount
              (u.unlinkItem (u.entryItem g)).optionItems + 1) =
          (u.unlinkItem (entryItemOf I opts g), L)
        rw [he]
        have hdn' : (u.unlinkItem (entryItemOf I opts g)).getDown (entryItemOf I opts g) =
            entryItemOf I opts g := by
          show (u.unlinkItem (entryItemOf I opts g)).down.getD (entryItemOf I opts g) 0 = _
          rw [unlinkItem_down]
          show u.getDown (entryItemOf I opts g) = _
          rw [show u.getDown (entryItemOf I opts g) =
              st.getDown (entryItemOf I opts g) from by unfold DL.getDown; rw [hud]]
          exact hdn
        rw [hdn', walkDel_succ, if_pos rfl]
      rw [List.foldl_cons, List.map_cons, List.foldl_cons]
      refine (congrArg (fun q => List.foldl _ q gs) hstep).trans ?_
      exact ih (fun g' hg' => hsub g' (List.mem_cons_of_mem g hg'))
        (u.unlinkItem (entryItemOf I opts g))
        (by rw [unlinkItem_itemCount]; exact hu1)
        (by rw [unlinkItem_optionItems]; exact hu2)
        (by rw [unlinkItem_down]; exact hud)
  have hfin := key (optionEntriesOf I opts j) (fun g hg => hg) st h1 h2 rfl
  rw [optionEntries_items] at hfin
  exact hfin

theorem unlinkItem_seldel (st : DL) (e : Nat) (x y : List Nat) :
    ({st with selected := x, deleted := y} : DL).unlinkItem e =
      {st.unlinkItem e with selected := x, deleted := y} := rfl

theorem foldl_unlinkItem_seldel (its : List Nat) (st : DL) (x y : List Nat) :
    its.foldl DL.unlinkItem ({st with selected := x, deleted := y} : DL) =
      {its.foldl DL.unlinkItem st with selected := x, deleted := y} := by
  induction its generalizing st with
  | nil => rfl
  | cons e r ih =>
    rw [List.foldl_cons, unlinkItem_seldel, ih, List.foldl_cons]

theorem foldl_unlink_foldl_delete_comm (its : List Nat) :
    ∀ (D : List Nat) (s : DL),
    its.foldl DL.unlinkItem (D.foldl DL.deleteOption s) =
      D.foldl DL.deleteOption (its.foldl DL.unlinkItem s) := by
  induction its with
  | nil => intro D s; rfl
  | cons e r ih =>
    intro D s
    rw [List.foldl_cons, List.foldl_cons, ← foldl_deleteOption_unlinkItem_comm]
    exact ih D (s.unlinkItem e)

set_option maxHeartbeats 1000000 in
theorem ForceOptions_pair {I : Nat} {opts : List (List Nat)} {C R : Finset Nat}
    {st : DL} {k j : Nat} (hwf : WfInput I opts)
    (hcan : Canonical I opts C R st) (hcw : ColWithin I opts st)
    (hdel : ∀ o ∈ st.deleted, o ∈ R)
    (hk : k < opts.length) (hkR : k ∉ R)
    (hjk : opts.getD j [] = opts.getD k []) :
    st.ForceOptions [k, j] =
      { st.ForceOptions [k] with
        selected := (st.ForceOptions [k]).selected ++ [j] } := by
  have hcankeep := hcan
  obtain ⟨-, -, h3, h4, -, -, -, hring, -, -, -, -, hcoh1, -⟩ := hcankeep
  have hcan' : Canonical I opts C R ({st with selected := st.selected ++ [k]} : DL) := hcan
  have hcw' : ColWithin I opts ({st with selected := st.selected ++ [k]} : DL) := hcw
  have hdel' : ∀ o ∈ ({st with selected := st.selected ++ [k]} : DL).deleted, o ∈ R := hdel
  obtain ⟨hchoose, hcanF, hcwF, -, -⟩ :=
    chooseOption_spec hwf hcan' hcw' hk hkR (L := st.deleted) hdel'
  have hstF : st.ForceOptions [k] =
      { (coverDels I opts R k).foldl DL.deleteOption
          ((opts.getD k []).foldl DL.unlinkItem
            ({st with selected := st.selected ++ [k]} : DL)) with
        deleted := st.deleted ++ coverDels I opts R k } := by
    rw [ForceOptions_cons, ForceOptions_nil, hchoose]
  have hcanF' : Canonical I opts (C ∪ (opts.getD k []).toFinset)
      (R ∪ (coverDels I opts R k).toFinset)
      ({st.ForceOptions [k] with
        selected := (st.ForceOptions [k]).selected ++ [j]} : DL) := by
    rw [hstF]
    exact hcanF
  have hcov : ∀ i ∈ opts.getD j [], i ∈ C ∪ (opts.getD k []).toFinset := by
    rw [hjk]
    intro i hi
    exact Finset.mem_union_right _ (List.mem_toFinset.mpr hi)
  have hq := chooseOption_covered hcanF' hcov ((st.ForceOptions [k]).deleted)
  have hfold : (opts.getD j []).foldl DL.unlinkItem
      ({st.ForceOptions [k] with
        selected := (st.ForceOptions [k]).selected ++ [j]} : DL) =
      ({st.ForceOptions [k] with
        selected := (st.ForceOptions [k]).selected ++ [j]} : DL) := by
    rw [hjk, hstF]
    show (opts.getD k []).foldl DL.unlinkItem
        ({ (coverDels I opts R k).foldl DL.deleteOption
             ((opts.getD k []).foldl DL.unlinkItem
               ({st with selected := st.selected ++ [k]} : DL)) with
           selected := ((coverDels I opts R k).foldl DL.deleteOption
             ((opts.getD k []).foldl DL.unlinkItem
               ({st with selected := st.selected ++ [k]} : DL))).selected ++ [j],
           deleted := st.deleted ++ coverDels I opts R k } : DL) =
      ({ (coverDels I opts R k).foldl DL.deleteOption
           ((opts.getD k []).foldl DL.unlinkItem
             ({st with selected := st.selected ++ [k]} : DL)) with
         selected := ((coverDels I opts R k).foldl DL.deleteOption
           ((opts.getD k []).foldl DL.unlinkItem
             ({st with selected := st.selected ++ [k]} : DL))).selected ++ [j],
         deleted := st.deleted ++ coverDels I opts R k } : DL)
    rw [foldl_unlinkItem_seldel, foldl_unlink_foldl_delete_comm]
    have hreplay : (opts.getD k []).foldl DL.unlinkItem
        ((opts.getD k []).foldl DL.unlinkItem
          ({st with selected := st.selected ++ [k]} : DL)) =
        (opts.getD k []).foldl DL.unlinkItem
          ({st with selected := st.selected ++ [k]} : DL) := by
      refine unlink_replay hring (ringOf_nodup I C) ?_
        (wf_option_facts hwf k).1 ⟨I, ?_, ?_⟩ ?_ ?_
      · intro i hi
        have hlt : i < I := (wf_option_facts hwf k).2 i hi
        have hiC : i ∉ C := fun hmem => hkR (hcoh1 i hmem k hk hi)
        exact List.mem_cons_of_mem _ (mem_activeList.mpr ⟨hlt, hiC⟩)
      · exact List.mem_cons_self I _
      · intro h
        have := (wf_option_facts hwf k).2 I h
        omega
      · intro n hn
        show n < st.right.length
        rw [h4]
        exact mem_ringOf_lt hn
      · intro n hn
        show n < st.left.length
        rw [h3]
        exact mem_ringOf_lt hn
    rw [hreplay]
  have hsplit : st.ForceOptions [k, j] = DL.ForceOptions (st.ForceOptions [k]) [j] := rfl
  rw [hsplit, ForceOptions_cons, ForceOptions_nil, hq, hfold]

set_option maxRecDepth 400000 in
/-- **C10.**  Forcing the same item set twice is absorbed: when options `j`
and `k` list identical items, `ForceOptions [k, j]` leaves every node link,
every `choices` counter and the deleted log in exactly the state produced by
`ForceOptions [k]` alone (only the `selected` record additionally notes `j`),
and a subsequent full enumeration delivers the identical list of solution
paths from either state. -/
theorem C10_double_force_identical {I : Nat} {opts : List (List Nat)}
    {C R : Finset Nat} {st : DL} {k j : Nat} (hwf : WfInput I opts)
    (hcan : Canonical I opts C R st) (hcw : ColWithin I opts st)
    (hdel : ∀ o ∈ st.deleted, o ∈ R)
    (hk : k < opts.length) (hkR : k ∉ R) (hj : j < opts.length)
    (hjk : opts.getD j [] = opts.getD k []) :
    st.ForceOptions [k, j] =
      { st.ForceOptions [k] with
        selected := (st.ForceOptions [k]).selected ++ [j] } ∧
    ∃ sols,
      EngineEval (fun _ _ => true) (st.ForceOptions [k, j]) [.search none []] [] 0 []
        (st.ForceOptions [k, j], sols.length, sols) ∧
      EngineEval (fun _ _ => true) (st.ForceOptions [k]) [.search none []] [] 0 []
        (st.ForceOptions [k], sols.length, sols) := by
  have hpair := ForceOptions_pair hwf hcan hcw hdel hk hkR hjk
  refine ⟨hpair, ?_⟩
  obtain ⟨C', R', hcan', hcw', -, -, -⟩ :=
    ForceOptions_spec hwf [k] C R st hcan hcw hdel ⟨hk, hkR, trivial⟩
  have hcan2 : Canonical I opts C' R' (st.ForceOptions [k, j]) := by
    rw [hpair]
    exact hcan'
  have hcw2 : ColWithin I opts (st.ForceOptions [k, j]) := by
    rw [hpair]
    exact hcw'
  exact ⟨subSols I opts ((activeList I C').length + 1) C' R',
    GenerateSolutions_complete hwf hcan2 hcw2,
    GenerateSolutions_complete hwf hcan' hcw'⟩

set_option maxRecDepth 400000 in
/-- C10 applied to the duplicate options 0 and 1 of the scenario S2 (both
list items {2,4}), forced from the fresh matrix. -/
theorem C10_double_force_identical_witness :
    (New 7 duplicatesOptions).ForceOptions [0, 1] =
      { (New 7 duplicatesOptions).ForceOptions [0] with
        selected := ((New 7 duplicatesOptions).ForceOptions [0]).selected ++ [1] } ∧
    ∃ sols,
      EngineEval (fun _ _ => true) ((New 7 duplicatesOptions).ForceOptions [0, 1])
        [.search none []] [] 0 []
        ((New 7 duplicatesOptions).ForceOptions [0, 1], sols.length, sols) ∧
      EngineEval (fun _ _ => true) ((New 7 duplicatesOptions).ForceOptions [0])
        [.search none []] [] 0 []
        ((New 7 duplicatesOptions).ForceOptions [0], sols.length, sols) :=
  C10_double_force_identical duplicatesOptions_wf (New_canonical 7 duplicatesOptions)
    (New_colWithin 7 duplicatesOptions) (by simp [New]) (by decide) (by decide)
    (by decide) (by decide)

/-! ## Claim theorems settled by concrete evaluation -/

set_option maxRecDepth 400000 in
/-- **C5.**  The claim says each Step carries three components — the item
branched on, the option chosen and the candidate list — but the source's
`Step` (`dancinglinks.go` lines 5-8) has exactly the two fields `option` and
`choices`; request paths carry no item component.  (The repository's own test
file builds three-field literals `Step{0, 3, []int{1, 3}}`, which do not even
compile against this struct.)  Evaluating the solver on the classic scenario
S1 shows the delivered steps are bare (option, choices) pairs. -/
theorem C5_step_has_no_item_field :
    (DL.AllSolutions (New 7 classicOptions) 200) =
      some [[⟨3, [1, 3]⟩, ⟨4, [4]⟩, ⟨0, [0]⟩]] := by decide

set_option maxRecDepth 400000 in
/-- **C3, counterexample to the restoration half.**  Running S2 with a yield
callback that returns false on its second invocation: `yield` is indeed
invoked exactly twice, but `GenerateSolutions` then executes Go's `return`
directly (line 308), abandoning the pending cleanup stages, so the links and
counters do NOT return to their entry values (the inline comment on lines
305-306 claims the opposite). -/
theorem C3_short_circuit_leaves_matrix_dirty :
    ((New 7 duplicatesOptions).GenerateSolutions (fun n _ => n + 1 < 2) 200).map
        (fun r => (r.2.1, decide (r.1.left = (New 7 duplicatesOptions).left ∧
          r.1.right = (New 7 duplicatesOptions).right ∧
          r.1.up = (New 7 duplicatesOptions).up ∧
          r.1.down = (New 7 duplicatesOptions).down ∧
          r.1.choices = (New 7 duplicatesOptions).choices))) =
      some (2, false) := by decide

set_option maxRecDepth 400000 in
/-- **C2, counterexample.**  On S2 with option 0 forced, the first delivered
path is `[6, 4]`; the multiset union of its options' item sets *together with
the forced option's items* is `{0,1,2,3,4,5,6}`, which is not the active item
set at search entry (`{0,1,3,5,6}` — the forced items 2 and 4 are no longer
active there).  The claim as stated therefore fails. -/
theorem C2_counterexample :
    ((DL.ForceOptions (New 7 duplicatesOptions) [0]).AllSolutions 200).map
        (fun sols => decide
          (itemsUnion (DL.ForceOptions (New 7 duplicatesOptions) [0])
              (((sols.headD []).map Step.option) ++
                (DL.ForceOptions (New 7 duplicatesOptions) [0]).selected) =
            ((DL.ForceOptions (New 7 duplicatesOptions) [0]).ringItems : Multiset Nat))) =
      some false := by decide

set_option maxRecDepth 400000 in
/-- **C9, counterexample.**  After forcing option 0 on S2, items 2 and 4 are
inactive.  `ToMatrix` reads each entry's column index from a Go map that
yields 0 for missing keys, so every option listing an inactive item spuriously
marks column 0; the result differs from the matrix described by the claim
(rows = options, columns = active items, cell true iff the option lists that
item). -/
theorem C9_counterexample :
    DL.ToMatrix (DL.ForceOptions (New 7 duplicatesOptions) [0]) ≠
      specMatrix (DL.ForceOptions (New 7 duplicatesOptions) [0]) := by decide

end DancingLinks
